import Mathlib

/-! ZepraSearch core: inverted index, ranker and crawl frontier

A shallow embedding of `backend/cpp_crawler/src/search/inverted_index.h`,
`search/ranker.h`, `crawler/crawler.h`, `text/parser.h`, `net/http_client.h` and
`search_engine.h`, followed by the properties of the specification that were checked
against it.

Conventions of the embedding
* `size_t` values (document ids, frequencies, token positions, counters) are
  natural numbers.  The only arithmetic on them is `frequency++` and
  `crawled_count_++`; a frequency never exceeds the number of positions held in
  memory, so no 64-bit wrap-around is reachable.
* `std::unordered_map` is an association list with unique keys.  Where the C++
  code iterates over an unordered container the enumeration order is a
  parameter (`HashOrder`), because the language leaves it unspecified.
  `libstdcxxOrder` is the order of the containers of libstdc++ while they hold at
  most 13 keys.
* `double` arithmetic is a parameter (`FloatOps`); `realOps` interprets it in
  the real numbers with `Real.log`.
* The worker threads of the crawler are a sequence of atomic steps (`CrawlStep`): each
  step is a block of the source that runs with the frontier lock held. The transport
  behind `HttpClient::get` is a parameter.
* `search/index_manager.h` and `storage/disk_index.h` declare their methods without bodies;
  `IndexManager.removeDocument` and the `DiskIndex` functions follow the specification
  instead, and their comments say so.
-/

namespace ZepraSearch

/-! ## `std::unordered_map` as an association list -/

/-- Lookup of a key, as `unordered_map::find`: `none` stands for `end()`. -/
def mapFind {κ ν : Type} [DecidableEq κ] (k : κ) : List (κ × ν) → Option ν
  | [] => none
  | (k1, v1) :: rest => if k1 = k then some v1 else mapFind k rest

/-- Assignment `m[k] = v`: overwrite the entry of `k` when there is one, create it otherwise. -/
def mapSet {κ ν : Type} [DecidableEq κ] (k : κ) (v : ν) : List (κ × ν) → List (κ × ν)
  | [] => [(k, v)]
  | (k1, v1) :: rest => if k1 = k then (k, v) :: rest else (k1, v1) :: mapSet k v rest

/-! ## `inverted_index.h` -/

/-- The record `InvertedIndex::Document`. -/
structure Document where
  id : Nat
  url : String
  title : String
  tokens : List String
  deriving DecidableEq, Repr

/-- The record `InvertedIndex::Posting`. -/
structure Posting where
  doc_id : Nat
  frequency : Nat
  positions : List Nat
  deriving DecidableEq, Repr

/-- The two private members of `class InvertedIndex`. -/
structure InvertedIndex where
  index_ : List (String × List Posting)
  documents_ : List (Nat × Document)
  deriving DecidableEq, Repr

/-- A default-constructed `InvertedIndex`. -/
def InvertedIndex.empty : InvertedIndex := ⟨[], []⟩

/-- The body of the token loop of `addDocument` on one posting list:
`find_if` for the first posting of `doc_id`; when found `frequency++` and
`positions.push_back(pos)`, otherwise `push_back({doc_id, 1, {pos}})`. -/
def notePosition (doc_id pos : Nat) : List Posting → List Posting
  | [] => [⟨doc_id, 1, [pos]⟩]
  | p :: ps =>
    if p.doc_id = doc_id then
      ⟨p.doc_id, p.frequency + 1, p.positions ++ [pos]⟩ :: ps
    else
      p :: notePosition doc_id pos ps

/-- Lookup `getPostings(term)` on the term map alone: the stored list, or the empty list. -/
def postingsOf (term : String) (index_ : List (String × List Posting)) : List Posting :=
  match mapFind term index_ with
  | some postings => postings
  | none => []

/-- The loop `for (pos = 0; pos < doc.tokens.size(); ++pos)` of `addDocument`,
started at position `pos` with the tokens that are still to be visited.
`index_[token]` creates an empty list for an unknown token. -/
def addTokens (doc_id : Nat) : Nat → List String → List (String × List Posting) →
    List (String × List Posting)
  | _, [], index_ => index_
  | pos, token :: rest, index_ =>
    addTokens doc_id (pos + 1) rest
      (mapSet token (notePosition doc_id pos (postingsOf token index_)) index_)

/-- The method `InvertedIndex::addDocument`. -/
def InvertedIndex.addDocument (self : InvertedIndex) (doc : Document) : InvertedIndex :=
  { index_ := addTokens doc.id 0 doc.tokens self.index_
    documents_ := mapSet doc.id doc self.documents_ }

/-- The method `InvertedIndex::getPostings`. -/
def InvertedIndex.getPostings (self : InvertedIndex) (term : String) : List Posting :=
  postingsOf term self.index_

/-- The method `InvertedIndex::getDocument`; `none` stands for the `std::out_of_range`
thrown by `documents_.at(id)`. -/
def InvertedIndex.getDocument (self : InvertedIndex) (id : Nat) : Option Document :=
  mapFind id self.documents_

/-- The method `InvertedIndex::getDocumentCount`. -/
def InvertedIndex.getDocumentCount (self : InvertedIndex) : Nat :=
  self.documents_.length

/-- The index obtained from the empty one by calling `addDocument` on each document in turn. -/
def buildIndex (docs : List Document) : InvertedIndex :=
  docs.foldl InvertedIndex.addDocument InvertedIndex.empty

/-- Positions `pos, pos+1, ...` at which `term` stands in the remaining tokens: the values
of the loop counter of `addDocument` at which the loop body touches the list of `term`. -/
def occurrences (term : String) : Nat → List String → List Nat
  | _, [] => []
  | pos, token :: rest =>
    if token = term then pos :: occurrences term (pos + 1) rest
    else occurrences term (pos + 1) rest

/-! ## `ranker.h` -/

/-- The record `Ranker::Result`; `S` is the type of `double` values. -/
structure Result (S : Type) where
  doc_id : Nat
  score : S

/-- The `double` operations used by `Ranker::rank`: conversion from `size_t`, the constants
`0.0` and `1.0`, `+`, `*`, `/`, `log` from `<cmath>` and the comparison `>`. -/
structure FloatOps (S : Type) where
  ofNat : Nat → S
  zero : S
  one : S
  add : S → S → S
  mul : S → S → S
  div : S → S → S
  log : S → S
  gt : S → S → Bool

/-- Enumeration orders of the two unordered containers of `Ranker::rank`. `setIter l` is the
order in which `for (size_t doc_id : candidate_docs)` visits the set after the keys `l` were
inserted in that sequence, `mapIter l` the same for the keys of `scores`. -/
structure HashOrder where
  setIter : List Nat → List Nat
  mapIter : List Nat → List Nat

/-- What C++ guarantees about iterating an unordered container: every stored key is visited,
exactly once, and nothing else is. The order itself is unspecified. -/
def HashOrder.Valid (H : HashOrder) : Prop :=
  ∀ l : List Nat,
    ((H.setIter l).Nodup ∧ ∀ x, x ∈ H.setIter l ↔ x ∈ l) ∧
    ((H.mapIter l).Nodup ∧ ∀ x, x ∈ H.mapIter l ↔ x ∈ l)

/-- The first loop of `rank`: the sequence of `candidate_docs.insert(posting.doc_id)` calls,
term by term and posting by posting. -/
def candidateInserts : List String → InvertedIndex → List Nat
  | [], _ => []
  | term :: rest, index =>
    (index.getPostings term).map Posting.doc_id ++ candidateInserts rest index

/-- One term of the score: `tf * idf` with `tf = 1.0 + log(it->frequency)` and
`idf = log(total_docs / (1.0 + postings.size()))`. -/
def termWeight {S : Type} (F : FloatOps S) (total_docs : Nat) (postings : List Posting)
    (it : Posting) : S :=
  F.mul (F.add F.one (F.log (F.ofNat it.frequency)))
    (F.log (F.div (F.ofNat total_docs) (F.add F.one (F.ofNat postings.length))))

/-- The inner loop of `rank` for one candidate: `score` starts at `0.0`; for every query
term, `find_if` looks for the first posting of `doc_id`, and `score += tf * idf` when there
is one. -/
def docScore {S : Type} (F : FloatOps S) (query_terms : List String) (index : InvertedIndex)
    (total_docs : Nat) (doc_id : Nat) : S :=
  query_terms.foldl
    (fun score term =>
      match (index.getPostings term).find? (fun p => decide (p.doc_id = doc_id)) with
      | some it => F.add score (termWeight F total_docs (index.getPostings term) it)
      | none => score)
    F.zero

/-- Insertion of `x` in front of a sorted list; `comp a b` reads "`a` goes before `b`". -/
def sortedInsert {α : Type} (comp : α → α → Bool) (x : α) : List α → List α
  | [] => [x]
  | y :: ys => if comp y x then y :: sortedInsert comp x ys else x :: y :: ys

/-- Model of `std::sort(first, last, comp)`: an insertion sort that leaves equivalent elements
in their input order. `std::sort` promises a sorted rearrangement and nothing about the
order of equivalent elements; in `rank` the input order is the enumeration order of `scores`,
already a parameter (`HashOrder`), and every sorted rearrangement is the output of this
sort on some input order (`stdSort_of_sorted`). The `std::sort` of libstdc++ is itself an
insertion sort on ranges of at most 16 elements, and returns what `stdSort` returns there,
equivalent elements included. -/
def stdSort {α : Type} (comp : α → α → Bool) (l : List α) : List α :=
  l.foldr (sortedInsert comp) []

/-- The function `Ranker::rank`. `scores[doc_id] = score` stores for each candidate the value
computed by `docScore`, and `results` is filled by enumerating `scores`. -/
def Ranker.rank {S : Type} (F : FloatOps S) (H : HashOrder) (query_terms : List String)
    (index : InvertedIndex) (total_docs : Nat) : List (Result S) :=
  let candidate_docs := H.setIter (candidateInserts query_terms index)
  let results := (H.mapIter candidate_docs).map
    (fun doc_id => (⟨doc_id, docScore F query_terms index total_docs doc_id⟩ : Result S))
  stdSort (fun a b => F.gt a.score b.score) results

/-- Interpretation of the `double` operations in the real numbers. -/
noncomputable def realOps : FloatOps ℝ where
  ofNat := fun n => (n : ℝ)
  zero := 0
  one := 1
  add := fun a b => a + b
  mul := fun a b => a * b
  div := fun a b => a / b
  log := Real.log
  gt := fun a b => decide (a > b)

/-- Keys in order of first insertion, later repetitions dropped. -/
def firstSeen : List Nat → List Nat
  | [] => []
  | x :: xs => x :: (firstSeen xs).filter (fun y => decide (y ≠ x))

/-- Containers that enumerate their keys in insertion order. -/
def insertionOrder : HashOrder := ⟨firstSeen, firstSeen⟩

/-- Insertion of a key into an ascending list. -/
def keyInsert (x : Nat) : List Nat → List Nat
  | [] => [x]
  | y :: ys => if x ≤ y then x :: y :: ys else y :: keyInsert x ys

/-- Containers that enumerate their keys in ascending key order, as a table hashing with the
identity and walking its buckets in order does. -/
def keyOrder : HashOrder :=
  ⟨fun l => (firstSeen l).foldr keyInsert [], fun l => (firstSeen l).foldr keyInsert []⟩

/-- Where the unordered containers of libstdc++ link the node of a new key `k` whose bucket
is not empty: right after the node that precedes the bucket, that is, in front of the first
node of the bucket. `nodes` is the node list of the table in enumeration order, `n` the bucket
count, and a key of type `size_t` hashes to itself, so its bucket is `k % n`. -/
def placeInBucket (n k : Nat) : List Nat → List Nat
  | [] => [k]
  | x :: xs => if x % n = k % n then k :: x :: xs else x :: placeInBucket n k xs

/-- Insertion of the key `k` into an unordered container of libstdc++ with `n` buckets: a key
that is present changes nothing; the node of a new key is linked at the head of the node list
when its bucket is empty, and in front of its bucket otherwise. -/
def tableInsert (n k : Nat) (nodes : List Nat) : List Nat :=
  if k ∈ nodes then nodes
  else if nodes.any (fun x => decide (x % n = k % n)) then placeInBucket n k nodes
  else k :: nodes

/-- The enumeration of an unordered container of libstdc++ after the insertions `keys`. The
table has 13 buckets from its first insertion until it holds more than 13 keys, so this is
the order of the library for containers of at most 13 keys. -/
def libstdcxxIter (keys : List Nat) : List Nat :=
  keys.foldl (fun nodes k => tableInsert 13 k nodes) []

/-- Containers that enumerate their keys as those of libstdc++ do. -/
def libstdcxxOrder : HashOrder := ⟨libstdcxxIter, libstdcxxIter⟩

/-- The tie-break rule of the specification, as a property of an output list: of two results
with equal scores, the one standing first was inserted first into the candidate set
(`inserts` is the sequence of insertions). -/
def TiesInInsertionOrder {S : Type} (inserts : List Nat) (out : List (Result S)) : Prop :=
  out.Pairwise
    (fun a b => a.score = b.score → inserts.indexOf a.doc_id < inserts.indexOf b.doc_id)

/-! ## `crawler.h` -/

/-- The data members of `class Crawler` (the two mutexes apart). `discovered_` is a
`std::unordered_set`: a list without repetitions of which only membership is observed. -/
structure Crawler where
  frontier_ : List String
  discovered_ : List String
  max_pages_ : Nat
  crawled_count_ : Nat
  deriving DecidableEq, Repr

/-- The constructor `Crawler(size_t max_pages)`. -/
def Crawler.init (max_pages : Nat) : Crawler := ⟨[], [], max_pages, 0⟩

/-- The call `discovered_.insert(url)`. -/
def setInsert (url : String) (set : List String) : List String :=
  if url ∈ set then set else set ++ [url]

/-- The seeding loop of `Crawler::start`, which runs before any worker thread exists:
`frontier_.push(url); discovered_.insert(url);` for every seed. -/
def Crawler.start (self : Crawler) (seed_urls : List String) : Crawler :=
  seed_urls.foldl
    (fun c url =>
      { c with frontier_ := c.frontier_ ++ [url], discovered_ := setInsert url c.discovered_ })
    self

/-- The link loop of `Crawler::processPage`, run under both locks:
`if (discovered_.find(link) == discovered_.end())` then push and insert. -/
def Crawler.admitLinks (self : Crawler) (links : List String) : Crawler :=
  links.foldl
    (fun c link =>
      if link ∈ c.discovered_ then c
      else { c with frontier_ := c.frontier_ ++ [link], discovered_ := setInsert link c.discovered_ })
    self

/-- The URLs of a list in order of first appearance, later repetitions dropped. -/
def firstAppearances : List String → List String
  | [] => []
  | x :: xs => x :: (firstAppearances xs).filter (fun y => decide (y ≠ x))

/-! ## `text/parser.h`

A `std::string` is read as its list of characters. `std::isalnum` and `std::tolower` are
the functions of the C locale: letters and digits are the ASCII ones, every other character
is neither and is left alone by `tolower`. -/

/-- The character `'`, accepted inside a token by `tokenize`. -/
def apostrophe : Char := Char.ofNat 39

/-- The character `"`, which closes a link in `extractLinks`. -/
def dquote : Char := Char.ofNat 34

/-- The test `std::isalnum(c) || c == '\''` of `tokenize`. -/
def isTokenChar (c : Char) : Bool := c.isAlphanum || c == apostrophe

/-- The loop `for (char c : text)` of `tokenize` with its two local variables, followed by
the final `if (!current.empty()) tokens.push_back(current)`. -/
def tokenizeLoop : List Char → List String → List Char → List String
  | [], tokens, current => if current ≠ [] then tokens ++ [String.mk current] else tokens
  | c :: cs, tokens, current =>
    if isTokenChar c then tokenizeLoop cs tokens (current ++ [c.toLower])
    else if current ≠ [] then tokenizeLoop cs (tokens ++ [String.mk current]) []
    else tokenizeLoop cs tokens current

/-- The function `TextParser::tokenize`. -/
def TextParser.tokenize (text : String) : List String :=
  tokenizeLoop text.data [] []

/-- A token of a text as `tokenize` forms them: the lower-cased copy of a non-empty run of
token characters that is maximal, that is, neither preceded nor followed by a token
character. -/
def IsTokenOf (text : List Char) (tok : String) : Prop :=
  ∃ pre run post, text = pre ++ run ++ post ∧ run ≠ [] ∧
    (∀ c ∈ run, isTokenChar c = true) ∧ tok = String.mk (run.map Char.toLower) ∧
    (∀ c, pre.getLast? = some c → isTokenChar c = false) ∧
    (∀ c, post.head? = some c → isTokenChar c = false)

/-- The space character. -/
def space : Char := Char.ofNat 32

/-- The characters of the tokens joined by single spaces. -/
def joinChars : List String → List Char
  | [] => []
  | t :: ts =>
    match ts with
    | [] => t.data
    | _ :: _ => t.data ++ space :: joinChars ts

/-- The text `join(" ", tokens)`. -/
def joinBySpace (tokens : List String) : String := String.mk (joinChars tokens)

/-- The text with `std::tolower` applied to every character. -/
def lowercase (text : String) : String := String.mk (text.data.map Char.toLower)

/-- Does the text `s` begin with `pat`? -/
def beginsWith : List Char → List Char → Bool
  | [], _ => true
  | _ :: _, [] => false
  | p :: ps, c :: cs => p == c && beginsWith ps cs

/-- First position `i, i+1, ...` at which `pat` occurs in the text whose first character
stands at position `i`. -/
def findIn (pat : List Char) : List Char → Nat → Option Nat
  | [], i => if pat = [] then some i else none
  | c :: cs, i => if beginsWith pat (c :: cs) then some i else findIn pat cs (i + 1)

/-- The call `s.find(pat, pos)` of `std::string`; `none` stands for `npos`. -/
def strFind (s pat : List Char) (pos : Nat) : Option Nat :=
  if pos ≤ s.length then findIn pat (s.drop pos) pos else none

/-- The text `href="`. -/
def hrefPattern : List Char := "href=".data ++ [dquote]

/-- The loop of `extractLinks` with its variables `pos` and `links`. Every round moves `pos`
forward, and `fuel` bounds the number of rounds. -/
def extractLinksLoop (html : List Char) : Nat → Nat → List String → List String
  | 0, _, links => links
  | fuel + 1, pos, links =>
    match strFind html hrefPattern pos with
    | none => links
    | some found =>
      match strFind html [dquote] (found + 6) with
      | none => links
      | some stop =>
        let url := (html.drop (found + 6)).take (stop - (found + 6))
        extractLinksLoop html fuel (stop + 1)
          (if url ≠ [] ∧ strFind url "://".data 0 ≠ none then links ++ [String.mk url]
           else links)

/-- The function `TextParser::extractLinks`. -/
def TextParser.extractLinks (html : String) : List String :=
  extractLinksLoop html.data (html.data.length + 1) 0 []

/-- The loop of `extractLinks` again, with the exhaustion of `fuel` made visible: `none`
reports that `fuel` rounds did not reach the end of the loop. -/
def extractLinksFuel (html : List Char) : Nat → Nat → List String → Option (List String)
  | 0, _, _ => none
  | fuel + 1, pos, links =>
    match strFind html hrefPattern pos with
    | none => some links
    | some found =>
      match strFind html [dquote] (found + 6) with
      | none => some links
      | some stop =>
        let url := (html.drop (found + 6)).take (stop - (found + 6))
        extractLinksFuel html fuel (stop + 1)
          (if url ≠ [] ∧ strFind url "://".data 0 ≠ none then links ++ [String.mk url]
           else links)

/-- The text between an occurrence of `href="` that starts at position `i` and the next
double quote, when there is such an occurrence and such a quote. -/
def hrefValueAt (html : List Char) (i : Nat) : Option (List Char) :=
  if beginsWith hrefPattern (html.drop i) then
    match strFind html [dquote] (i + 6) with
    | some stop => some ((html.drop (i + 6)).take (stop - (i + 6)))
    | none => none
  else none

/-- The values of the occurrences of `href="` that start at the given positions, in that
order, restricted to those that contain `://`. -/
def hrefLinksAt (html : List Char) (positions : List Nat) : List String :=
  (((positions.filterMap (hrefValueAt html)).filter
    (fun url => decide (strFind url "://".data 0 ≠ none))).map String.mk)

/-- The links of a page as the specification words them: for each occurrence of `href="`, in
order of appearance, the text up to the next double quote, kept when it contains `://`. -/
def linksByOccurrence (html : String) : List String :=
  hrefLinksAt html.data (List.range' 0 html.data.length)

/-- No occurrence of `href="` has, as its own double quote, the quote that closes the value
of an earlier occurrence. -/
def NoNestedHref (html : List Char) : Prop :=
  ∀ i j, i < j → beginsWith hrefPattern (html.drop i) = true →
    beginsWith hrefPattern (html.drop j) = true →
    strFind html [dquote] (i + 6) ≠ some (j + 5)

/-- A page in which the value of one `href` ends with the text `href=`, directly before the
closing quote: `href="xhref="http://a.example/"`. -/
def nestedHrefPage : String :=
  String.mk (hrefPattern ++ "x".data ++ hrefPattern ++ "http://a.example/".data ++ [dquote])

/-! ## `net/http_client.h` and the worker of `crawler.h` -/

/-- Outcome of one `HttpClient::get`: an exception, or a response of which the crawler reads
`status_code` and `body`. -/
inductive FetchResult where
  | threw : FetchResult
  | response (status_code : Int) (body : String) : FetchResult
  deriving DecidableEq, Repr

/-- The function `HttpClient::get`: `std::runtime_error("Invalid URL")` when the URL has no
`://`; what the transport answers otherwise (`net`, outside the program). -/
def HttpClient.get (net : String → FetchResult) (url : String) : FetchResult :=
  match strFind url.data "://".data 0 with
  | none => FetchResult.threw
  | some _ => net url

/-- The method `Crawler::processPage`: the links of the page are extracted, then admitted
under both locks. The tokens computed at its end are not used (the call of the indexer is
commented out in the source), so the method changes nothing else. -/
def Crawler.processPage (self : Crawler) (_url content : String) : Crawler :=
  self.admitLinks (TextParser.extractLinks content)

/-- The locked block at the head of a round of `Crawler::workerThread`: `none` when the
worker returns, the popped URL and the new state otherwise. -/
def Crawler.takeUrl (self : Crawler) : Option (String × Crawler) :=
  match self.frontier_ with
  | [] => none
  | url :: rest =>
    if self.crawled_count_ ≥ self.max_pages_ then none
    else some (url, { self with frontier_ := rest, crawled_count_ := self.crawled_count_ + 1 })

/-- The `try` block of `Crawler::workerThread` for a given outcome of `HttpClient::get`:
`processPage` on status 200, nothing otherwise; the exception is caught and dropped. -/
def Crawler.handleFetch (self : Crawler) (url : String) : FetchResult → Crawler
  | FetchResult.threw => self
  | FetchResult.response status_code body =>
    if status_code = 200 then self.processPage url body else self

/-- The method `Crawler::workerThread` run by one thread alone; `net n` is the transport at
the fetch that follows the `n`-th pop. `none` reports that `fuel` rounds did not reach the
`return`. -/
def Crawler.workerThread (net : Nat → String → FetchResult) : Nat → Crawler → Option Crawler
  | 0, _ => none
  | fuel + 1, self =>
    match self.takeUrl with
    | none => some self
    | some (url, popped) =>
      Crawler.workerThread net fuel
        (popped.handleFetch url (HttpClient.get (net popped.crawled_count_) url))

/-- One atomic step of some worker thread: the locked block that pops a URL, or a call of
`processPage`. -/
inductive CrawlStep where
  | take : CrawlStep
  | page (url content : String) : CrawlStep
  deriving DecidableEq, Repr

/-- A crawler state together with the history of its frontier: every URL pushed and every
URL popped so far, oldest first. -/
structure CrawlTrace where
  crawler : Crawler
  pushed : List String
  popped : List String
  deriving DecidableEq, Repr

/-- The URLs appended to the frontier between two states. -/
def pushedBetween (before after : Crawler) : List String :=
  after.frontier_.drop before.frontier_.length

/-- A fresh `Crawler(max_pages)` after the seeding loop of `start`. -/
def CrawlTrace.begin (max_pages : Nat) (seed_urls : List String) : CrawlTrace :=
  { crawler := (Crawler.init max_pages).start seed_urls
    pushed := pushedBetween (Crawler.init max_pages) ((Crawler.init max_pages).start seed_urls)
    popped := [] }

/-- Effect of one atomic step. A `take` that finds the frontier empty or the cap reached
changes nothing. -/
def CrawlTrace.step (t : CrawlTrace) : CrawlStep → CrawlTrace
  | CrawlStep.take =>
    match t.crawler.takeUrl with
    | none => t
    | some (url, popped) => { t with crawler := popped, popped := t.popped ++ [url] }
  | CrawlStep.page url content =>
    { t with
      crawler := t.crawler.processPage url content
      pushed := t.pushed ++ pushedBetween t.crawler (t.crawler.processPage url content) }

/-- The crawler after `start` and any sequence of atomic steps of its workers. -/
def CrawlTrace.run (max_pages : Nat) (seed_urls : List String) (steps : List CrawlStep) :
    CrawlTrace :=
  steps.foldl CrawlTrace.step (CrawlTrace.begin max_pages seed_urls)

/-- What every reachable crawl history satisfies (`crawlTrace_run_consistent`): the frontier
and everything ever pushed lie in the discovered set, the counter respects the cap and
counts the pops, and the cap is the one given to the constructor. -/
def CrawlTrace.Consistent (max_pages : Nat) (t : CrawlTrace) : Prop :=
  t.crawler.frontier_ ⊆ t.crawler.discovered_ ∧
  t.pushed ⊆ t.crawler.discovered_ ∧
  t.crawler.crawled_count_ ≤ t.crawler.max_pages_ ∧
  t.popped.length = t.crawler.crawled_count_ ∧
  t.crawler.max_pages_ = max_pages

/-! ## `search_engine.h` -/

/-- The data members of `class SearchEngine`. -/
structure SearchEngine where
  index_ : InvertedIndex
  crawler_ : Crawler
  deriving DecidableEq, Repr

/-- The constructor `SearchEngine()`: an empty index and a `Crawler` with the default
`max_pages = 1000`. -/
def SearchEngine.init : SearchEngine := ⟨InvertedIndex.empty, Crawler.init 1000⟩

/-- The loop of `search` over the ranked results: `docs.push_back(index_->getDocument(id))`;
`none` stands for the `std::out_of_range` of a missing id. -/
def collectDocuments {S : Type} (index : InvertedIndex) : List (Result S) → Option (List Document)
  | [] => some []
  | r :: rs =>
    match index.getDocument r.doc_id with
    | none => none
    | some doc =>
      match collectDocuments index rs with
      | none => none
      | some docs => some (doc :: docs)

/-- The method `SearchEngine::search`. -/
def SearchEngine.search {S : Type} (F : FloatOps S) (H : HashOrder) (self : SearchEngine)
    (query : String) : Option (List Document) :=
  collectDocuments self.index_
    (Ranker.rank F H (TextParser.tokenize query) self.index_ self.index_.getDocumentCount)

/-- The method `SearchEngine::crawl`, that is `crawler_.start(seed_urls)`: the seeding loop,
then the worker pool, here one worker running until it returns (the other workers then find
the same condition and return at once). -/
def SearchEngine.crawl (net : Nat → String → FetchResult) (self : SearchEngine)
    (seed_urls : List String) : SearchEngine :=
  let seeded := self.crawler_.start seed_urls
  match Crawler.workerThread net (seeded.max_pages_ - seeded.crawled_count_ + 1) seeded with
  | some crawler => { self with crawler_ := crawler }
  | none => { self with crawler_ := seeded }

/-- A page whose only content is one link to `url`. -/
def pageLinking (url : String) : String :=
  String.mk ("<a href=".data ++ [dquote] ++ url.data ++ [dquote] ++ ">x</a>".data)

/-! ## `search/index_manager.h`

The header declares `IndexManager` and its methods; their bodies are in no source file. -/

/-- Modelled from the spec: the body of `IndexManager::removeDocument(url)`, which is declared
in `index_manager.h` and defined in no source file. Section 4.2: it "must scan every term's
posting list and drop any posting whose doc_id matches, plus delete the document record", and
it fails with `NotFound` (here `none`) when no stored document has the URL. The document is
looked up by its URL, the unique key of section 3. -/
def IndexManager.removeDocument (index : InvertedIndex) (url : String) : Option InvertedIndex :=
  match index.documents_.find? (fun e => decide (e.2.url = url)) with
  | none => none
  | some (id, _) =>
    some
      { index_ := index.index_.map
          (fun e => (e.1, e.2.filter (fun p => decide (p.doc_id ≠ id))))
        documents_ := index.documents_.filter (fun e => decide (e.1 ≠ id)) }

/-! ## `storage/disk_index.h`

The header declares `DiskIndex::save`, `DiskIndex::load` and the helpers `writePostings` and
`readPostings`; their bodies are in no source file. The file on disk is a sequence of
numbers. -/

/-- Modelled from the spec: a sequence of `size_t` values in the file, its length first
(section 6 leaves the layout to the implementation; `DiskIndex` has no body in the sources). -/
def writeNats (xs : List Nat) : List Nat := xs.length :: xs

/-- Modelled from the spec: reading back what `writeNats` wrote; `none` is a read failure. -/
def readNats : List Nat → Option (List Nat × List Nat)
  | [] => none
  | n :: rest => if n ≤ rest.length then some (rest.take n, rest.drop n) else none

/-- Modelled from the spec: a string in the file, as the sequence of its character codes. -/
def writeString (x : String) : List Nat := writeNats (x.data.map Char.toNat)

/-- Modelled from the spec: reading back what `writeString` wrote. -/
def readString (file : List Nat) : Option (String × List Nat) :=
  match readNats file with
  | none => none
  | some (codes, rest) => some (String.mk (codes.map Char.ofNat), rest)

/-- Modelled from the spec: the records of a list written one after the other. -/
def writeAll {α : Type} (write : α → List Nat) : List α → List Nat
  | [] => []
  | x :: xs => write x ++ writeAll write xs

/-- Modelled from the spec: reading `n` records one after the other. -/
def readMany {α : Type} (read : List Nat → Option (α × List Nat)) :
    Nat → List Nat → Option (List α × List Nat)
  | 0, file => some ([], file)
  | n + 1, file =>
    match read file with
    | none => none
    | some (x, rest) =>
      match readMany read n rest with
      | none => none
      | some (xs, rest2) => some (x :: xs, rest2)

/-- Modelled from the spec: a list in the file, the number of its records first. -/
def writeList {α : Type} (write : α → List Nat) (xs : List α) : List Nat :=
  xs.length :: writeAll write xs

/-- Modelled from the spec: reading back what `writeList` wrote. -/
def readList {α : Type} (read : List Nat → Option (α × List Nat)) :
    List Nat → Option (List α × List Nat)
  | [] => none
  | n :: rest => readMany read n rest

/-- Modelled from the spec: one posting in the file, "(doc_id, frequency, positions)". -/
def writePosting (p : Posting) : List Nat :=
  p.doc_id :: p.frequency :: writeNats p.positions

/-- Modelled from the spec: reading back what `writePosting` wrote. -/
def readPosting : List Nat → Option (Posting × List Nat)
  | doc_id :: frequency :: rest =>
    match readNats rest with
    | none => none
    | some (positions, rest2) => some (⟨doc_id, frequency, positions⟩, rest2)
  | _ => none

/-- Modelled from the spec: the helper `DiskIndex::writePostings`, declared without a body:
the posting list of one term. -/
def DiskIndex.writePostings (postings : List Posting) : List Nat :=
  writeList writePosting postings

/-- Modelled from the spec: the helper `DiskIndex::readPostings`, declared without a body. -/
def DiskIndex.readPostings (file : List Nat) : Option (List Posting × List Nat) :=
  readList readPosting file

/-- Modelled from the spec: one term with its postings in the file. -/
def writeTerm (e : String × List Posting) : List Nat :=
  writeString e.1 ++ DiskIndex.writePostings e.2

/-- Modelled from the spec: reading back what `writeTerm` wrote. -/
def readTerm (file : List Nat) : Option ((String × List Posting) × List Nat) :=
  match readString file with
  | none => none
  | some (term, rest) =>
    match DiskIndex.readPostings rest with
    | none => none
    | some (postings, rest2) => some ((term, postings), rest2)

/-- Modelled from the spec: one document in the file, "(id, url, title, tokens)". -/
def writeDocument (d : Document) : List Nat :=
  d.id :: (writeString d.url ++ (writeString d.title ++ writeList writeString d.tokens))

/-- Modelled from the spec: reading back what `writeDocument` wrote. -/
def readDocument : List Nat → Option (Document × List Nat)
  | [] => none
  | id :: rest =>
    match readString rest with
    | none => none
    | some (url, rest2) =>
      match readString rest2 with
      | none => none
      | some (title, rest3) =>
        match readList readString rest3 with
        | none => none
        | some (tokens, rest4) => some (⟨id, url, title, tokens⟩, rest4)

/-- Orders in which `save` enumerates the two unordered maps of the index. -/
structure DiskOrder where
  termOrder : List (String × List Posting) → List (String × List Posting)
  docOrder : List Document → List Document

/-- Every entry of a map is enumerated exactly once. -/
def DiskOrder.Valid (E : DiskOrder) : Prop :=
  (∀ l, (E.termOrder l).Perm l) ∧ ∀ l, (E.docOrder l).Perm l

/-- Modelled from the spec: `DiskIndex::save`, declared without a body. Section 6: the file
holds "all current terms, their postings (doc_id, frequency, positions), and all documents
(id, url, title, tokens)". -/
def DiskIndex.save (E : DiskOrder) (index : InvertedIndex) : List Nat :=
  writeList writeTerm (E.termOrder index.index_) ++
    writeList writeDocument (E.docOrder (index.documents_.map Prod.snd))

/-- Modelled from the spec: `DiskIndex::load` into a fresh `InvertedIndex`, declared without
a body: the terms and the documents of the file are put into empty maps; `none` is the
`IOError` of a file that cannot be read. -/
def DiskIndex.load (file : List Nat) : Option InvertedIndex :=
  match readList readTerm file with
  | none => none
  | some (terms, rest) =>
    match readList readDocument rest with
    | none => none
    | some (docs, _) =>
      some
        { index_ := terms.foldl (fun m e => mapSet e.1 e.2 m) []
          documents_ := docs.foldl (fun m d => mapSet d.id d m) [] }

/-- An enumeration that visits the entries in reverse order of insertion. -/
def reverseDiskOrder : DiskOrder := ⟨List.reverse, List.reverse⟩

/-! ## Example data -/

/-- Document A of the ranking example: `cat` three times. -/
def docA : Document := ⟨1, "http://a.example/", "A", ["cat", "cat", "cat"]⟩

/-- Document B of the ranking example: `cat` once and `dog` once. -/
def docB : Document := ⟨2, "http://b.example/", "B", ["cat", "dog"]⟩

/-- Document C of the ranking example: neither `cat` nor `dog`. -/
def docC : Document := ⟨3, "http://c.example/", "C", ["bird"]⟩

/-- Document D, stored ahead of the example documents: `cat` once, id 5. -/
def docD : Document := ⟨5, "http://d.example/", "D", ["cat"]⟩

/-- Document P of the three-way tie example: `cat` once, id 1. -/
def docP : Document := ⟨1, "http://p.example/", "P", ["cat"]⟩

/-- Document Q of the three-way tie example: `cat` once, id 15. -/
def docQ : Document := ⟨15, "http://q.example/", "Q", ["cat"]⟩

/-- Document R of the three-way tie example: `cat` once, id 14. -/
def docR : Document := ⟨14, "http://r.example/", "R", ["cat"]⟩

/-- First of two documents stored under one URL: `cat` once, id 1. -/
def docF : Document := ⟨1, "http://dup.example/", "F", ["cat"]⟩

/-- Second of two documents stored under one URL: `dog` once, id 2. -/
def docG : Document := ⟨2, "http://dup.example/", "G", ["dog"]⟩

/-! ### Lemmas on the association lists -/

theorem mapFind_mapSet {κ ν : Type} [DecidableEq κ] (k k0 : κ) (v : ν) (m : List (κ × ν)) :
    mapFind k (mapSet k0 v m) = if k0 = k then some v else mapFind k m := by
  induction m with
  | nil => simp [mapSet, mapFind]
  | cons e rest ih =>
    obtain ⟨k1, v1⟩ := e
    by_cases h1 : k1 = k0
    · subst h1
      by_cases h2 : k1 = k <;> simp [mapSet, mapFind, h2]
    · by_cases h2 : k1 = k
      · subst h2
        have h3 : ¬ k0 = k1 := fun h => h1 h.symm
        simp [mapSet, mapFind, h1, h3]
      · simp [mapSet, mapFind, h1, h2, ih]

theorem postingsOf_mapSet (t token : String) (v : List Posting)
    (m : List (String × List Posting)) :
    postingsOf t (mapSet token v m) = if token = t then v else postingsOf t m := by
  unfold postingsOf
  rw [mapFind_mapSet]
  by_cases h : token = t <;> simp [h]

/-! ### Lemmas on `notePosition` -/

theorem notePosition_filter_ne (id pos d : Nat) (h : id ≠ d) (l : List Posting) :
    (notePosition id pos l).filter (fun q => decide (q.doc_id = d)) =
      l.filter (fun q => decide (q.doc_id = d)) := by
  induction l with
  | nil => simp [notePosition, h]
  | cons p ps ih =>
    by_cases hp : p.doc_id = id
    · have hd : ¬ p.doc_id = d := fun e => h (hp ▸ e)
      simp [notePosition, hp, List.filter_cons, hd, h]
    · simp [notePosition, hp, List.filter_cons, ih]

theorem notePosition_filter_eq (id pos : Nat) (l : List Posting) :
    (notePosition id pos l).filter (fun q => decide (q.doc_id = id)) =
      notePosition id pos (l.filter (fun q => decide (q.doc_id = id))) := by
  induction l with
  | nil => simp [notePosition]
  | cons p ps ih =>
    by_cases hp : p.doc_id = id
    · simp [notePosition, hp, List.filter_cons]
    · simp [notePosition, hp, List.filter_cons, ih]

theorem mem_notePosition (id pos : Nat) (l : List Posting) (p : Posting)
    (h : p ∈ notePosition id pos l) : p.doc_id = id ∨ p ∈ l := by
  induction l with
  | nil =>
    simp [notePosition] at h
    left; rw [h]
  | cons q qs ih =>
    by_cases hq : q.doc_id = id
    · simp [notePosition, hq] at h
      rcases h with h | h
      · left; rw [h]
      · right; exact List.mem_cons_of_mem _ h
    · simp [notePosition, hq] at h
      rcases h with h | h
      · right; rw [h]; exact List.mem_cons_self _ _
      · rcases ih h with h1 | h1
        · left; exact h1
        · right; exact List.mem_cons_of_mem _ h1

theorem notePosition_ids (id pos : Nat) (l : List Posting) :
    (notePosition id pos l).map Posting.doc_id =
      if id ∈ l.map Posting.doc_id then l.map Posting.doc_id
      else l.map Posting.doc_id ++ [id] := by
  induction l with
  | nil => simp [notePosition]
  | cons q qs ih =>
    by_cases hq : q.doc_id = id
    · simp [notePosition, hq]
    · have hq2 : ¬ id = q.doc_id := fun e => hq e.symm
      by_cases hm : id ∈ qs.map Posting.doc_id
      · simp only [notePosition, hq, if_false, List.map_cons, ih, hm, if_true,
          List.mem_cons, or_true]
      · simp only [notePosition, hq, if_false, List.map_cons, ih, hm, List.mem_cons, hq2,
          or_self, List.cons_append]

theorem notePosition_balanced (id pos : Nat) (l : List Posting)
    (h : ∀ p ∈ l, p.frequency = p.positions.length) :
    ∀ p ∈ notePosition id pos l, p.frequency = p.positions.length := by
  induction l with
  | nil =>
    intro p hp
    simp [notePosition] at hp
    subst hp; rfl
  | cons q qs ih =>
    intro p hp
    by_cases hq : q.doc_id = id
    · simp [notePosition, hq] at hp
      rcases hp with hp | hp
      · subst hp
        simp [h q (List.mem_cons_self _ _)]
      · exact h p (List.mem_cons_of_mem _ hp)
    · simp [notePosition, hq] at hp
      rcases hp with hp | hp
      · subst hp; exact h p (List.mem_cons_self _ _)
      · exact ih (fun r hr => h r (List.mem_cons_of_mem _ hr)) p hp

/-- Repeated `notePosition` on the list of a fresh document id. -/
theorem foldl_notePosition_single (id n : Nat) (ps occ : List Nat) :
    occ.foldl (fun l pos => notePosition id pos l) [⟨id, n, ps⟩] =
      [⟨id, n + occ.length, ps ++ occ⟩] := by
  induction occ generalizing n ps with
  | nil => simp
  | cons o os ih =>
    simp only [List.foldl_cons, notePosition, if_true, ih, List.length_cons, List.append_assoc,
      List.singleton_append]
    congr 2
    omega

theorem foldl_notePosition_nil (id : Nat) (o : Nat) (os : List Nat) :
    (o :: os).foldl (fun l pos => notePosition id pos l) [] =
      [⟨id, (o :: os).length, o :: os⟩] := by
  simp only [List.foldl_cons, notePosition, foldl_notePosition_single, List.length_cons,
    List.singleton_append]
  congr 2
  omega

theorem foldl_notePosition_filter_ne (id d : Nat) (h : id ≠ d) (occ : List Nat)
    (l : List Posting) :
    (occ.foldl (fun l pos => notePosition id pos l) l).filter (fun q => decide (q.doc_id = d)) =
      l.filter (fun q => decide (q.doc_id = d)) := by
  induction occ generalizing l with
  | nil => rfl
  | cons o os ih => rw [List.foldl_cons, ih, notePosition_filter_ne id o d h]

theorem foldl_notePosition_filter_eq (id : Nat) (occ : List Nat) (l : List Posting) :
    (occ.foldl (fun l pos => notePosition id pos l) l).filter
        (fun q => decide (q.doc_id = id)) =
      occ.foldl (fun l pos => notePosition id pos l)
        (l.filter (fun q => decide (q.doc_id = id))) := by
  induction occ generalizing l with
  | nil => rfl
  | cons o os ih => rw [List.foldl_cons, ih, notePosition_filter_eq, List.foldl_cons]

/-! ### Lemmas on `addTokens` and `addDocument` -/

theorem length_occurrences (t : String) (pos : Nat) (tokens : List String) :
    (occurrences t pos tokens).length = tokens.count t := by
  induction tokens generalizing pos with
  | nil => rfl
  | cons token rest ih =>
    by_cases h : token = t
    · simp [occurrences, h, ih]
    · have h2 : (token == t) = false := by simpa using h
      simp [occurrences, h, ih, List.count_cons, h2]

/-- The posting list of `t` after the token loop: only the occurrences of `t` touch it. -/
theorem postingsOf_addTokens (id : Nat) (t : String) (pos : Nat) (tokens : List String)
    (m : List (String × List Posting)) :
    postingsOf t (addTokens id pos tokens m) =
      (occurrences t pos tokens).foldl (fun l p => notePosition id p l) (postingsOf t m) := by
  induction tokens generalizing pos m with
  | nil => rfl
  | cons token rest ih =>
    by_cases h : token = t
    · subst h
      simp [addTokens, occurrences, ih, postingsOf_mapSet]
    · simp [addTokens, occurrences, ih, postingsOf_mapSet, h]

theorem getPostings_addDocument (self : InvertedIndex) (doc : Document) (t : String) :
    (self.addDocument doc).getPostings t =
      (occurrences t 0 doc.tokens).foldl (fun l p => notePosition doc.id p l)
        (self.getPostings t) := by
  simp [InvertedIndex.addDocument, InvertedIndex.getPostings, postingsOf_addTokens]

theorem getDocument_addDocument (self : InvertedIndex) (doc : Document) (i : Nat) :
    (self.addDocument doc).getDocument i =
      if doc.id = i then some doc else self.getDocument i := by
  simp [InvertedIndex.addDocument, InvertedIndex.getDocument, mapFind_mapSet]

theorem buildIndex_append (pre post : List Document) :
    buildIndex (pre ++ post) = post.foldl InvertedIndex.addDocument (buildIndex pre) := by
  simp [buildIndex, List.foldl_append]

/-- Induction over the indexes reachable from the empty one by `addDocument`. -/
theorem buildIndex_induction (P : InvertedIndex → Prop) (h0 : P InvertedIndex.empty)
    (hstep : ∀ idx doc, P idx → P (idx.addDocument doc)) (docs : List Document) :
    P (buildIndex docs) := by
  suffices h : ∀ idx, P idx → P (docs.foldl InvertedIndex.addDocument idx) from h _ h0
  induction docs with
  | nil => intro idx h; exact h
  | cons d ds ih => intro idx h; exact ih _ (hstep idx d h)

theorem mem_foldl_notePosition (id : Nat) (occ : List Nat) (l : List Posting) (p : Posting)
    (h : p ∈ occ.foldl (fun l pos => notePosition id pos l) l) : p.doc_id = id ∨ p ∈ l := by
  induction occ generalizing l with
  | nil => right; exact h
  | cons o os ih =>
    rcases ih _ h with h1 | h1
    · left; exact h1
    · exact mem_notePosition id o l p h1

theorem foldl_notePosition_nodup (id : Nat) (occ : List Nat) (l : List Posting)
    (h : (l.map Posting.doc_id).Nodup) :
    ((occ.foldl (fun l pos => notePosition id pos l) l).map Posting.doc_id).Nodup := by
  induction occ generalizing l with
  | nil => exact h
  | cons o os ih =>
    apply ih
    rw [notePosition_ids]
    by_cases hm : id ∈ l.map Posting.doc_id
    · rw [if_pos hm]; exact h
    · rw [if_neg hm]
      apply List.Nodup.append h (List.nodup_singleton id)
      intro x hx hx2
      rw [List.mem_singleton] at hx2
      exact hm (hx2 ▸ hx)

theorem foldl_notePosition_balanced (id : Nat) (occ : List Nat) (l : List Posting)
    (h : ∀ p ∈ l, p.frequency = p.positions.length) :
    ∀ p ∈ occ.foldl (fun l pos => notePosition id pos l) l,
      p.frequency = p.positions.length := by
  induction occ generalizing l with
  | nil => exact h
  | cons o os ih => exact ih _ (notePosition_balanced id o l h)

theorem getPostings_empty (t : String) : InvertedIndex.empty.getPostings t = [] := rfl

/-- Every posting of a reachable index refers to a stored document. -/
theorem posting_has_document (docs : List Document) :
    ∀ t p, p ∈ (buildIndex docs).getPostings t →
      ((buildIndex docs).getDocument p.doc_id).isSome = true := by
  apply buildIndex_induction
    (fun idx => ∀ t p, p ∈ idx.getPostings t → (idx.getDocument p.doc_id).isSome = true)
  · intro t p hp
    simp [getPostings_empty] at hp
  · intro idx doc ih t p hp
    rw [getPostings_addDocument] at hp
    rw [getDocument_addDocument]
    rcases mem_foldl_notePosition _ _ _ _ hp with h | h
    · simp [h]
    · by_cases hd : doc.id = p.doc_id
      · simp [hd]
      · simp [hd, ih t p h]

theorem getDocument_foldl_isSome (docs : List Document) (idx : InvertedIndex) (i : Nat)
    (h : ((docs.foldl InvertedIndex.addDocument idx).getDocument i).isSome = true) :
    i ∈ docs.map Document.id ∨ (idx.getDocument i).isSome = true := by
  induction docs generalizing idx with
  | nil => right; exact h
  | cons d ds ih =>
    rcases ih _ h with h1 | h1
    · left; simp only [List.map_cons, List.mem_cons]; right; exact h1
    · rw [getDocument_addDocument] at h1
      by_cases hd : d.id = i
      · left; simp [hd]
      · right; simpa [hd] using h1

/-- The document ids that occur in the postings of a reachable index were all added. -/
theorem posting_id_added (docs : List Document) (t : String) (p : Posting)
    (hp : p ∈ (buildIndex docs).getPostings t) : p.doc_id ∈ docs.map Document.id := by
  have h := posting_has_document docs t p hp
  rcases getDocument_foldl_isSome docs InvertedIndex.empty p.doc_id h with h1 | h1
  · exact h1
  · simp [InvertedIndex.getDocument, InvertedIndex.empty, mapFind] at h1

/-- Adding documents with other ids leaves the postings of document `i` untouched. -/
theorem filter_getPostings_foldl (post : List Document) (idx : InvertedIndex) (i : Nat)
    (t : String) (h : i ∉ post.map Document.id) :
    ((post.foldl InvertedIndex.addDocument idx).getPostings t).filter
        (fun q => decide (q.doc_id = i)) =
      (idx.getPostings t).filter (fun q => decide (q.doc_id = i)) := by
  induction post generalizing idx with
  | nil => rfl
  | cons d ds ih =>
    simp only [List.map_cons, List.mem_cons, not_or] at h
    rw [List.foldl_cons, ih _ h.2, getPostings_addDocument,
      foldl_notePosition_filter_ne d.id i (fun e => h.1 e.symm)]

/-- Adding a document whose id has no posting yet in the list of `t`. -/
theorem filter_getPostings_addDocument_fresh (idx : InvertedIndex) (d : Document) (t : String)
    (hfresh : ∀ p ∈ idx.getPostings t, p.doc_id ≠ d.id) (ht : t ∈ d.tokens) :
    ((idx.addDocument d).getPostings t).filter (fun q => decide (q.doc_id = d.id)) =
      [⟨d.id, d.tokens.count t, occurrences t 0 d.tokens⟩] := by
  rw [getPostings_addDocument, foldl_notePosition_filter_eq]
  have h0 : (idx.getPostings t).filter (fun q => decide (q.doc_id = d.id)) = [] := by
    rw [List.filter_eq_nil_iff]
    intro p hp
    simpa using hfresh p hp
  rw [h0]
  have hlen := length_occurrences t 0 d.tokens
  cases hocc : occurrences t 0 d.tokens with
  | nil =>
    rw [hocc] at hlen
    have : 0 < d.tokens.count t := List.count_pos_iff.mpr ht
    simp at hlen
    omega
  | cons o os =>
    rw [foldl_notePosition_nil, ← hocc, hlen]

/-! ### Lemmas on enumeration orders -/

theorem mem_firstSeen (l : List Nat) (x : Nat) : x ∈ firstSeen l ↔ x ∈ l := by
  induction l with
  | nil => simp [firstSeen]
  | cons y ys ih =>
    by_cases h : x = y
    · simp [firstSeen, h]
    · simp [firstSeen, h, List.mem_filter, ih]

theorem nodup_firstSeen (l : List Nat) : (firstSeen l).Nodup := by
  induction l with
  | nil => simp [firstSeen]
  | cons y ys ih =>
    simp only [firstSeen, List.nodup_cons, List.mem_filter]
    refine ⟨?_, ih.filter _⟩
    simp

theorem firstSeen_of_nodup (l : List Nat) (h : l.Nodup) : firstSeen l = l := by
  induction l with
  | nil => rfl
  | cons y ys ih =>
    rw [List.nodup_cons] at h
    simp only [firstSeen, ih h.2]
    congr 1
    rw [List.filter_eq_self]
    intro a ha
    have : a ≠ y := fun e => h.1 (e ▸ ha)
    simpa using this

theorem insertionOrder_valid : insertionOrder.Valid := by
  intro l
  exact ⟨⟨nodup_firstSeen l, mem_firstSeen l⟩, ⟨nodup_firstSeen l, mem_firstSeen l⟩⟩

theorem perm_keyInsert (x : Nat) (l : List Nat) : (keyInsert x l).Perm (x :: l) := by
  induction l with
  | nil => simp [keyInsert]
  | cons y ys ih =>
    by_cases h : x ≤ y
    · simp [keyInsert, h]
    · simp only [keyInsert, h, if_false]
      exact ((List.Perm.cons y ih).trans (List.Perm.swap x y ys))

theorem perm_foldr_keyInsert (l : List Nat) : (l.foldr keyInsert []).Perm l := by
  induction l with
  | nil => simp
  | cons y ys ih =>
    simp only [List.foldr_cons]
    exact (perm_keyInsert y _).trans (List.Perm.cons y ih)

theorem keyOrder_valid : keyOrder.Valid := by
  intro l
  have hp := perm_foldr_keyInsert (firstSeen l)
  have h1 : ((firstSeen l).foldr keyInsert []).Nodup := hp.nodup_iff.mpr (nodup_firstSeen l)
  have h2 : ∀ x, x ∈ (firstSeen l).foldr keyInsert [] ↔ x ∈ l := by
    intro x
    rw [hp.mem_iff, mem_firstSeen]
  exact ⟨⟨h1, h2⟩, ⟨h1, h2⟩⟩

theorem perm_placeInBucket (n k : Nat) (l : List Nat) :
    (placeInBucket n k l).Perm (k :: l) := by
  induction l with
  | nil => simp [placeInBucket]
  | cons y ys ih =>
    by_cases h : y % n = k % n
    · simp [placeInBucket, h]
    · simp only [placeInBucket, h, if_false]
      exact ((List.Perm.cons y ih).trans (List.Perm.swap k y ys))

theorem perm_tableInsert (n k : Nat) (l : List Nat) (h : k ∉ l) :
    (tableInsert n k l).Perm (k :: l) := by
  unfold tableInsert
  rw [if_neg h]
  split
  · exact perm_placeInBucket n k l
  · exact List.Perm.refl _

theorem tableInsert_spec (n k : Nat) (l : List Nat) (hl : l.Nodup) :
    (tableInsert n k l).Nodup ∧ ∀ x, x ∈ tableInsert n k l ↔ x ∈ l ∨ x = k := by
  by_cases h : k ∈ l
  · have e : tableInsert n k l = l := by simp [tableInsert, h]
    rw [e]
    refine ⟨hl, fun x => ⟨Or.inl, ?_⟩⟩
    rintro (hx | hx)
    · exact hx
    · exact hx ▸ h
  · have hp := perm_tableInsert n k l h
    refine ⟨hp.nodup_iff.mpr (List.nodup_cons.mpr ⟨h, hl⟩), fun x => ?_⟩
    rw [hp.mem_iff, List.mem_cons]
    exact or_comm

theorem foldl_tableInsert_spec (n : Nat) (keys : List Nat) :
    ∀ nodes : List Nat, nodes.Nodup →
      (keys.foldl (fun nodes k => tableInsert n k nodes) nodes).Nodup ∧
        ∀ x, x ∈ keys.foldl (fun nodes k => tableInsert n k nodes) nodes ↔
          x ∈ nodes ∨ x ∈ keys := by
  induction keys with
  | nil => intro nodes h; simpa using h
  | cons k ks ih =>
    intro nodes h
    obtain ⟨h1, h2⟩ := tableInsert_spec n k nodes h
    obtain ⟨h3, h4⟩ := ih (tableInsert n k nodes) h1
    refine ⟨h3, fun x => ?_⟩
    simp only [List.foldl_cons]
    rw [h4, h2, List.mem_cons, or_assoc]

theorem libstdcxxOrder_valid : libstdcxxOrder.Valid := by
  intro l
  obtain ⟨h1, h2⟩ := foldl_tableInsert_spec 13 l [] List.nodup_nil
  have h3 : ∀ x, x ∈ libstdcxxIter l ↔ x ∈ l := by
    intro x
    simpa using h2 x
  exact ⟨⟨h1, h3⟩, ⟨h1, h3⟩⟩

/-! ### Lemmas on `stdSort` -/

theorem perm_sortedInsert {α : Type} (comp : α → α → Bool) (x : α) (l : List α) :
    (sortedInsert comp x l).Perm (x :: l) := by
  induction l with
  | nil => simp [sortedInsert]
  | cons y ys ih =>
    by_cases h : comp y x = true
    · simp only [sortedInsert, h, if_true]
      exact ((List.Perm.cons y ih).trans (List.Perm.swap x y ys))
    · simp [sortedInsert, h]

theorem perm_stdSort {α : Type} (comp : α → α → Bool) (l : List α) :
    (stdSort comp l).Perm l := by
  induction l with
  | nil => simp [stdSort]
  | cons y ys ih =>
    simp only [stdSort, List.foldr_cons]
    exact (perm_sortedInsert comp y _).trans (List.Perm.cons y ih)

/-- Insertion keeps a list sorted when `comp` is asymmetric and its negation is transitive
(the requirements of a strict weak ordering that `std::sort` places on its comparator). -/
theorem pairwise_sortedInsert {α : Type} (comp : α → α → Bool)
    (hasym : ∀ a b, comp a b = true → comp b a = false)
    (htrans : ∀ a b c, comp b a = false → comp c b = false → comp c a = false)
    (x : α) (l : List α) (h : l.Pairwise (fun a b => comp b a = false)) :
    (sortedInsert comp x l).Pairwise (fun a b => comp b a = false) := by
  induction l with
  | nil => simp [sortedInsert]
  | cons y ys ih =>
    rw [List.pairwise_cons] at h
    by_cases hc : comp y x = true
    · simp only [sortedInsert, hc, if_true, List.pairwise_cons]
      refine ⟨?_, ih h.2⟩
      intro z hz
      rcases List.mem_cons.mp ((perm_sortedInsert comp x ys).mem_iff.mp hz) with hz1 | hz1
      · rw [hz1]; exact hasym _ _ hc
      · exact h.1 z hz1
    · have hc2 : comp y x = false := by simpa using hc
      simp only [sortedInsert, hc2, Bool.false_eq_true, if_false, List.pairwise_cons]
      refine ⟨?_, h.1, h.2⟩
      intro z hz
      rcases List.mem_cons.mp hz with hz1 | hz1
      · rw [hz1]; exact hc2
      · exact htrans x y z hc2 (h.1 z hz1)

theorem pairwise_stdSort {α : Type} (comp : α → α → Bool)
    (hasym : ∀ a b, comp a b = true → comp b a = false)
    (htrans : ∀ a b c, comp b a = false → comp c b = false → comp c a = false)
    (l : List α) : (stdSort comp l).Pairwise (fun a b => comp b a = false) := by
  induction l with
  | nil => simp [stdSort]
  | cons y ys ih =>
    simp only [stdSort, List.foldr_cons]
    exact pairwise_sortedInsert comp hasym htrans y _ ih

/-- A list that is already sorted is returned as it is. -/
theorem stdSort_of_sorted {α : Type} (comp : α → α → Bool) (l : List α)
    (h : l.Pairwise (fun a b => comp b a = false)) : stdSort comp l = l := by
  induction l with
  | nil => rfl
  | cons y ys ih =>
    rw [List.pairwise_cons] at h
    have e : stdSort comp (y :: ys) = sortedInsert comp y (stdSort comp ys) := rfl
    rw [e, ih h.2]
    cases ys with
    | nil => rfl
    | cons z zs =>
      have hz : comp z y = false := h.1 z (List.mem_cons_self _ _)
      simp [sortedInsert, hz]

theorem sublist_sortedInsert {α : Type} (comp : α → α → Bool) (x : α) (l : List α) :
    l.Sublist (sortedInsert comp x l) := by
  induction l with
  | nil => simp [sortedInsert]
  | cons y ys ih =>
    by_cases h : comp y x = true
    · simp only [sortedInsert, h, if_true]
      exact ih.cons₂ y
    · simp only [sortedInsert, h, if_false]
      exact List.Sublist.cons x (List.Sublist.refl _)

/-- An element inserted into a list stops in front of every element that `comp` does not
order before it. -/
theorem sortedInsert_before {α : Type} (comp : α → α → Bool) (x y : α) (l : List α)
    (hy : y ∈ l) (hc : comp y x = false) : [x, y].Sublist (sortedInsert comp x l) := by
  induction l with
  | nil => simp at hy
  | cons z zs ih =>
    by_cases h : comp z x = true
    · have hne : y ≠ z := by
        intro e
        rw [e, h] at hc
        exact Bool.noConfusion hc
      have hy2 : y ∈ zs := by
        rcases List.mem_cons.mp hy with e | e
        · exact absurd e hne
        · exact e
      simp only [sortedInsert, h, if_true]
      exact List.Sublist.cons z (ih hy2)
    · simp only [sortedInsert, h, if_false]
      exact List.Sublist.cons₂ x (List.singleton_sublist.mpr hy)

/-- The sort leaves in place what the comparator does not order: when `x` stands before `y` in
the input and `comp y x` is false, `x` stands before `y` in the output. -/
theorem stdSort_keeps_order {α : Type} (comp : α → α → Bool) (x y : α) (hc : comp y x = false)
    (l : List α) (h : [x, y].Sublist l) : [x, y].Sublist (stdSort comp l) := by
  induction l with
  | nil => simp at h
  | cons z zs ih =>
    have e : stdSort comp (z :: zs) = sortedInsert comp z (stdSort comp zs) := rfl
    rw [e]
    cases h with
    | cons _ h1 => exact (ih h1).trans (sublist_sortedInsert comp z _)
    | cons₂ _ h1 =>
      have hy : y ∈ stdSort comp zs :=
        (perm_stdSort comp zs).mem_iff.mpr (List.singleton_sublist.mp h1)
      exact sortedInsert_before comp x y _ hy hc

/-! ### Lemmas on `rank` -/

theorem mem_candidateInserts (query_terms : List String) (index : InvertedIndex) (d : Nat) :
    d ∈ candidateInserts query_terms index ↔
      ∃ t ∈ query_terms, ∃ p ∈ index.getPostings t, p.doc_id = d := by
  induction query_terms with
  | nil => simp [candidateInserts]
  | cons term rest ih =>
    simp only [candidateInserts, List.mem_append, List.mem_map, ih, List.mem_cons,
      exists_eq_or_imp]

/-- The results before sorting, in the enumeration order of `scores`. -/
theorem rank_perm {S : Type} (F : FloatOps S) (H : HashOrder) (query_terms : List String)
    (index : InvertedIndex) (total_docs : Nat) :
    (Ranker.rank F H query_terms index total_docs).Perm
      ((H.mapIter (H.setIter (candidateInserts query_terms index))).map
        (fun doc_id =>
          (⟨doc_id, docScore F query_terms index total_docs doc_id⟩ : Result S))) :=
  perm_stdSort _ _

theorem rank_doc_ids_perm {S : Type} (F : FloatOps S) (H : HashOrder)
    (query_terms : List String) (index : InvertedIndex) (total_docs : Nat) :
    ((Ranker.rank F H query_terms index total_docs).map Result.doc_id).Perm
      (H.mapIter (H.setIter (candidateInserts query_terms index))) := by
  have h := (rank_perm F H query_terms index total_docs).map Result.doc_id
  simpa [List.map_map, Function.comp_def] using h

/-- Every result carries the score computed for its document. -/
theorem rank_score_eq {S : Type} (F : FloatOps S) (H : HashOrder) (query_terms : List String)
    (index : InvertedIndex) (total_docs : Nat) (r : Result S)
    (hr : r ∈ Ranker.rank F H query_terms index total_docs) :
    r.score = docScore F query_terms index total_docs r.doc_id := by
  have h := (rank_perm F H query_terms index total_docs).mem_iff.mp hr
  rw [List.mem_map] at h
  obtain ⟨d, _, rfl⟩ := h
  rfl

theorem valid_setIter_nil (H : HashOrder) (hH : H.Valid) : H.setIter [] = [] := by
  apply List.eq_nil_iff_forall_not_mem.mpr
  intro x hx
  simpa using ((hH []).1.2 x).mp hx

theorem valid_mapIter_nil (H : HashOrder) (hH : H.Valid) : H.mapIter [] = [] := by
  apply List.eq_nil_iff_forall_not_mem.mpr
  intro x hx
  simpa using ((hH []).2.2 x).mp hx

theorem valid_iter_mem (H : HashOrder) (hH : H.Valid) (l : List Nat) (x : Nat) :
    x ∈ H.mapIter (H.setIter l) ↔ x ∈ l := by
  rw [(hH _).2.2 x, (hH _).1.2 x]

theorem valid_iter_perm (H : HashOrder) (hH : H.Valid) (l : List Nat) (hl : l.Nodup) :
    (H.mapIter (H.setIter l)).Perm l :=
  (List.perm_ext_iff_of_nodup (hH _).2.1 hl).mpr (valid_iter_mem H hH l)

/-- The accumulation loop of `docScore` over the reals, started at `a`, adds to `a` one
summand per query term. -/
theorem foldl_score_eq_sum (index : InvertedIndex) (total_docs doc_id : Nat)
    (query_terms : List String) (a : ℝ) :
    query_terms.foldl
      (fun score term =>
        match (index.getPostings term).find? (fun p => decide (p.doc_id = doc_id)) with
        | some it => realOps.add score (termWeight realOps total_docs (index.getPostings term) it)
        | none => score) a =
    a + (query_terms.map (fun term =>
        match (index.getPostings term).find? (fun p => decide (p.doc_id = doc_id)) with
        | some p => (1 + Real.log (p.frequency : ℝ)) *
            Real.log ((total_docs : ℝ) / (1 + ((index.getPostings term).length : ℝ)))
        | none => 0)).sum := by
  induction query_terms generalizing a with
  | nil => simp
  | cons t ts ih =>
    simp only [List.foldl_cons, List.map_cons, List.sum_cons]
    rw [ih]
    cases (index.getPostings t).find? (fun p => decide (p.doc_id = doc_id)) with
    | none => simp
    | some w =>
      simp only [termWeight, realOps]
      ring

theorem docScore_real_eq_sum (query_terms : List String) (index : InvertedIndex)
    (total_docs doc_id : Nat) :
    docScore realOps query_terms index total_docs doc_id =
      (query_terms.map (fun term =>
        match (index.getPostings term).find? (fun p => decide (p.doc_id = doc_id)) with
        | some p => (1 + Real.log (p.frequency : ℝ)) *
            Real.log ((total_docs : ℝ) / (1 + ((index.getPostings term).length : ℝ)))
        | none => 0)).sum := by
  have h := foldl_score_eq_sum index total_docs doc_id query_terms 0
  rw [zero_add] at h
  exact h

theorem foldl_notePosition_ids_of_mem (id : Nat) (occ : List Nat) (l : List Posting)
    (h : id ∈ l.map Posting.doc_id) :
    (occ.foldl (fun l pos => notePosition id pos l) l).map Posting.doc_id =
      l.map Posting.doc_id := by
  induction occ generalizing l with
  | nil => rfl
  | cons o os ih =>
    have e : (notePosition id o l).map Posting.doc_id = l.map Posting.doc_id := by
      rw [notePosition_ids, if_pos h]
    rw [List.foldl_cons, ih _ (e ▸ h), e]

theorem foldl_notePosition_ids_fresh (id o : Nat) (os : List Nat) (l : List Posting)
    (h : id ∉ l.map Posting.doc_id) :
    ((o :: os).foldl (fun l pos => notePosition id pos l) l).map Posting.doc_id =
      l.map Posting.doc_id ++ [id] := by
  have e : (notePosition id o l).map Posting.doc_id = l.map Posting.doc_id ++ [id] := by
    rw [notePosition_ids, if_neg h]
  rw [List.foldl_cons, foldl_notePosition_ids_of_mem id os _ (by rw [e]; simp), e]

theorem occurrences_eq_nil_iff (t : String) (pos : Nat) (tokens : List String) :
    occurrences t pos tokens = [] ↔ t ∉ tokens := by
  rw [← List.length_eq_zero, length_occurrences, List.count_eq_zero]

/-- With pairwise distinct ids, the posting list of `t` has one posting per document that
contains `t`, in the order in which these documents were added. -/
theorem getPostings_ids (docs : List Document) (hids : (docs.map Document.id).Nodup)
    (t : String) :
    ((buildIndex docs).getPostings t).map Posting.doc_id =
      (docs.filter (fun d => decide (t ∈ d.tokens))).map Document.id := by
  induction docs using List.reverseRecOn with
  | nil => rfl
  | append_singleton pre d ih =>
    rw [List.map_append, List.nodup_append] at hids
    have hfresh : d.id ∉ ((buildIndex pre).getPostings t).map Posting.doc_id := by
      intro hm
      obtain ⟨p, hp, hpe⟩ := List.mem_map.mp hm
      have h1 := posting_id_added pre t p hp
      rw [hpe] at h1
      exact hids.2.2 h1 (by simp)
    rw [buildIndex_append, List.foldl_cons, List.foldl_nil, getPostings_addDocument,
      List.filter_append, List.map_append, ← ih hids.1]
    by_cases ht : t ∈ d.tokens
    · cases hocc : occurrences t 0 d.tokens with
      | nil => exact absurd ht ((occurrences_eq_nil_iff t 0 d.tokens).mp hocc)
      | cons o os =>
        rw [foldl_notePosition_ids_fresh d.id o os _ hfresh]
        simp [ht]
    · rw [(occurrences_eq_nil_iff t 0 d.tokens).mpr ht]
      simp [ht]

/-- A one-term query whose term has `total_docs - 1` postings scores every document `0`:
the idf factor is `ln (total_docs / total_docs) = 0`. -/
theorem docScore_single_idf_zero (index : InvertedIndex) (t : String) (total_docs doc_id : Nat)
    (h : total_docs = 1 + (index.getPostings t).length) :
    docScore realOps [t] index total_docs doc_id = 0 := by
  rw [docScore_real_eq_sum]
  have hidf : Real.log ((total_docs : ℝ) / (1 + ((index.getPostings t).length : ℝ))) = 0 := by
    have hne : (1 + ((index.getPostings t).length : ℝ)) ≠ 0 := by positivity
    rw [h]
    push_cast
    rw [div_self hne, Real.log_one]
  simp only [List.map_cons, List.map_nil, List.sum_cons, List.sum_nil, add_zero, hidf, mul_zero]
  split <;> rfl

theorem mapSet_ne_nil {κ ν : Type} [DecidableEq κ] (k : κ) (v : ν) (m : List (κ × ν)) :
    mapSet k v m ≠ [] := by
  cases m with
  | nil => simp [mapSet]
  | cons e rest =>
    obtain ⟨k1, v1⟩ := e
    by_cases h : k1 = k <;> simp [mapSet, h]

theorem foldl_addDocument_documents_ne_nil (docs : List Document) (idx : InvertedIndex)
    (h : idx.documents_ ≠ []) :
    (docs.foldl InvertedIndex.addDocument idx).documents_ ≠ [] := by
  induction docs generalizing idx with
  | nil => exact h
  | cons d ds ih => exact ih _ (mapSet_ne_nil d.id d idx.documents_)

/-- An index reached by `addDocument` calls that holds no document is the empty index. -/
theorem buildIndex_count_zero (docs : List Document)
    (h : (buildIndex docs).getDocumentCount = 0) : docs = [] := by
  cases docs with
  | nil => rfl
  | cons d ds =>
    exfalso
    have h1 : (buildIndex (d :: ds)).documents_ ≠ [] :=
      foldl_addDocument_documents_ne_nil ds _ (mapSet_ne_nil d.id d _)
    exact h1 (List.length_eq_zero.mp h)

/-- In an index reached by `addDocument` calls that holds no document, no term has a
posting. -/
theorem getPostings_of_count_zero (docs : List Document)
    (h : (buildIndex docs).getDocumentCount = 0) (t : String) :
    (buildIndex docs).getPostings t = [] := by
  rw [buildIndex_count_zero docs h]
  rfl

/-! ### Lemmas on the document map -/

theorem getDocument_buildIndex (docs : List Document) (i : Nat) :
    (buildIndex docs).getDocument i = docs.reverse.find? (fun d => decide (d.id = i)) := by
  induction docs using List.reverseRecOn with
  | nil => rfl
  | append_singleton pre d ih =>
    rw [buildIndex_append, List.foldl_cons, List.foldl_nil, getDocument_addDocument, ih,
      List.reverse_append, List.reverse_singleton, List.singleton_append, List.find?_cons]
    by_cases h : d.id = i <;> simp [h]

theorem keys_mapSet {κ ν : Type} [DecidableEq κ] (k : κ) (v : ν) (m : List (κ × ν)) :
    (mapSet k v m).map Prod.fst =
      if k ∈ m.map Prod.fst then m.map Prod.fst else m.map Prod.fst ++ [k] := by
  induction m with
  | nil => simp [mapSet]
  | cons e rest ih =>
    obtain ⟨k1, v1⟩ := e
    by_cases h1 : k1 = k
    · simp [mapSet, h1]
    · have h2 : ¬ k = k1 := fun e => h1 e.symm
      by_cases hm : k ∈ rest.map Prod.fst
      · simp only [mapSet, h1, if_false, List.map_cons, ih, hm, if_true, List.mem_cons,
          or_true]
      · simp only [mapSet, h1, if_false, List.map_cons, ih, hm, List.mem_cons, h2, or_self,
          List.cons_append]

theorem firstSeen_append_singleton (l : List Nat) (x : Nat) :
    firstSeen (l ++ [x]) = if x ∈ l then firstSeen l else firstSeen l ++ [x] := by
  induction l with
  | nil => simp [firstSeen]
  | cons y ys ih =>
    show y :: (firstSeen (ys ++ [x])).filter (fun z => decide (z ≠ y)) = _
    rw [ih]
    by_cases hm : x ∈ ys
    · simp [hm, firstSeen]
    · by_cases hxy : x = y
      · subst hxy
        simp [hm, firstSeen, List.filter_append]
      · simp [hm, hxy, firstSeen, List.filter_append]

/-- The keys of the document map are the ids added, each once, in order of first addition. -/
theorem documents_keys (docs : List Document) :
    (buildIndex docs).documents_.map Prod.fst = firstSeen (docs.map Document.id) := by
  induction docs using List.reverseRecOn with
  | nil => rfl
  | append_singleton pre d ih =>
    rw [buildIndex_append, List.foldl_cons, List.foldl_nil, List.map_append, List.map_cons,
      List.map_nil, firstSeen_append_singleton, ← ih]
    simp only [InvertedIndex.addDocument, keys_mapSet]
    by_cases hm : d.id ∈ pre.map Document.id
    · have hm2 : d.id ∈ (buildIndex pre).documents_.map Prod.fst := by
        rw [ih, mem_firstSeen]; exact hm
      rw [if_pos hm, if_pos hm2]
    · have hm2 : d.id ∉ (buildIndex pre).documents_.map Prod.fst := by
        rw [ih, mem_firstSeen]; exact hm
      rw [if_neg hm, if_neg hm2]

theorem length_firstSeen (l : List Nat) : (firstSeen l).length = l.toFinset.card := by
  rw [List.card_toFinset]
  apply List.Perm.length_eq
  apply (List.perm_ext_iff_of_nodup (nodup_firstSeen l) (List.nodup_dedup l)).mpr
  intro x
  rw [mem_firstSeen, List.mem_dedup]

theorem getDocumentCount_buildIndex (docs : List Document) :
    (buildIndex docs).getDocumentCount = (docs.map Document.id).toFinset.card := by
  rw [← length_firstSeen, ← documents_keys]
  simp [InvertedIndex.getDocumentCount]

theorem foldl_notePosition_head_aux (p : Posting) (rest : List Posting) (occ : List Nat) :
    occ.foldl (fun l pos => notePosition p.doc_id pos l) (p :: rest) =
      ⟨p.doc_id, p.frequency + occ.length, p.positions ++ occ⟩ :: rest := by
  induction occ generalizing p with
  | nil => simp
  | cons o os ih =>
    have h := ih ⟨p.doc_id, p.frequency + 1, p.positions ++ [o]⟩
    simp only at h
    simp only [List.foldl_cons, notePosition, ↓reduceIte]
    rw [h]
    simp only [List.length_cons, List.append_assoc, List.singleton_append]
    congr 2
    omega

/-- Repeated `notePosition` on a list that starts with a posting of the document. -/
theorem foldl_notePosition_head (id : Nat) (p : Posting) (rest : List Posting) (hp : p.doc_id = id)
    (occ : List Nat) :
    occ.foldl (fun l pos => notePosition id pos l) (p :: rest) =
      ⟨p.doc_id, p.frequency + occ.length, p.positions ++ occ⟩ :: rest := by
  subst hp
  exact foldl_notePosition_head_aux p rest occ

/-! ### Lemmas on `search` -/

theorem getDocument_id (docs : List Document) (i : Nat) (d : Document)
    (h : (buildIndex docs).getDocument i = some d) : d.id = i := by
  rw [getDocument_buildIndex] at h
  simpa using List.find?_some h

theorem collectDocuments_of_stored {S : Type} (index : InvertedIndex) (rs : List (Result S))
    (h : ∀ r ∈ rs, ∃ doc, index.getDocument r.doc_id = some doc) :
    ∃ out, collectDocuments index rs = some out ∧
      rs.map (fun r => index.getDocument r.doc_id) = out.map some := by
  induction rs with
  | nil => exact ⟨[], rfl, rfl⟩
  | cons r rs ih =>
    obtain ⟨doc, hdoc⟩ := h r (List.mem_cons_self _ _)
    obtain ⟨out, hout, hmap⟩ := ih (fun x hx => h x (List.mem_cons_of_mem _ hx))
    refine ⟨doc :: out, ?_, ?_⟩
    · simp [collectDocuments, hdoc, hout]
    · simp [hdoc, hmap]

theorem ids_of_stored {S : Type} (docs : List Document) (rs : List (Result S))
    (out : List Document)
    (hmap : rs.map (fun r => (buildIndex docs).getDocument r.doc_id) = out.map some) :
    out.map Document.id = rs.map Result.doc_id := by
  induction rs generalizing out with
  | nil =>
    cases out with
    | nil => rfl
    | cons o os => simp at hmap
  | cons r rs ih =>
    cases out with
    | nil => simp at hmap
    | cons o os =>
      simp only [List.map_cons, List.cons.injEq] at hmap ⊢
      exact ⟨getDocument_id docs r.doc_id o hmap.1, ih os hmap.2⟩

/-- In an index reached by `addDocument` calls, every ranked result has a stored document. -/
theorem rank_result_stored {S : Type} (F : FloatOps S) (H : HashOrder) (hH : H.Valid)
    (docs : List Document) (terms : List String) (total_docs : Nat) (r : Result S)
    (hr : r ∈ Ranker.rank F H terms (buildIndex docs) total_docs) :
    ∃ doc, (buildIndex docs).getDocument r.doc_id = some doc := by
  have hid : r.doc_id ∈ (Ranker.rank F H terms (buildIndex docs) total_docs).map
      Result.doc_id := List.mem_map_of_mem _ hr
  rw [(rank_doc_ids_perm F H terms (buildIndex docs) total_docs).mem_iff,
    valid_iter_mem H hH, mem_candidateInserts] at hid
  obtain ⟨t, _, p, hp, hpe⟩ := hid
  rw [← hpe]
  exact Option.isSome_iff_exists.mp (posting_has_document docs t p hp)

theorem getPostings_foldl_of_absent (docs : List Document) (idx : InvertedIndex) (t : String)
    (h0 : idx.getPostings t = []) (h : ∀ d ∈ docs, t ∉ d.tokens) :
    (docs.foldl InvertedIndex.addDocument idx).getPostings t = [] := by
  induction docs generalizing idx with
  | nil => exact h0
  | cons d ds ih =>
    apply ih
    · rw [getPostings_addDocument,
        (occurrences_eq_nil_iff t 0 d.tokens).mpr (h d (List.mem_cons_self _ _)), h0]
      rfl
    · intro x hx
      exact h x (List.mem_cons_of_mem _ hx)

/-- A term that occurs in no added document has no posting. -/
theorem getPostings_of_absent (docs : List Document) (t : String)
    (h : ∀ d ∈ docs, t ∉ d.tokens) : (buildIndex docs).getPostings t = [] :=
  getPostings_foldl_of_absent docs InvertedIndex.empty t rfl h

/-- Without a posting for any query term there is no candidate and `rank` returns nothing. -/
theorem rank_eq_nil_of_no_postings {S : Type} (F : FloatOps S) (H : HashOrder) (hH : H.Valid)
    (query_terms : List String) (index : InvertedIndex) (total_docs : Nat)
    (h : ∀ t ∈ query_terms, index.getPostings t = []) :
    Ranker.rank F H query_terms index total_docs = [] := by
  have hins : candidateInserts query_terms index = [] := by
    apply List.eq_nil_iff_forall_not_mem.mpr
    intro d hd
    obtain ⟨t, ht, p, hp, _⟩ := (mem_candidateInserts query_terms index d).mp hd
    rw [h t ht] at hp
    simp at hp
  simp [Ranker.rank, hins, valid_setIter_nil H hH, valid_mapIter_nil H hH, stdSort]

/-! ### Lemmas on the crawler -/

theorem mem_setInsert_self (url : String) (set : List String) : url ∈ setInsert url set := by
  unfold setInsert
  by_cases h : url ∈ set <;> simp [h]

theorem subset_setInsert (url : String) (set : List String) : set ⊆ setInsert url set := by
  unfold setInsert
  by_cases h : url ∈ set <;> simp [h]

/-- The seeding loop appends every seed to the frontier and records it as discovered. -/
theorem start_effect (seed_urls : List String) (c : Crawler) :
    (c.start seed_urls).frontier_ = c.frontier_ ++ seed_urls ∧
      seed_urls ⊆ (c.start seed_urls).discovered_ ∧
      c.discovered_ ⊆ (c.start seed_urls).discovered_ ∧
      (c.start seed_urls).max_pages_ = c.max_pages_ ∧
      (c.start seed_urls).crawled_count_ = c.crawled_count_ := by
  induction seed_urls generalizing c with
  | nil => simp [Crawler.start]
  | cons url rest ih =>
    have h := ih (⟨c.frontier_ ++ [url], setInsert url c.discovered_, c.max_pages_, c.crawled_count_⟩ : Crawler)
    have e : c.start (url :: rest) =
        Crawler.start (⟨c.frontier_ ++ [url], setInsert url c.discovered_, c.max_pages_, c.crawled_count_⟩ : Crawler) rest := rfl
    rw [e]
    obtain ⟨h1, h2, h3, h4, h5⟩ := h
    refine ⟨by rw [h1]; simp, ?_, ?_, h4, h5⟩
    · intro x hx
      rcases List.mem_cons.mp hx with hx1 | hx1
      · rw [hx1]; exact h3 (mem_setInsert_self url c.discovered_)
      · exact h2 hx1
    · intro x hx
      exact h3 (subset_setInsert url c.discovered_ hx)

/-- The link loop only appends to the frontier, and only URLs that it records as
discovered; it never removes a discovered URL and leaves the counters alone. -/
theorem admitLinks_effect (links : List String) (c : Crawler) :
    (∃ new, (c.admitLinks links).frontier_ = c.frontier_ ++ new ∧
        new ⊆ (c.admitLinks links).discovered_) ∧
      c.discovered_ ⊆ (c.admitLinks links).discovered_ ∧
      (c.admitLinks links).max_pages_ = c.max_pages_ ∧
      (c.admitLinks links).crawled_count_ = c.crawled_count_ := by
  induction links generalizing c with
  | nil => exact ⟨⟨[], by simp [Crawler.admitLinks], by simp⟩, by simp [Crawler.admitLinks],
      rfl, rfl⟩
  | cons link rest ih =>
    by_cases hl : link ∈ c.discovered_
    · have e : c.admitLinks (link :: rest) = c.admitLinks rest := by
        simp [Crawler.admitLinks, hl]
      rw [e]
      exact ih c
    · have e : c.admitLinks (link :: rest) =
          Crawler.admitLinks (⟨c.frontier_ ++ [link], setInsert link c.discovered_, c.max_pages_, c.crawled_count_⟩ : Crawler) rest := by
        simp [Crawler.admitLinks, hl]
      rw [e]
      obtain ⟨⟨new, h1, h2⟩, h3, h4, h5⟩ := ih (⟨c.frontier_ ++ [link], setInsert link c.discovered_, c.max_pages_, c.crawled_count_⟩ : Crawler)
      refine ⟨⟨link :: new, by rw [h1]; simp, ?_⟩, ?_, h4, h5⟩
      · intro x hx
        rcases List.mem_cons.mp hx with hx1 | hx1
        · rw [hx1]; exact h3 (mem_setInsert_self link c.discovered_)
        · exact h2 hx1
      · intro x hx
        exact h3 (subset_setInsert link c.discovered_ hx)

theorem pushedBetween_append (before after : Crawler) (new : List String)
    (h : after.frontier_ = before.frontier_ ++ new) : pushedBetween before after = new := by
  simp [pushedBetween, h]

theorem takeUrl_some (c popped : Crawler) (url : String)
    (h : c.takeUrl = some (url, popped)) :
    c.frontier_ = url :: popped.frontier_ ∧ popped.discovered_ = c.discovered_ ∧
      c.crawled_count_ < c.max_pages_ ∧ popped.crawled_count_ = c.crawled_count_ + 1 ∧
      popped.max_pages_ = c.max_pages_ := by
  unfold Crawler.takeUrl at h
  cases hf : c.frontier_ with
  | nil => simp [hf] at h
  | cons u rest =>
    by_cases hc : c.crawled_count_ ≥ c.max_pages_
    · simp [hf, hc] at h
    · simp only [hf, hc, if_false, Option.some.injEq, Prod.mk.injEq] at h
      obtain ⟨h1, h2⟩ := h
      subst h1 h2
      exact ⟨rfl, rfl, Nat.lt_of_not_ge hc, rfl, rfl⟩

theorem takeUrl_none (c : Crawler) (h : c.frontier_ = [] ∨ c.crawled_count_ ≥ c.max_pages_) :
    c.takeUrl = none := by
  unfold Crawler.takeUrl
  cases hf : c.frontier_ with
  | nil => rfl
  | cons u rest =>
    rcases h with h | h
    · simp [hf] at h
    · simp [h]

theorem handleFetch_counters (c : Crawler) (url : String) (outcome : FetchResult) :
    (c.handleFetch url outcome).max_pages_ = c.max_pages_ ∧
      (c.handleFetch url outcome).crawled_count_ = c.crawled_count_ := by
  cases outcome with
  | threw => exact ⟨rfl, rfl⟩
  | response status_code body =>
    by_cases hs : status_code = 200
    · simp only [Crawler.handleFetch, hs, if_true, Crawler.processPage]
      exact (admitLinks_effect _ c).2.2
    · simp [Crawler.handleFetch, hs]

theorem crawlTrace_begin_consistent (max_pages : Nat) (seed_urls : List String) :
    (CrawlTrace.begin max_pages seed_urls).Consistent max_pages := by
  obtain ⟨h1, h2, _, h4, h5⟩ := start_effect seed_urls (Crawler.init max_pages)
  have hf : ((Crawler.init max_pages).start seed_urls).frontier_ = seed_urls := by
    rw [h1]; rfl
  refine ⟨?_, ?_, ?_, ?_, ?_⟩
  · show ((Crawler.init max_pages).start seed_urls).frontier_ ⊆ _
    rw [hf]; exact h2
  · show pushedBetween _ _ ⊆ _
    rw [pushedBetween_append _ _ seed_urls h1]; exact h2
  · show ((Crawler.init max_pages).start seed_urls).crawled_count_ ≤ _
    rw [h5]; exact Nat.zero_le _
  · show 0 = ((Crawler.init max_pages).start seed_urls).crawled_count_
    rw [h5]; rfl
  · exact h4

theorem crawlTrace_step_consistent (max_pages : Nat) (t : CrawlTrace) (s : CrawlStep)
    (h : t.Consistent max_pages) : (t.step s).Consistent max_pages := by
  obtain ⟨hf, hp, hc, hl, hm⟩ := h
  cases s with
  | take =>
    cases ht : t.crawler.takeUrl with
    | none =>
      simp only [CrawlTrace.step, ht]
      exact ⟨hf, hp, hc, hl, hm⟩
    | some pair =>
      obtain ⟨url, popped⟩ := pair
      obtain ⟨h1, h2, h3, h4, h5⟩ := takeUrl_some _ _ _ ht
      simp only [CrawlTrace.step, ht]
      refine ⟨?_, ?_, ?_, ?_, ?_⟩
      · intro x hx
        show x ∈ popped.discovered_
        rw [h2]
        exact hf (by rw [h1]; exact List.mem_cons_of_mem _ hx)
      · show t.pushed ⊆ popped.discovered_
        rw [h2]; exact hp
      · show popped.crawled_count_ ≤ popped.max_pages_
        rw [h4, h5]; exact h3
      · show (t.popped ++ [url]).length = popped.crawled_count_
        rw [h4, List.length_append, hl]; rfl
      · show popped.max_pages_ = max_pages
        rw [h5]; exact hm
  | page url content =>
    obtain ⟨⟨new, h1, h2⟩, h3, h4, h5⟩ :=
      admitLinks_effect (TextParser.extractLinks content) t.crawler
    simp only [CrawlTrace.step]
    refine ⟨?_, ?_, ?_, ?_, ?_⟩
    · show (t.crawler.processPage url content).frontier_ ⊆ _
      unfold Crawler.processPage
      rw [h1]
      intro x hx
      rcases List.mem_append.mp hx with hx1 | hx1
      · exact h3 (hf hx1)
      · exact h2 hx1
    · show t.pushed ++ pushedBetween t.crawler (t.crawler.processPage url content) ⊆ _
      unfold Crawler.processPage
      rw [pushedBetween_append _ _ new h1]
      intro x hx
      rcases List.mem_append.mp hx with hx1 | hx1
      · exact h3 (hp hx1)
      · exact h2 hx1
    · show (t.crawler.processPage url content).crawled_count_ ≤
        (t.crawler.processPage url content).max_pages_
      unfold Crawler.processPage
      rw [h4, h5]; exact hc
    · show t.popped.length = (t.crawler.processPage url content).crawled_count_
      unfold Crawler.processPage
      rw [h5]; exact hl
    · show (t.crawler.processPage url content).max_pages_ = max_pages
      unfold Crawler.processPage
      rw [h4]; exact hm

theorem crawlTrace_run_consistent (max_pages : Nat) (seed_urls : List String)
    (steps : List CrawlStep) : (CrawlTrace.run max_pages seed_urls steps).Consistent max_pages := by
  unfold CrawlTrace.run
  suffices h : ∀ t : CrawlTrace, t.Consistent max_pages →
      (steps.foldl CrawlTrace.step t).Consistent max_pages from
    h _ (crawlTrace_begin_consistent max_pages seed_urls)
  induction steps with
  | nil => intro t ht; exact ht
  | cons s rest ih => intro t ht; exact ih _ (crawlTrace_step_consistent max_pages t s ht)

/-- One worker alone reaches its `return` within `max_pages_ - crawled_count_ + 1` rounds. -/
theorem workerThread_returns (net : Nat → String → FetchResult) (n : Nat) (c : Crawler)
    (h : c.max_pages_ - c.crawled_count_ ≤ n) :
    ∃ c1, Crawler.workerThread net (n + 1) c = some c1 := by
  induction n generalizing c with
  | zero =>
    have ht : c.takeUrl = none := takeUrl_none c (Or.inr (by omega))
    exact ⟨c, by simp [Crawler.workerThread, ht]⟩
  | succ m ih =>
    cases ht : c.takeUrl with
    | none => exact ⟨c, by simp [Crawler.workerThread, ht]⟩
    | some pair =>
      obtain ⟨url, popped⟩ := pair
      obtain ⟨_, _, h3, h4, h5⟩ := takeUrl_some _ _ _ ht
      obtain ⟨k1, k2⟩ := handleFetch_counters popped url
        (HttpClient.get (net popped.crawled_count_) url)
      obtain ⟨c1, hc1⟩ := ih
        (popped.handleFetch url (HttpClient.get (net popped.crawled_count_) url))
        (by rw [k1, k2, h4, h5]; omega)
      refine ⟨c1, ?_⟩
      rw [← hc1]
      simp [Crawler.workerThread, ht]

/-! ### Lemmas on `tokenize` -/

theorem toLower_isLower_of_upper (n : Nat) (h1 : 65 ≤ n) (h2 : n ≤ 90) :
    (Char.ofNat n).toLower.isLower = true := by
  interval_cases n <;> rfl

theorem isUpper_toNat (c : Char) (h : c.isUpper = true) : 65 ≤ c.toNat ∧ c.toNat ≤ 90 := by
  simp only [Char.isUpper, Bool.and_eq_true, decide_eq_true_eq] at h
  have h1 : (65 : UInt32) ≤ c.val := h.1
  have h2 : c.val ≤ (90 : UInt32) := h.2
  rw [UInt32.le_def] at h1 h2
  exact ⟨h1, h2⟩

theorem toLower_of_not_upper (c : Char) (h : c.isUpper = false) : c.toLower = c := by
  unfold Char.toLower
  have hn : ¬ (c.toNat ≥ 65 ∧ c.toNat ≤ 90) := by
    intro hh
    simp only [Char.isUpper, Bool.and_eq_false_iff, decide_eq_false_iff_not] at h
    rcases h with h | h
    · apply h
      show (65 : UInt32) ≤ c.val
      rw [UInt32.le_def]; exact hh.1
    · apply h
      show c.val ≤ (90 : UInt32)
      rw [UInt32.le_def]; exact hh.2
  simp [hn]

/-- The lower-cased copy of a token character is a lowercase letter, a digit or the
apostrophe. -/
theorem tokenChar_toLower (c : Char) (h : isTokenChar c = true) :
    c.toLower.isLower = true ∨ c.toLower.isDigit = true ∨ c.toLower = apostrophe := by
  cases hu : c.isUpper with
  | true =>
    left
    have hc := isUpper_toNat c hu
    have e := toLower_isLower_of_upper c.toNat hc.1 hc.2
    rwa [Char.ofNat_toNat] at e
  | false =>
    rw [toLower_of_not_upper c hu]
    simp only [isTokenChar, Char.isAlphanum, Char.isAlpha, hu, Bool.false_or, Bool.or_eq_true,
      beq_iff_eq] at h
    rcases h with (h | h) | h
    · left; exact h
    · right; left; exact h
    · right; right; exact h

/-- Every token that the loop of `tokenize` adds is a maximal run of the text read so far
and still to be read; `pre` is the part read before the current run `cur`. -/
theorem tokenizeLoop_tokens (cs : List Char) (tokens : List String) (pre cur : List Char)
    (hcur : ∀ c ∈ cur, isTokenChar c = true)
    (hpre : ∀ c, pre.getLast? = some c → isTokenChar c = false) (tok : String)
    (h : tok ∈ tokenizeLoop cs tokens (cur.map Char.toLower)) :
    tok ∈ tokens ∨ IsTokenOf (pre ++ cur ++ cs) tok := by
  induction cs generalizing tokens pre cur with
  | nil =>
    by_cases hc : cur = []
    · subst hc
      left
      simpa [tokenizeLoop] using h
    · have hc2 : cur.map Char.toLower ≠ [] := by simpa using hc
      simp only [tokenizeLoop, hc2, ne_eq, not_false_eq_true, if_true, List.mem_append,
        List.mem_singleton] at h
      rcases h with h | h
      · left; exact h
      · right
        exact ⟨pre, cur, [], rfl, hc, hcur, h, hpre, by simp⟩
  | cons c cs ih =>
    by_cases htc : isTokenChar c = true
    · have e : tokenizeLoop (c :: cs) tokens (cur.map Char.toLower) =
          tokenizeLoop cs tokens ((cur ++ [c]).map Char.toLower) := by
        simp [tokenizeLoop, htc]
      rw [e] at h
      have hcur2 : ∀ x ∈ cur ++ [c], isTokenChar x = true := by
        intro x hx
        rcases List.mem_append.mp hx with hx1 | hx1
        · exact hcur x hx1
        · rw [List.mem_singleton.mp hx1]; exact htc
      rcases ih tokens pre (cur ++ [c]) hcur2 hpre h with h1 | h1
      · left; exact h1
      · right
        simpa [List.append_assoc] using h1
    · have htc2 : isTokenChar c = false := by simpa using htc
      by_cases hc : cur = []
      · subst hc
        have e : tokenizeLoop (c :: cs) tokens (([] : List Char).map Char.toLower) =
            tokenizeLoop cs tokens (([] : List Char).map Char.toLower) := by
          simp [tokenizeLoop, htc2]
        rw [e] at h
        have hpre2 : ∀ x, (pre ++ [c]).getLast? = some x → isTokenChar x = false := by
          intro x hx
          simp at hx
          rw [← hx]; exact htc2
        rcases ih tokens (pre ++ [c]) [] (by simp) hpre2 h with h1 | h1
        · left; exact h1
        · right
          simpa [List.append_assoc] using h1
      · have hc2 : cur.map Char.toLower ≠ [] := by simpa using hc
        have e : tokenizeLoop (c :: cs) tokens (cur.map Char.toLower) =
            tokenizeLoop cs (tokens ++ [String.mk (cur.map Char.toLower)])
              (([] : List Char).map Char.toLower) := by
          simp [tokenizeLoop, htc2, hc]
        rw [e] at h
        have hpre2 : ∀ x, (pre ++ cur ++ [c]).getLast? = some x → isTokenChar x = false := by
          intro x hx
          simp at hx
          rw [← hx]; exact htc2
        rcases ih (tokens ++ [String.mk (cur.map Char.toLower)]) (pre ++ cur ++ [c]) []
          (by simp) hpre2 h with h1 | h1
        · rcases List.mem_append.mp h1 with h2 | h2
          · left; exact h2
          · right
            refine ⟨pre, cur, c :: cs, rfl, hc, hcur, List.mem_singleton.mp h2, hpre, ?_⟩
            intro x hx
            simp at hx
            rw [← hx]; exact htc2
        · right
          simpa [List.append_assoc] using h1

/-- Every token returned by `tokenize` is a maximal run of token characters of the text,
lower-cased. -/
theorem tokenize_isTokenOf (text : String) (tok : String)
    (h : tok ∈ TextParser.tokenize text) : IsTokenOf text.data tok := by
  have h1 := tokenizeLoop_tokens text.data [] [] [] (by simp) (by simp) tok h
  rcases h1 with h1 | h1
  · simp at h1
  · simpa using h1

/-! ### Further lemmas on `addDocument` -/

theorem filter_range_cons (t token : String) (rest : List String) :
    (List.range (rest.length + 1)).filter (fun i => decide ((token :: rest)[i]? = some t)) =
      (if token = t then [0] else []) ++
        ((List.range rest.length).filter (fun i => decide (rest[i]? = some t))).map Nat.succ := by
  have hshift : (List.filter ((fun i => decide ((token :: rest)[i]? = some t)) ∘ Nat.succ)
      (List.range rest.length)) =
      List.filter (fun i => decide (rest[i]? = some t)) (List.range rest.length) := by
    apply List.filter_congr
    intro i _
    simp
  rw [List.range_succ_eq_map, List.filter_cons, List.filter_map, hshift]
  by_cases h : token = t <;> simp [h]

theorem occurrences_eq_filter_range (t : String) (pos : Nat) (tokens : List String) :
    occurrences t pos tokens =
      ((List.range tokens.length).filter (fun i => decide (tokens[i]? = some t))).map
        (fun i => i + pos) := by
  induction tokens generalizing pos with
  | nil => rfl
  | cons token rest ih =>
    have hmap : List.map (fun i => i + pos) (List.map Nat.succ
        (List.filter (fun i => decide (rest[i]? = some t)) (List.range rest.length))) =
        List.map (fun i => i + (pos + 1))
          (List.filter (fun i => decide (rest[i]? = some t)) (List.range rest.length)) := by
      rw [List.map_map]
      apply List.map_congr_left
      intro i _
      simp only [Function.comp, Nat.succ_eq_add_one]
      omega
    rw [List.length_cons, filter_range_cons, List.map_append, hmap, ← ih]
    by_cases h : token = t
    · simp [occurrences, h]
    · simp [occurrences, h]

theorem notePosition_filter_others (id pos : Nat) (l : List Posting) :
    (notePosition id pos l).filter (fun q => decide (q.doc_id ≠ id)) =
      l.filter (fun q => decide (q.doc_id ≠ id)) := by
  induction l with
  | nil => simp [notePosition]
  | cons p ps ih =>
    by_cases hp : p.doc_id = id
    · simp [notePosition, hp, List.filter_cons]
    · simp only [notePosition, hp, if_false, List.filter_cons, ih]

theorem foldl_notePosition_filter_others (id : Nat) (occ : List Nat) (l : List Posting) :
    (occ.foldl (fun l pos => notePosition id pos l) l).filter
        (fun q => decide (q.doc_id ≠ id)) =
      l.filter (fun q => decide (q.doc_id ≠ id)) := by
  induction occ generalizing l with
  | nil => rfl
  | cons o os ih => rw [List.foldl_cons, ih, notePosition_filter_others]

/-- The document ids of the list of `t` after `addDocument`: the old ones in their old
order, followed by the id of the document when it contains `t` and had no posting there. -/
theorem getPostings_addDocument_ids (idx : InvertedIndex) (d : Document) (t : String) :
    ((idx.addDocument d).getPostings t).map Posting.doc_id =
      if t ∈ d.tokens ∧ d.id ∉ (idx.getPostings t).map Posting.doc_id then
        (idx.getPostings t).map Posting.doc_id ++ [d.id]
      else (idx.getPostings t).map Posting.doc_id := by
  rw [getPostings_addDocument]
  by_cases ht : t ∈ d.tokens
  · cases hocc : occurrences t 0 d.tokens with
    | nil => exact absurd ht ((occurrences_eq_nil_iff t 0 d.tokens).mp hocc)
    | cons o os =>
      by_cases hm : d.id ∈ (idx.getPostings t).map Posting.doc_id
      · rw [foldl_notePosition_ids_of_mem d.id (o :: os) _ hm, if_neg (fun h => h.2 hm)]
      · rw [foldl_notePosition_ids_fresh d.id o os _ hm, if_pos ⟨ht, hm⟩]
  · rw [(occurrences_eq_nil_iff t 0 d.tokens).mpr ht, if_neg (fun h => ht h.1)]
    rfl

/-! ### Lemmas on link admission -/

theorem mem_firstAppearances (l : List String) (x : String) :
    x ∈ firstAppearances l ↔ x ∈ l := by
  induction l with
  | nil => simp [firstAppearances]
  | cons y ys ih =>
    by_cases h : x = y
    · simp [firstAppearances, h]
    · simp [firstAppearances, h, List.mem_filter, ih]

theorem nodup_firstAppearances (l : List String) : (firstAppearances l).Nodup := by
  induction l with
  | nil => simp [firstAppearances]
  | cons y ys ih =>
    simp only [firstAppearances, List.nodup_cons, List.mem_filter]
    refine ⟨?_, ih.filter _⟩
    simp

theorem firstAppearances_filter (p : String → Bool) (l : List String) :
    firstAppearances (l.filter p) = (firstAppearances l).filter p := by
  induction l with
  | nil => rfl
  | cons y ys ih =>
    by_cases hy : p y = true
    · rw [List.filter_cons_of_pos hy]
      simp only [firstAppearances]
      rw [List.filter_cons_of_pos hy, ih, List.filter_filter, List.filter_filter]
      congr 1
      apply List.filter_congr
      intro x _
      exact Bool.and_comm _ _
    · rw [List.filter_cons_of_neg hy]
      simp only [firstAppearances]
      rw [List.filter_cons_of_neg hy, ih, List.filter_filter]
      apply List.filter_congr
      intro x _
      by_cases hx : x = y
      · subst hx
        simp [hy]
      · simp [hx]

theorem mem_setInsert (url u : String) (set : List String) :
    u ∈ setInsert url set ↔ u = url ∨ u ∈ set := by
  unfold setInsert
  by_cases h : url ∈ set
  · rw [if_pos h]
    constructor
    · intro hu; exact Or.inr hu
    · intro hu
      rcases hu with hu | hu
      · rw [hu]; exact h
      · exact hu
  · rw [if_neg h]
    simp only [List.mem_append, List.mem_singleton]
    exact Or.comm

/-- The link loop: what it appends to the frontier and what the discovered set becomes. -/
theorem admitLinks_exact (links : List String) (c : Crawler) :
    (c.admitLinks links).frontier_ =
        c.frontier_ ++
          firstAppearances (links.filter (fun l => decide (l ∉ c.discovered_))) ∧
      ∀ u, u ∈ (c.admitLinks links).discovered_ ↔ u ∈ c.discovered_ ∨ u ∈ links := by
  induction links generalizing c with
  | nil => simp [Crawler.admitLinks, firstAppearances]
  | cons link rest ih =>
    by_cases hl : link ∈ c.discovered_
    · have e : c.admitLinks (link :: rest) = c.admitLinks rest := by
        simp [Crawler.admitLinks, hl]
      rw [e]
      obtain ⟨h1, h2⟩ := ih c
      refine ⟨?_, ?_⟩
      · rw [h1, List.filter_cons_of_neg (by simpa using hl)]
      · intro u
        rw [h2 u, List.mem_cons]
        constructor
        · intro h
          rcases h with h | h
          · exact Or.inl h
          · exact Or.inr (Or.inr h)
        · intro h
          rcases h with h | h | h
          · exact Or.inl h
          · rw [h]; exact Or.inl hl
          · exact Or.inr h
    · have e : c.admitLinks (link :: rest) =
          Crawler.admitLinks (⟨c.frontier_ ++ [link], setInsert link c.discovered_, c.max_pages_, c.crawled_count_⟩ : Crawler) rest := by
        simp [Crawler.admitLinks, hl]
      rw [e]
      obtain ⟨h1, h2⟩ := ih (⟨c.frontier_ ++ [link], setInsert link c.discovered_, c.max_pages_, c.crawled_count_⟩ : Crawler)
      refine ⟨?_, ?_⟩
      · rw [h1, List.filter_cons_of_pos (by simpa using hl)]
        simp only [firstAppearances, List.append_assoc, List.singleton_append]
        rw [← firstAppearances_filter, List.filter_filter]
        congr 3
        apply List.filter_congr
        intro x _
        simp only [mem_setInsert, not_or, Bool.decide_and, ne_eq]
      · intro u
        rw [h2 u]
        simp only [mem_setInsert, List.mem_cons]
        constructor
        · intro h
          rcases h with (h | h) | h
          · exact Or.inr (Or.inl h)
          · exact Or.inl h
          · exact Or.inr (Or.inr h)
        · intro h
          rcases h with h | h | h
          · exact Or.inl (Or.inr h)
          · exact Or.inl (Or.inl h)
          · exact Or.inr h

/-! ### Lemmas on term-frequency monotonicity -/

theorem notePosition_positive (id pos : Nat) (l : List Posting)
    (h : ∀ p ∈ l, 1 ≤ p.frequency) : ∀ p ∈ notePosition id pos l, 1 ≤ p.frequency := by
  induction l with
  | nil =>
    intro p hp
    simp [notePosition] at hp
    subst hp
    exact Nat.le_refl 1
  | cons q qs ih =>
    intro p hp
    by_cases hq : q.doc_id = id
    · simp [notePosition, hq] at hp
      rcases hp with hp | hp
      · subst hp
        exact Nat.le_add_left 1 _
      · exact h p (List.mem_cons_of_mem _ hp)
    · simp [notePosition, hq] at hp
      rcases hp with hp | hp
      · subst hp; exact h p (List.mem_cons_self _ _)
      · exact ih (fun r hr => h r (List.mem_cons_of_mem _ hr)) p hp

theorem foldl_notePosition_positive (id : Nat) (occ : List Nat) (l : List Posting)
    (h : ∀ p ∈ l, 1 ≤ p.frequency) :
    ∀ p ∈ occ.foldl (fun l pos => notePosition id pos l) l, 1 ≤ p.frequency := by
  induction occ generalizing l with
  | nil => exact h
  | cons o os ih => exact ih _ (notePosition_positive id o l h)

/-- Every posting of an index reached by `addDocument` calls has a frequency of at least 1. -/
theorem frequency_positive (docs : List Document) :
    ∀ t p, p ∈ (buildIndex docs).getPostings t → 1 ≤ p.frequency := by
  apply buildIndex_induction (fun idx => ∀ t p, p ∈ idx.getPostings t → 1 ≤ p.frequency)
  · intro t p hp
    simp [getPostings_empty] at hp
  · intro idx doc ih t p hp
    rw [getPostings_addDocument] at hp
    exact foldl_notePosition_positive doc.id _ _ (ih t) p hp

/-- The output of `rank` over the reals is sorted: every result has a score at least as large
as every later one. -/
theorem rank_real_pairwise (H : HashOrder) (query_terms : List String) (index : InvertedIndex)
    (total_docs : Nat) :
    (Ranker.rank realOps H query_terms index total_docs).Pairwise
      (fun x y => x.score ≥ y.score) := by
  have h := pairwise_stdSort (fun a b : Result ℝ => realOps.gt a.score b.score)
    (by
      intro a b hab
      simp only [realOps, decide_eq_true_eq, decide_eq_false_iff_not] at hab ⊢
      exact not_lt.mpr (le_of_lt hab))
    (by
      intro a b c h1 h2
      simp only [realOps, decide_eq_true_eq, decide_eq_false_iff_not, gt_iff_lt, not_lt]
        at h1 h2 ⊢
      exact le_trans h2 h1)
    ((H.mapIter (H.setIter (candidateInserts query_terms index))).map
      (fun doc_id =>
        (⟨doc_id, docScore realOps query_terms index total_docs doc_id⟩ : Result ℝ)))
  refine List.Pairwise.imp ?_ h
  intro a b hab
  simpa [realOps] using hab

/-- Of two different members of a list, one stands before the other. -/
theorem sublist_pair_of_mem {α : Type} (l : List α) (x y : α) (hx : x ∈ l) (hy : y ∈ l)
    (hne : x ≠ y) : [x, y].Sublist l ∨ [y, x].Sublist l := by
  induction l with
  | nil => simp at hx
  | cons z zs ih =>
    rcases List.mem_cons.mp hx with hx1 | hx1
    · rcases List.mem_cons.mp hy with hy1 | hy1
      · exact absurd (hx1.trans hy1.symm) hne
      · left
        rw [hx1]
        exact List.Sublist.cons₂ z (List.singleton_sublist.mpr hy1)
    · rcases List.mem_cons.mp hy with hy1 | hy1
      · right
        rw [hy1]
        exact List.Sublist.cons₂ z (List.singleton_sublist.mpr hx1)
      · rcases ih hx1 hy1 with h | h
        · left; exact List.Sublist.cons z h
        · right; exact List.Sublist.cons z h

/-- The score of a document for a one-term query, when the term has a posting for it. -/
theorem docScore_single (index : InvertedIndex) (t : String) (total_docs doc_id : Nat)
    (p : Posting)
    (hp : (index.getPostings t).find? (fun q => decide (q.doc_id = doc_id)) = some p) :
    docScore realOps [t] index total_docs doc_id =
      (1 + Real.log (p.frequency : ℝ)) *
        Real.log ((total_docs : ℝ) / (1 + ((index.getPostings t).length : ℝ))) := by
  rw [docScore_real_eq_sum]
  simp [hp]

/-- A document with a posting for a query term is among the results of `rank`. -/
theorem mem_rank_of_posting {S : Type} (F : FloatOps S) (H : HashOrder) (hH : H.Valid)
    (query_terms : List String) (index : InvertedIndex) (total_docs : Nat) (t : String)
    (ht : t ∈ query_terms) (doc_id : Nat) (p : Posting)
    (hp : (index.getPostings t).find? (fun q => decide (q.doc_id = doc_id)) = some p) :
    (⟨doc_id, docScore F query_terms index total_docs doc_id⟩ : Result S) ∈
      Ranker.rank F H query_terms index total_docs := by
  rw [(rank_perm F H query_terms index total_docs).mem_iff, List.mem_map]
  refine ⟨doc_id, ?_, rfl⟩
  rw [valid_iter_mem H hH, mem_candidateInserts]
  exact ⟨t, ht, p, List.mem_of_find?_eq_some hp, by simpa using List.find?_some hp⟩

/-! ### Lemmas on re-tokenizing -/

theorem isLower_toNat (c : Char) (h : c.isLower = true) : 97 ≤ c.toNat ∧ c.toNat ≤ 122 := by
  simp only [Char.isLower, Bool.and_eq_true, decide_eq_true_eq] at h
  have h1 : (97 : UInt32) ≤ c.val := h.1
  have h2 : c.val ≤ (122 : UInt32) := h.2
  rw [UInt32.le_def] at h1 h2
  exact ⟨h1, h2⟩

theorem isUpper_false_of_isLower (c : Char) (h : c.isLower = true) : c.isUpper = false := by
  cases hu : c.isUpper with
  | false => rfl
  | true =>
    have h1 := isUpper_toNat c hu
    have h2 := isLower_toNat c h
    omega

theorem toLower_toLower (c : Char) : c.toLower.toLower = c.toLower := by
  cases hu : c.isUpper with
  | false => rw [toLower_of_not_upper c hu, toLower_of_not_upper c hu]
  | true =>
    have hc := isUpper_toNat c hu
    have e := toLower_isLower_of_upper c.toNat hc.1 hc.2
    rw [Char.ofNat_toNat] at e
    exact toLower_of_not_upper _ (isUpper_false_of_isLower _ e)

theorem isTokenChar_toLower (c : Char) : isTokenChar c.toLower = isTokenChar c := by
  cases hu : c.isUpper with
  | false => rw [toLower_of_not_upper c hu]
  | true =>
    have hc := isUpper_toNat c hu
    have e := toLower_isLower_of_upper c.toNat hc.1 hc.2
    rw [Char.ofNat_toNat] at e
    simp [isTokenChar, Char.isAlphanum, Char.isAlpha, hu, e]

theorem tokenizeLoop_prepend (cs : List Char) (pre tokens : List String) (cur : List Char) :
    tokenizeLoop cs (pre ++ tokens) cur = pre ++ tokenizeLoop cs tokens cur := by
  induction cs generalizing tokens cur with
  | nil =>
    by_cases hc : cur = []
    · simp [tokenizeLoop, hc]
    · simp [tokenizeLoop, hc]
  | cons c cs ih =>
    by_cases htc : isTokenChar c = true
    · simp only [tokenizeLoop, htc, if_true]
      exact ih tokens _
    · by_cases hc : cur = []
      · simp only [tokenizeLoop, htc, hc, ne_eq, not_true_eq_false, if_false]
        exact ih tokens []
      · simp only [tokenizeLoop, htc, hc, ne_eq, not_false_eq_true, if_true, if_false]
        rw [List.append_assoc]
        exact ih _ []

/-- The loop reads a run of lower-cased token characters into `current`. -/
theorem tokenizeLoop_run (run rest : List Char) (tokens : List String) (cur : List Char)
    (h : ∀ c ∈ run, isTokenChar c = true ∧ c.toLower = c) :
    tokenizeLoop (run ++ rest) tokens cur = tokenizeLoop rest tokens (cur ++ run) := by
  induction run generalizing cur with
  | nil => simp
  | cons c cs ih =>
    obtain ⟨h1, h2⟩ := h c (List.mem_cons_self _ _)
    have e : tokenizeLoop (c :: cs ++ rest) tokens cur =
        tokenizeLoop (cs ++ rest) tokens (cur ++ [c]) := by
      simp [tokenizeLoop, h1, h2]
    rw [e, ih _ (fun x hx => h x (List.mem_cons_of_mem _ hx))]
    simp

/-- Tokens as `tokenize` returns them: non-empty, made of token characters that `tolower`
leaves alone. -/
theorem tokenize_canonical (text tok : String) (h : tok ∈ TextParser.tokenize text) :
    tok.data ≠ [] ∧ ∀ c ∈ tok.data, isTokenChar c = true ∧ c.toLower = c := by
  obtain ⟨pre, run, post, _, hne, hrun, htok, _, _⟩ := tokenize_isTokenOf text tok h
  rw [htok]
  refine ⟨by simpa using hne, ?_⟩
  intro c hc
  obtain ⟨x, hx, hxc⟩ := List.mem_map.mp hc
  rw [← hxc, isTokenChar_toLower, toLower_toLower]
  exact ⟨hrun x hx, rfl⟩

theorem tokenizeLoop_joinChars (ts : List String)
    (h : ∀ tok ∈ ts, tok.data ≠ [] ∧ ∀ c ∈ tok.data, isTokenChar c = true ∧ c.toLower = c) :
    tokenizeLoop (joinChars ts) [] [] = ts := by
  induction ts with
  | nil => rfl
  | cons t ts ih =>
    obtain ⟨hne, hcs⟩ := h t (List.mem_cons_self _ _)
    cases ts with
    | nil =>
      have e : joinChars [t] = t.data ++ [] := by simp [joinChars]
      rw [e, tokenizeLoop_run t.data [] [] [] hcs]
      simp [tokenizeLoop, hne]
    | cons t2 rest =>
      have e : joinChars (t :: t2 :: rest) = t.data ++ space :: joinChars (t2 :: rest) := rfl
      have hsp : isTokenChar space = false := by decide
      rw [e, tokenizeLoop_run t.data _ [] [] hcs]
      simp only [List.nil_append, tokenizeLoop, hsp, Bool.false_eq_true, if_false, ne_eq, hne,
        not_false_eq_true, if_true]
      have e2 := tokenizeLoop_prepend (joinChars (t2 :: rest)) [String.mk t.data] [] []
      rw [List.append_nil] at e2
      rw [e2, ih (fun x hx => h x (List.mem_cons_of_mem _ hx))]
      rfl

theorem tokenizeLoop_map_toLower (cs : List Char) (tokens : List String) (cur : List Char) :
    tokenizeLoop (cs.map Char.toLower) tokens cur = tokenizeLoop cs tokens cur := by
  induction cs generalizing tokens cur with
  | nil => rfl
  | cons c cs ih =>
    simp only [List.map_cons, tokenizeLoop, isTokenChar_toLower, toLower_toLower, ih]

/-! ### Lemmas on `extractLinks` -/

theorem beginsWith_length (pat s : List Char) (h : beginsWith pat s = true) :
    pat.length ≤ s.length := by
  induction pat generalizing s with
  | nil => simp
  | cons p ps ih =>
    cases s with
    | nil => simp [beginsWith] at h
    | cons c cs =>
      simp only [beginsWith, Bool.and_eq_true] at h
      simp only [List.length_cons]
      exact Nat.succ_le_succ (ih cs h.2)

theorem findIn_some (pat s : List Char) (i k : Nat) (h : findIn pat s i = some k) :
    i ≤ k ∧ k + pat.length ≤ i + s.length ∧ beginsWith pat (s.drop (k - i)) = true := by
  induction s generalizing i with
  | nil =>
    by_cases hp : pat = []
    · simp only [findIn, hp, if_true, Option.some.injEq] at h
      subst h
      simp [hp, beginsWith]
    · simp [findIn, hp] at h
  | cons c cs ih =>
    by_cases hb : beginsWith pat (c :: cs) = true
    · simp only [findIn, hb, if_true, Option.some.injEq] at h
      subst h
      refine ⟨Nat.le_refl _, ?_, by simpa using hb⟩
      have := beginsWith_length pat (c :: cs) hb
      omega
    · simp only [findIn, hb, if_false] at h
      obtain ⟨h1, h2, h3⟩ := ih (i + 1) h
      refine ⟨by omega, by simp only [List.length_cons]; omega, ?_⟩
      have e : k - i = (k - (i + 1)) + 1 := by omega
      rw [e, List.drop_succ_cons]
      exact h3

theorem strFind_some (s pat : List Char) (pos k : Nat) (h : strFind s pat pos = some k) :
    pos ≤ k ∧ k + pat.length ≤ s.length ∧ beginsWith pat (s.drop k) = true := by
  unfold strFind at h
  by_cases hp : pos ≤ s.length
  · rw [if_pos hp] at h
    obtain ⟨h1, h2, h3⟩ := findIn_some pat (s.drop pos) pos k h
    rw [List.length_drop] at h2
    rw [List.drop_drop] at h3
    refine ⟨h1, by omega, ?_⟩
    have e : pos + (k - pos) = k := by omega
    rw [e] at h3
    exact h3
  · rw [if_neg hp] at h
    exact absurd h (by simp)

/-- The text before the first occurrence of a one-character pattern does not contain it. -/
theorem findIn_single_take (q : Char) (s : List Char) (i k : Nat)
    (h : findIn [q] s i = some k) : q ∉ s.take (k - i) := by
  induction s generalizing i with
  | nil => simp
  | cons c cs ih =>
    by_cases hb : beginsWith [q] (c :: cs) = true
    · simp only [findIn, hb, if_true, Option.some.injEq] at h
      subst h
      simp
    · have hb2 := hb
      simp only [findIn, hb, if_false] at h
      have h1 := (findIn_some [q] cs (i + 1) k h).1
      have e : k - i = (k - (i + 1)) + 1 := by omega
      rw [e, List.take_succ_cons, List.mem_cons, not_or]
      refine ⟨?_, ih (i + 1) h⟩
      intro hq
      apply hb2
      simp [beginsWith, hq]

theorem hrefPattern_length : hrefPattern.length = 6 := rfl

/-- The value of an `href` contains no double quote. -/
theorem hrefValueAt_no_dquote (html : List Char) (i : Nat) (url : List Char)
    (h : hrefValueAt html i = some url) : dquote ∉ url := by
  unfold hrefValueAt at h
  by_cases hb : beginsWith hrefPattern (html.drop i) = true
  · rw [if_pos hb] at h
    cases hs : strFind html [dquote] (i + 6) with
    | none => simp [hs] at h
    | some stop =>
      simp only [hs, Option.some.injEq] at h
      rw [← h]
      unfold strFind at hs
      by_cases hp : i + 6 ≤ html.length
      · rw [if_pos hp] at hs
        exact findIn_single_take dquote _ _ _ hs
      · rw [if_neg hp] at hs
        exact absurd hs (by simp)
  · rw [if_neg hb] at h
    exact absurd h (by simp)

theorem range'_pick (s u v n : Nat) :
    ((s + u) :: List.range' (s + u + 1 + v) n).Sublist (List.range' s (u + 1 + v + n)) := by
  have e1 : List.range' s (u + 1 + v + n) =
      List.range' s u ++ List.range' (s + u) (1 + v + n) := by
    rw [List.range'_append_1]
    congr 1
    omega
  have e2 : List.range' (s + u) (1 + v + n) =
      (s + u) :: List.range' (s + u + 1) (v + n) := by
    have : 1 + v + n = (v + n) + 1 := by omega
    rw [this, List.range'_succ]
  have e3 : List.range' (s + u + 1) (v + n) =
      List.range' (s + u + 1) v ++ List.range' (s + u + 1 + v) n := by
    rw [List.range'_append_1]
    congr 1
    omega
  rw [e1, e2, e3]
  apply List.Sublist.trans _ (List.sublist_append_right _ _)
  exact List.Sublist.cons₂ _ (List.sublist_append_right _ _)

/-- With more fuel than characters left, the loop of `extractLinks` ends before the fuel
does, and the two versions of the loop agree. -/
theorem extractLinksFuel_eq (html : List Char) (fuel pos : Nat) (links : List String)
    (h : html.length - pos < fuel) :
    extractLinksFuel html fuel pos links = some (extractLinksLoop html fuel pos links) := by
  induction fuel generalizing pos links with
  | zero => omega
  | succ f ih =>
    cases h1 : strFind html hrefPattern pos with
    | none => simp [extractLinksFuel, extractLinksLoop, h1]
    | some found =>
      cases h2 : strFind html [dquote] (found + 6) with
      | none => simp [extractLinksFuel, extractLinksLoop, h1, h2]
      | some stop =>
        obtain ⟨a1, _, _⟩ := strFind_some _ _ _ _ h1
        obtain ⟨b1, b2, _⟩ := strFind_some _ _ _ _ h2
        simp only [List.length_singleton] at b2
        simp only [extractLinksFuel, extractLinksLoop, h1, h2]
        apply ih
        omega

theorem strFind_proto_nil : strFind [] "://".data 0 = none := by decide

theorem hrefLinksAt_cons_some (html : List Char) (i : Nat) (rest : List Nat) (url : List Char)
    (h : hrefValueAt html i = some url) :
    hrefLinksAt html (i :: rest) =
      (if strFind url "://".data 0 ≠ none then [String.mk url] else []) ++
        hrefLinksAt html rest := by
  unfold hrefLinksAt
  rw [List.filterMap_cons_some h]
  by_cases hp : strFind url "://".data 0 ≠ none
  · rw [List.filter_cons_of_pos (by simpa using hp), if_pos hp]
    rfl
  · rw [List.filter_cons_of_neg (by simpa using hp), if_neg hp]
    rfl

theorem hrefLinksAt_sublist (html : List Char) (ps qs : List Nat) (h : ps.Sublist qs) :
    (hrefLinksAt html ps).Sublist (hrefLinksAt html qs) :=
  ((h.filterMap _).filter _).map _

/-- The loop of `extractLinks` appends, in order, values of occurrences of `href="` that
start at or after `pos`. -/
theorem extractLinksLoop_sublist (html : List Char) (fuel pos : Nat) (links : List String) :
    ∃ added, extractLinksLoop html fuel pos links = links ++ added ∧
      added.Sublist (hrefLinksAt html (List.range' pos (html.length - pos))) := by
  induction fuel generalizing pos links with
  | zero => exact ⟨[], by simp [extractLinksLoop], List.nil_sublist _⟩
  | succ f ih =>
    cases h1 : strFind html hrefPattern pos with
    | none => exact ⟨[], by simp [extractLinksLoop, h1], List.nil_sublist _⟩
    | some found =>
      cases h2 : strFind html [dquote] (found + 6) with
      | none => exact ⟨[], by simp [extractLinksLoop, h1, h2], List.nil_sublist _⟩
      | some stop =>
        obtain ⟨a1, _, a3⟩ := strFind_some _ _ _ _ h1
        obtain ⟨b1, b2, _⟩ := strFind_some _ _ _ _ h2
        simp only [List.length_singleton] at b2
        have hval : hrefValueAt html found =
            some ((html.drop (found + 6)).take (stop - (found + 6))) := by
          simp [hrefValueAt, a3, h2]
        have hcond : ∀ url : List Char,
            (url ≠ [] ∧ strFind url "://".data 0 ≠ none) ↔ strFind url "://".data 0 ≠ none := by
          intro url
          constructor
          · intro hc; exact hc.2
          · intro hc
            refine ⟨?_, hc⟩
            intro e
            rw [e] at hc
            exact hc strFind_proto_nil
        obtain ⟨added, e1, e2⟩ := ih (stop + 1)
          (if (html.drop (found + 6)).take (stop - (found + 6)) ≠ [] ∧
              strFind ((html.drop (found + 6)).take (stop - (found + 6))) "://".data 0 ≠ none
            then links ++ [String.mk ((html.drop (found + 6)).take (stop - (found + 6)))]
            else links)
        refine ⟨(if strFind ((html.drop (found + 6)).take (stop - (found + 6))) "://".data 0 ≠
            none then [String.mk ((html.drop (found + 6)).take (stop - (found + 6)))] else []) ++
            added, ?_, ?_⟩
        · simp only [extractLinksLoop, h1, h2]
          rw [e1]
          by_cases hp : strFind ((html.drop (found + 6)).take (stop - (found + 6)))
              "://".data 0 ≠ none
          · rw [if_pos ((hcond _).mpr hp), if_pos hp, List.append_assoc]
          · rw [if_neg (fun hc => hp ((hcond _).mp hc)), if_neg hp]
            rfl
        · have hsub : (found :: List.range' (stop + 1) (html.length - (stop + 1))).Sublist
              (List.range' pos (html.length - pos)) := by
            have h := range'_pick pos (found - pos) (stop - found) (html.length - (stop + 1))
            have k1 : pos + (found - pos) = found := by omega
            have k2 : found + 1 + (stop - found) = stop + 1 := by omega
            have k3 : found - pos + 1 + (stop - found) + (html.length - (stop + 1)) =
                html.length - pos := by omega
            rw [k1, k2, k3] at h
            exact h
          have hs := hrefLinksAt_sublist html _ _ hsub
          rw [hrefLinksAt_cons_some html found _ _ hval] at hs
          exact List.Sublist.trans (List.Sublist.append_left e2 _) hs

/-- Every link in the list worded by the specification is non-empty, has no double quote and
contains `://`. -/
theorem hrefLinksAt_member (html : List Char) (ps : List Nat) (link : String)
    (h : link ∈ hrefLinksAt html ps) :
    link.data ≠ [] ∧ dquote ∉ link.data ∧ strFind link.data "://".data 0 ≠ none := by
  unfold hrefLinksAt at h
  obtain ⟨url, hurl, rfl⟩ := List.mem_map.mp h
  obtain ⟨hv, hproto⟩ := List.mem_filter.mp hurl
  obtain ⟨i, _, hi⟩ := List.mem_filterMap.mp hv
  have hp : strFind url "://".data 0 ≠ none := by simpa using hproto
  refine ⟨?_, hrefValueAt_no_dquote html i url hi, hp⟩
  intro e
  have e2 : url = [] := e
  rw [e2] at hp
  exact hp strFind_proto_nil

/-! ### Lemmas on removal -/

theorem mapFind_some_mem {κ ν : Type} [DecidableEq κ] (k : κ) (v : ν) (m : List (κ × ν))
    (h : mapFind k m = some v) : (k, v) ∈ m := by
  induction m with
  | nil => simp [mapFind] at h
  | cons e rest ih =>
    obtain ⟨k1, v1⟩ := e
    by_cases h1 : k1 = k
    · simp only [mapFind, h1, if_true, Option.some.injEq] at h
      rw [h1, h]
      exact List.mem_cons_self _ _
    · simp only [mapFind, h1, if_false] at h
      exact List.mem_cons_of_mem _ (ih h)

theorem mapFind_of_mem {κ ν : Type} [DecidableEq κ] (k : κ) (v : ν) (m : List (κ × ν))
    (hk : (m.map Prod.fst).Nodup) (h : (k, v) ∈ m) : mapFind k m = some v := by
  induction m with
  | nil => simp at h
  | cons e rest ih =>
    obtain ⟨k1, v1⟩ := e
    rw [List.map_cons, List.nodup_cons] at hk
    rcases List.mem_cons.mp h with h1 | h1
    · have e1 : k = k1 := (Prod.mk.inj h1).1
      have e2 : v = v1 := (Prod.mk.inj h1).2
      simp [mapFind, e1, e2]
    · have hne : k1 ≠ k := by
        intro e
        apply hk.1
        rw [e]
        exact List.mem_map.mpr ⟨(k, v), h1, rfl⟩
      simp only [mapFind, hne, if_false]
      exact ih hk.2 h1

theorem mapFind_filter_self {κ ν : Type} [DecidableEq κ] (k : κ) (m : List (κ × ν)) :
    mapFind k (m.filter (fun e => decide (e.1 ≠ k))) = none := by
  induction m with
  | nil => rfl
  | cons e rest ih =>
    obtain ⟨k1, v1⟩ := e
    by_cases h1 : k1 = k
    · rw [List.filter_cons_of_neg (by simpa using h1)]
      exact ih
    · rw [List.filter_cons_of_pos (by simpa using h1)]
      simp only [mapFind, h1, if_false]
      exact ih

theorem postingsOf_map (f : List Posting → List Posting) (hf : f [] = []) (t : String)
    (m : List (String × List Posting)) :
    postingsOf t (m.map (fun e => (e.1, f e.2))) = f (postingsOf t m) := by
  induction m with
  | nil => simp [postingsOf, mapFind, hf]
  | cons e rest ih =>
    obtain ⟨k1, v1⟩ := e
    by_cases h1 : k1 = t
    · simp [postingsOf, mapFind, h1]
    · unfold postingsOf at ih
      simp only [postingsOf, List.map_cons, mapFind, h1, if_false]
      exact ih

theorem length_filter_key {κ ν : Type} [DecidableEq κ] (k : κ) (m : List (κ × ν))
    (hk : (m.map Prod.fst).Nodup) (hmem : k ∈ m.map Prod.fst) :
    (m.filter (fun e => decide (e.1 ≠ k))).length + 1 = m.length := by
  induction m with
  | nil => simp at hmem
  | cons e rest ih =>
    obtain ⟨k1, v1⟩ := e
    rw [List.map_cons, List.nodup_cons] at hk
    by_cases h1 : k1 = k
    · rw [List.filter_cons_of_neg (by simpa using h1)]
      have hnot : k ∉ rest.map Prod.fst := by
        rw [← h1]; exact hk.1
      have hall : rest.filter (fun e => decide (e.1 ≠ k)) = rest := by
        rw [List.filter_eq_self]
        intro a ha
        have : a.1 ≠ k := fun e => hnot (e ▸ List.mem_map_of_mem Prod.fst ha)
        simpa using this
      rw [hall, List.length_cons]
    · rw [List.filter_cons_of_pos (by simpa using h1), List.length_cons, List.length_cons]
      have hm2 : k ∈ rest.map Prod.fst := by
        rcases List.mem_cons.mp hmem with h2 | h2
        · exact absurd h2.symm h1
        · exact h2
      rw [ih hk.2 hm2]

theorem documents_keys_nodup (docs : List Document) :
    ((buildIndex docs).documents_.map Prod.fst).Nodup := by
  rw [documents_keys]
  exact nodup_firstSeen _

/-! ### Lemmas on the file format -/

theorem readNats_writeNats (xs rest : List Nat) :
    readNats (writeNats xs ++ rest) = some (xs, rest) := by
  simp [writeNats, readNats]

theorem readString_writeString (x : String) (rest : List Nat) :
    readString (writeString x ++ rest) = some (x, rest) := by
  unfold readString writeString
  rw [readNats_writeNats]
  simp only [List.map_map, Option.some.injEq, Prod.mk.injEq, and_true]
  have h : List.map (Char.ofNat ∘ Char.toNat) x.data = x.data := by
    conv_rhs => rw [← List.map_id x.data]
    apply List.map_congr_left
    intro c _
    simp [Char.ofNat_toNat]
  rw [h]

theorem readMany_writeAll {α : Type} (read : List Nat → Option (α × List Nat))
    (write : α → List Nat) (h : ∀ x rest, read (write x ++ rest) = some (x, rest))
    (xs : List α) (rest : List Nat) :
    readMany read xs.length (writeAll write xs ++ rest) = some (xs, rest) := by
  induction xs with
  | nil => rfl
  | cons x xs ih =>
    simp only [List.length_cons, writeAll, List.append_assoc, readMany, h, ih]

theorem readList_writeList {α : Type} (read : List Nat → Option (α × List Nat))
    (write : α → List Nat) (h : ∀ x rest, read (write x ++ rest) = some (x, rest))
    (xs : List α) (rest : List Nat) :
    readList read (writeList write xs ++ rest) = some (xs, rest) := by
  simp only [writeList, List.cons_append, readList]
  exact readMany_writeAll read write h xs rest

theorem readPosting_writePosting (p : Posting) (rest : List Nat) :
    readPosting (writePosting p ++ rest) = some (p, rest) := by
  simp only [writePosting, List.cons_append, readPosting, readNats_writeNats]

theorem readTerm_writeTerm (e : String × List Posting) (rest : List Nat) :
    readTerm (writeTerm e ++ rest) = some (e, rest) := by
  simp only [writeTerm, List.append_assoc, readTerm, readString_writeString,
    DiskIndex.writePostings, DiskIndex.readPostings,
    readList_writeList readPosting writePosting readPosting_writePosting]

theorem readDocument_writeDocument (d : Document) (rest : List Nat) :
    readDocument (writeDocument d ++ rest) = some (d, rest) := by
  simp only [writeDocument, List.cons_append, List.append_assoc, readDocument,
    readString_writeString,
    readList_writeList readString writeString readString_writeString]

/-! ### Lemmas on saving and loading -/

theorem mapSet_fresh {κ ν : Type} [DecidableEq κ] (k : κ) (v : ν) (m : List (κ × ν))
    (h : k ∉ m.map Prod.fst) : mapSet k v m = m ++ [(k, v)] := by
  induction m with
  | nil => rfl
  | cons e rest ih =>
    obtain ⟨k1, v1⟩ := e
    simp only [List.map_cons, List.mem_cons, not_or] at h
    have h1 : ¬ k1 = k := fun e => h.1 e.symm
    simp only [mapSet, h1, if_false, ih h.2, List.cons_append]

/-- Entries with pairwise distinct keys, put one by one into a map that has none of these
keys, are appended in their order. -/
theorem foldl_mapSet_fresh {κ ν : Type} [DecidableEq κ] (entries acc : List (κ × ν))
    (h : ((acc ++ entries).map Prod.fst).Nodup) :
    entries.foldl (fun m e => mapSet e.1 e.2 m) acc = acc ++ entries := by
  induction entries generalizing acc with
  | nil => simp
  | cons e rest ih =>
    have hfresh : e.1 ∉ acc.map Prod.fst := by
      rw [List.map_append, List.nodup_append] at h
      intro hm
      exact h.2.2 hm (by simp)
    rw [List.foldl_cons, mapSet_fresh e.1 e.2 acc hfresh, ih]
    · simp
    · simpa using h

theorem mapFind_eq_none {κ ν : Type} [DecidableEq κ] (k : κ) (m : List (κ × ν))
    (h : k ∉ m.map Prod.fst) : mapFind k m = none := by
  induction m with
  | nil => rfl
  | cons e rest ih =>
    obtain ⟨k1, v1⟩ := e
    simp only [List.map_cons, List.mem_cons, not_or] at h
    have h1 : ¬ k1 = k := fun e => h.1 e.symm
    simp only [mapFind, h1, if_false]
    exact ih h.2

/-- Lookup does not depend on the order of the entries when the keys are pairwise distinct. -/
theorem mapFind_perm {κ ν : Type} [DecidableEq κ] (k : κ) (m1 m2 : List (κ × ν))
    (hp : m1.Perm m2) (hk : (m2.map Prod.fst).Nodup) : mapFind k m1 = mapFind k m2 := by
  have hk1 : (m1.map Prod.fst).Nodup := (hp.map Prod.fst).nodup_iff.mpr hk
  cases h2 : mapFind k m2 with
  | some v =>
    exact mapFind_of_mem k v m1 hk1 (hp.mem_iff.mpr (mapFind_some_mem k v m2 h2))
  | none =>
    cases h1 : mapFind k m1 with
    | none => rfl
    | some v =>
      have hm := hp.mem_iff.mp (mapFind_some_mem k v m1 h1)
      rw [mapFind_of_mem k v m2 hk hm] at h2
      exact absurd h2 (by simp)

theorem keys_nodup_mapSet {κ ν : Type} [DecidableEq κ] (k : κ) (v : ν) (m : List (κ × ν))
    (h : (m.map Prod.fst).Nodup) : ((mapSet k v m).map Prod.fst).Nodup := by
  rw [keys_mapSet]
  by_cases hm : k ∈ m.map Prod.fst
  · rw [if_pos hm]; exact h
  · rw [if_neg hm]
    apply List.Nodup.append h (List.nodup_singleton k)
    intro x hx hx2
    rw [List.mem_singleton] at hx2
    exact hm (hx2 ▸ hx)

theorem keys_nodup_addTokens (id pos : Nat) (tokens : List String)
    (m : List (String × List Posting)) (h : (m.map Prod.fst).Nodup) :
    ((addTokens id pos tokens m).map Prod.fst).Nodup := by
  induction tokens generalizing pos m with
  | nil => exact h
  | cons token rest ih => exact ih _ _ (keys_nodup_mapSet _ _ _ h)

/-- The terms of an index reached by `addDocument` calls are pairwise distinct keys. -/
theorem index_keys_nodup (docs : List Document) :
    ((buildIndex docs).index_.map Prod.fst).Nodup := by
  apply buildIndex_induction (fun idx => (idx.index_.map Prod.fst).Nodup)
  · exact List.nodup_nil
  · intro idx doc ih
    exact keys_nodup_addTokens _ _ _ _ ih

/-- Every stored record is filed under its own id. -/
theorem documents_keyed (docs : List Document) :
    (buildIndex docs).documents_.map (fun e => (e.2.id, e.2)) = (buildIndex docs).documents_ := by
  conv_rhs => rw [← List.map_id (buildIndex docs).documents_]
  apply List.map_congr_left
  intro e he
  obtain ⟨k, v⟩ := e
  have h1 : (buildIndex docs).getDocument k = some v :=
    mapFind_of_mem k v _ (documents_keys_nodup docs) he
  simp [getDocument_id docs k v h1]

theorem documents_rekeyed (docs : List Document) :
    ((buildIndex docs).documents_.map Prod.snd).map (fun d => (d.id, d)) =
      (buildIndex docs).documents_ := by
  rw [List.map_map]
  exact documents_keyed docs

/-- What `load` makes of what `save` wrote: the terms and the documents in the order in
which `save` enumerated them. -/
theorem load_save (E : DiskOrder) (hE : E.Valid) (docs : List Document) :
    DiskIndex.load (DiskIndex.save E (buildIndex docs)) =
      some ⟨E.termOrder (buildIndex docs).index_,
        (E.docOrder ((buildIndex docs).documents_.map Prod.snd)).map (fun d => (d.id, d))⟩ := by
  have hT : ((E.termOrder (buildIndex docs).index_).map Prod.fst).Nodup :=
    ((hE.1 _).map Prod.fst).nodup_iff.mpr (index_keys_nodup docs)
  have hD : (((E.docOrder ((buildIndex docs).documents_.map Prod.snd)).map
      (fun d => (d.id, d))).map Prod.fst).Nodup := by
    have hp := ((hE.2 ((buildIndex docs).documents_.map Prod.snd)).map
      (fun d => (d.id, d))).map Prod.fst
    rw [documents_rekeyed docs] at hp
    exact hp.nodup_iff.mpr (documents_keys_nodup docs)
  have e1 : (E.termOrder (buildIndex docs).index_).foldl (fun m e => mapSet e.1 e.2 m) [] =
      E.termOrder (buildIndex docs).index_ := by
    rw [foldl_mapSet_fresh _ [] (by simpa using hT)]
    rfl
  have e2 : (E.docOrder ((buildIndex docs).documents_.map Prod.snd)).foldl
      (fun m d => mapSet d.id d m) [] =
      (E.docOrder ((buildIndex docs).documents_.map Prod.snd)).map (fun d => (d.id, d)) := by
    have h := foldl_mapSet_fresh
      ((E.docOrder ((buildIndex docs).documents_.map Prod.snd)).map (fun d => (d.id, d))) []
      (by simpa using hD)
    rw [List.foldl_map] at h
    rw [List.nil_append] at h
    exact h
  unfold DiskIndex.load DiskIndex.save
  rw [readList_writeList readTerm writeTerm readTerm_writeTerm]
  simp only
  have e3 := readList_writeList readDocument writeDocument readDocument_writeDocument
    (E.docOrder ((buildIndex docs).documents_.map Prod.snd)) []
  rw [List.append_nil] at e3
  rw [e3]
  simp only [e1, e2]

theorem diskOrder_reverse_valid : reverseDiskOrder.Valid :=
  ⟨fun l => List.reverse_perm l, fun l => List.reverse_perm l⟩

/-! ### Lemmas on the occurrences that `extractLinks` passes over -/

theorem findIn_before (pat s : List Char) (i k : Nat) (h : findIn pat s i = some k) :
    ∀ j, i ≤ j → j < k → beginsWith pat (s.drop (j - i)) = false := by
  induction s generalizing i with
  | nil =>
    intro j h1 h2
    have := (findIn_some pat [] i k h).2.1
    simp at this
    omega
  | cons c cs ih =>
    intro j h1 h2
    by_cases hb : beginsWith pat (c :: cs) = true
    · simp only [findIn, hb, if_true, Option.some.injEq] at h
      omega
    · simp only [findIn, hb, if_false] at h
      by_cases hj : j = i
      · subst hj
        simpa using hb
      · have e : j - i = (j - (i + 1)) + 1 := by omega
        rw [e, List.drop_succ_cons]
        exact ih (i + 1) h j (by omega) h2

theorem findIn_none (pat s : List Char) (i : Nat) (h : findIn pat s i = none) :
    ∀ j, j ≤ s.length → beginsWith pat (s.drop j) = false := by
  induction s generalizing i with
  | nil =>
    intro j _
    by_cases hp : pat = []
    · simp [findIn, hp] at h
    · cases pat with
      | nil => exact absurd rfl hp
      | cons p ps => simp [beginsWith]
  | cons c cs ih =>
    intro j hj
    by_cases hb : beginsWith pat (c :: cs) = true
    · simp [findIn, hb] at h
    · simp only [findIn, hb, if_false] at h
      cases j with
      | zero => simpa using hb
      | succ j2 =>
        rw [List.drop_succ_cons]
        exact ih (i + 1) h j2 (by simpa using hj)

theorem strFind_before (s pat : List Char) (pos k : Nat) (h : strFind s pat pos = some k) :
    ∀ j, pos ≤ j → j < k → beginsWith pat (s.drop j) = false := by
  intro j h1 h2
  unfold strFind at h
  by_cases hp : pos ≤ s.length
  · rw [if_pos hp] at h
    have h3 := findIn_before pat (s.drop pos) pos k h j h1 h2
    rw [List.drop_drop] at h3
    have e : pos + (j - pos) = j := by omega
    rw [e] at h3
    exact h3
  · rw [if_neg hp] at h
    exact absurd h (by simp)

theorem strFind_none (s : List Char) (p : Char) (ps : List Char) (pos : Nat)
    (h : strFind s (p :: ps) pos = none) :
    ∀ j, pos ≤ j → beginsWith (p :: ps) (s.drop j) = false := by
  intro j h1
  by_cases hj : j ≤ s.length
  · unfold strFind at h
    rw [if_pos (by omega)] at h
    have h3 := findIn_none (p :: ps) (s.drop pos) pos h (j - pos)
      (by rw [List.length_drop]; omega)
    rw [List.drop_drop] at h3
    have e : pos + (j - pos) = j := by omega
    rw [e] at h3
    exact h3
  · rw [List.drop_eq_nil_of_le (by omega)]
    rfl

theorem beginsWith_getElem (pat s : List Char) (h : beginsWith pat s = true) :
    ∀ k, k < pat.length → s[k]? = pat[k]? := by
  induction pat generalizing s with
  | nil => intro k hk; simp at hk
  | cons p ps ih =>
    cases s with
    | nil => simp [beginsWith] at h
    | cons c cs =>
      simp only [beginsWith, Bool.and_eq_true, beq_iff_eq] at h
      intro k hk
      cases k with
      | zero => simp [h.1]
      | succ k2 =>
        simp only [List.getElem?_cons_succ]
        exact ih cs h.2 k2 (by simpa using hk)

/-- Characters of the text at an occurrence of a pattern. -/
theorem occurrence_getElem (pat html : List Char) (i : Nat)
    (h : beginsWith pat (html.drop i) = true) :
    ∀ k, k < pat.length → html[i + k]? = pat[k]? := by
  intro k hk
  rw [← List.getElem?_drop]
  exact beginsWith_getElem pat _ h k hk

theorem beginsWith_single (q : Char) (s : List Char) :
    beginsWith [q] s = true ↔ s[0]? = some q := by
  cases s with
  | nil => simp [beginsWith]
  | cons c cs =>
    simp only [beginsWith, Bool.and_true, beq_iff_eq, List.getElem?_cons_zero,
      Option.some.injEq]
    exact eq_comm

/-- The position found for a one-character pattern holds the character, and no position
between the start of the search and it does. -/
theorem strFind_single (s : List Char) (q : Char) (pos k : Nat)
    (h : strFind s [q] pos = some k) :
    s[k]? = some q ∧ ∀ x, pos ≤ x → x < k → s[x]? ≠ some q := by
  obtain ⟨_, _, h3⟩ := strFind_some s [q] pos k h
  refine ⟨?_, ?_⟩
  · have := (beginsWith_single q _).mp h3
    rwa [List.getElem?_drop, Nat.add_zero] at this
  · intro x h1 h2 hx
    have hb := strFind_before s [q] pos k h x h1 h2
    have : beginsWith [q] (s.drop x) = true := by
      rw [beginsWith_single, List.getElem?_drop, Nat.add_zero]
      exact hx
    rw [this] at hb
    exact absurd hb (by simp)

theorem strFind_single_none_mono (s : List Char) (q : Char) (pos pos2 : Nat)
    (h : strFind s [q] pos = none) (hle : pos ≤ pos2) : strFind s [q] pos2 = none := by
  cases h2 : strFind s [q] pos2 with
  | none => rfl
  | some k =>
    obtain ⟨h1, _, h3⟩ := strFind_some s [q] pos2 k h2
    have hb := strFind_none s q [] pos h k (by omega)
    rw [h3] at hb
    exact absurd hb (by simp)

theorem hrefLinksAt_append (html : List Char) (ps qs : List Nat) :
    hrefLinksAt html (ps ++ qs) = hrefLinksAt html ps ++ hrefLinksAt html qs := by
  simp [hrefLinksAt, List.filterMap_append]

theorem hrefLinksAt_eq_nil (html : List Char) (ps : List Nat)
    (h : ∀ j ∈ ps, hrefValueAt html j = none) : hrefLinksAt html ps = [] := by
  induction ps with
  | nil => rfl
  | cons j js ih =>
    have hj := h j (List.mem_cons_self _ _)
    have e : hrefLinksAt html (j :: js) = hrefLinksAt html js := by
      simp [hrefLinksAt, List.filterMap_cons, hj]
    rw [e]
    exact ih (fun x hx => h x (List.mem_cons_of_mem _ hx))

theorem hrefValueAt_none_of_not_begins (html : List Char) (j : Nat)
    (h : beginsWith hrefPattern (html.drop j) = false) : hrefValueAt html j = none := by
  simp [hrefValueAt, h]

theorem hrefPattern_head_only (k : Nat) (h1 : 1 ≤ k) (h2 : k ≤ 5) :
    hrefPattern[k]? ≠ hrefPattern[0]? := by
  interval_cases k <;> decide

theorem hrefPattern_quote_last (k : Nat) (h : k ≤ 4) : hrefPattern[k]? ≠ some dquote := by
  interval_cases k <;> decide

theorem hrefPattern_quote : hrefPattern[5]? = some dquote := by decide

/-- Between an occurrence of `href="` and the double quote that closes its value, no other
occurrence of `href="` starts, unless its own quote is that closing quote. -/
theorem no_occurrence_inside (html : List Char) (hnest : NoNestedHref html) (found stop : Nat)
    (hocc : beginsWith hrefPattern (html.drop found) = true)
    (hstop : strFind html [dquote] (found + 6) = some stop) :
    ∀ j, found < j → j ≤ stop → beginsWith hrefPattern (html.drop j) = false := by
  intro j h1 h2
  cases hj : beginsWith hrefPattern (html.drop j) with
  | false => rfl
  | true =>
    exfalso
    have cf := occurrence_getElem hrefPattern html found hocc
    have cj := occurrence_getElem hrefPattern html j hj
    obtain ⟨q1, q2⟩ := strFind_single html dquote (found + 6) stop hstop
    by_cases ha : j ≤ found + 5
    · have e1 := cf (j - found) (by rw [hrefPattern_length]; omega)
      have e2 := cj 0 (by rw [hrefPattern_length]; omega)
      have k1 : found + (j - found) = j := by omega
      rw [k1] at e1
      rw [Nat.add_zero, e1] at e2
      exact hrefPattern_head_only (j - found) (by omega) (by omega) e2
    · by_cases hb : j + 5 < stop
      · have e := cj 5 (by rw [hrefPattern_length]; omega)
        rw [hrefPattern_quote] at e
        exact q2 (j + 5) (by omega) hb e
      · by_cases hc : j + 5 = stop
        · apply hnest found j h1 hocc hj
          rw [hstop, hc]
        · have e := cj (stop - j) (by rw [hrefPattern_length]; omega)
          have k1 : j + (stop - j) = stop := by omega
          rw [k1, q1] at e
          exact hrefPattern_quote_last (stop - j) (by omega) e.symm

/-- Without nested occurrences the loop of `extractLinks`, given enough fuel, appends the
value of every occurrence of `href="` at or after `pos` that contains `://`. -/
theorem extractLinksLoop_exact (html : List Char) (hnest : NoNestedHref html)
    (fuel pos : Nat) (links : List String) (hfuel : html.length - pos < fuel) :
    extractLinksLoop html fuel pos links =
      links ++ hrefLinksAt html (List.range' pos (html.length - pos)) := by
  induction fuel generalizing pos links with
  | zero => omega
  | succ f ih =>
    cases h1 : strFind html hrefPattern pos with
    | none =>
      have hnil : hrefLinksAt html (List.range' pos (html.length - pos)) = [] := by
        apply hrefLinksAt_eq_nil
        intro j hj
        rw [List.mem_range'_1] at hj
        exact hrefValueAt_none_of_not_begins html j
          (strFind_none html _ _ pos h1 j hj.1)
      simp [extractLinksLoop, h1, hnil]
    | some found =>
      obtain ⟨a1, a2, a3⟩ := strFind_some _ _ _ _ h1
      rw [hrefPattern_length] at a2
      have hbefore : ∀ j, pos ≤ j → j < found → hrefValueAt html j = none :=
        fun j hj1 hj2 => hrefValueAt_none_of_not_begins html j
          (strFind_before html hrefPattern pos found h1 j hj1 hj2)
      cases h2 : strFind html [dquote] (found + 6) with
      | none =>
        have hnil : hrefLinksAt html (List.range' pos (html.length - pos)) = [] := by
          apply hrefLinksAt_eq_nil
          intro j hj
          rw [List.mem_range'_1] at hj
          by_cases hjf : j < found
          · exact hbefore j hj.1 hjf
          · have hq := strFind_single_none_mono html dquote (found + 6) (j + 6) h2 (by omega)
            unfold hrefValueAt
            by_cases hb : beginsWith hrefPattern (html.drop j) = true
            · rw [if_pos hb, hq]
            · rw [if_neg hb]
        simp [extractLinksLoop, h1, h2, hnil]
      | some stop =>
        obtain ⟨b1, b2, _⟩ := strFind_some _ _ _ _ h2
        simp only [List.length_singleton] at b2
        have hval : hrefValueAt html found =
            some ((html.drop (found + 6)).take (stop - (found + 6))) := by
          simp [hrefValueAt, a3, h2]
        have hsplit : List.range' pos (html.length - pos) =
            List.range' pos (found - pos) ++ (found :: (List.range' (found + 1) (stop - found) ++
              List.range' (stop + 1) (html.length - (stop + 1)))) := by
          have e1 : List.range' pos (html.length - pos) =
              List.range' pos (found - pos) ++ List.range' found (html.length - found) := by
            have := List.range'_append_1 pos (found - pos) (html.length - found)
            have k1 : pos + (found - pos) = found := by omega
            have k2 : html.length - found + (found - pos) = html.length - pos := by omega
            rw [k1, k2] at this
            exact this.symm
          have e2 : List.range' found (html.length - found) =
              found :: List.range' (found + 1) (html.length - (found + 1)) := by
            have k : html.length - found = (html.length - (found + 1)) + 1 := by omega
            rw [k, List.range'_succ]
          have e3 : List.range' (found + 1) (html.length - (found + 1)) =
              List.range' (found + 1) (stop - found) ++
                List.range' (stop + 1) (html.length - (stop + 1)) := by
            have := List.range'_append_1 (found + 1) (stop - found) (html.length - (stop + 1))
            have k1 : found + 1 + (stop - found) = stop + 1 := by omega
            have k2 : html.length - (stop + 1) + (stop - found) = html.length - (found + 1) := by
              omega
            rw [k1, k2] at this
            exact this.symm
          rw [e1, e2, e3]
        have hpart1 : hrefLinksAt html (List.range' pos (found - pos)) = [] := by
          apply hrefLinksAt_eq_nil
          intro j hj
          rw [List.mem_range'_1] at hj
          exact hbefore j hj.1 (by omega)
        have hpart3 : hrefLinksAt html (List.range' (found + 1) (stop - found)) = [] := by
          apply hrefLinksAt_eq_nil
          intro j hj
          rw [List.mem_range'_1] at hj
          exact hrefValueAt_none_of_not_begins html j
            (no_occurrence_inside html hnest found stop a3 h2 j (by omega) (by omega))
        have hcond : ∀ url : List Char,
            (url ≠ [] ∧ strFind url "://".data 0 ≠ none) ↔ strFind url "://".data 0 ≠ none := by
          intro url
          constructor
          · intro hc; exact hc.2
          · intro hc
            refine ⟨?_, hc⟩
            intro e
            rw [e] at hc
            exact hc strFind_proto_nil
        have hrest := ih (stop + 1)
          (if (html.drop (found + 6)).take (stop - (found + 6)) ≠ [] ∧
              strFind ((html.drop (found + 6)).take (stop - (found + 6))) "://".data 0 ≠ none
            then links ++ [String.mk ((html.drop (found + 6)).take (stop - (found + 6)))]
            else links) (by omega)
        rw [hsplit, hrefLinksAt_append, hpart1, List.nil_append,
          hrefLinksAt_cons_some html found _ _ hval, hrefLinksAt_append, hpart3,
          List.nil_append]
        simp only [extractLinksLoop, h1, h2]
        rw [hrest]
        by_cases hp : strFind ((html.drop (found + 6)).take (stop - (found + 6)))
            "://".data 0 ≠ none
        · rw [if_pos ((hcond _).mpr hp), if_pos hp, List.append_assoc]
        · rw [if_neg (fun hc => hp ((hcond _).mp hc)), if_neg hp]
          rfl

/-- An ordinary page, one link in one anchor, has no nested occurrence. -/
theorem noNestedHref_pageLinking :
    NoNestedHref (pageLinking "http://b.example/").data := by
  intro i j hij hi hj
  have li := beginsWith_length _ _ hi
  have lj := beginsWith_length _ _ hj
  rw [List.length_drop, hrefPattern_length] at li lj
  have hlen : (pageLinking "http://b.example/").data.length = 33 := by decide
  rw [hlen] at li lj
  have hi3 : i = 3 := by
    have hb : i ≤ 27 := by omega
    interval_cases i <;> first | rfl | (exfalso; revert hi; decide)
  have hj3 : j = 3 := by
    have hb : j ≤ 27 := by omega
    interval_cases j <;> first | rfl | (exfalso; revert hj; decide)
  omega

/-! ## The claims -/

/-- C1 (posting consistency). In an index built by `addDocument` from documents with pairwise
distinct ids, for every added document `d` and every term `t` of `d.tokens`, the postings of
`getPostings t` whose `doc_id` is `d.id` are exactly one posting, its frequency is the number
of occurrences of `t` in `d.tokens`, and its positions list has that same length. -/
theorem posting_consistency (docs : List Document) (hids : (docs.map Document.id).Nodup)
    (d : Document) (hd : d ∈ docs) (t : String) (ht : t ∈ d.tokens) :
    ∃ p, ((buildIndex docs).getPostings t).filter (fun q => decide (q.doc_id = d.id)) = [p] ∧
      p.frequency = d.tokens.count t ∧ p.positions.length = d.tokens.count t := by
  obtain ⟨pre, post, rfl⟩ := List.append_of_mem hd
  simp only [List.map_append, List.map_cons] at hids
  have hpost : d.id ∉ post.map Document.id := by
    have h1 := (List.nodup_append.mp hids).2.1
    exact (List.nodup_cons.mp h1).1
  have hpre : d.id ∉ pre.map Document.id := by
    intro hmem
    exact (List.nodup_append.mp hids).2.2 hmem (List.mem_cons_self _ _)
  rw [buildIndex_append, List.foldl_cons, filter_getPostings_foldl post _ d.id t hpost,
    filter_getPostings_addDocument_fresh (buildIndex pre) d t _ ht]
  · exact ⟨_, rfl, rfl, length_occurrences t 0 d.tokens⟩
  · intro p hp e
    exact hpre (e ▸ posting_id_added pre t p hp)

/-- Witness of C1 on two documents sharing the term `dog`. -/
theorem posting_consistency_witness :
    ∃ p, ((buildIndex [⟨1, "u1", "a", ["cat", "dog", "cat"]⟩, ⟨2, "u2", "b", ["dog"]⟩]).getPostings
        "cat").filter (fun q => decide (q.doc_id = 1)) = [p] ∧
      p.frequency = 2 ∧ p.positions.length = 2 :=
  posting_consistency [⟨1, "u1", "a", ["cat", "dog", "cat"]⟩, ⟨2, "u2", "b", ["dog"]⟩]
    (by decide) ⟨1, "u1", "a", ["cat", "dog", "cat"]⟩ (by decide) "cat" (by decide)

/-- C9 (posting-list invariant). After any sequence of `addDocument` calls from the empty
index, re-added ids included, the postings of every term have pairwise distinct `doc_id`s and
every posting has `frequency` equal to the length of `positions`. -/
theorem posting_list_invariant (docs : List Document) (t : String) :
    (((buildIndex docs).getPostings t).map Posting.doc_id).Nodup ∧
      ((buildIndex docs).getPostings t).all
        (fun p => decide (p.frequency = p.positions.length)) = true := by
  apply buildIndex_induction
    (fun idx => ((idx.getPostings t).map Posting.doc_id).Nodup ∧
      (idx.getPostings t).all (fun p => decide (p.frequency = p.positions.length)) = true)
  · simp [getPostings_empty]
  · intro idx doc ih
    rw [getPostings_addDocument]
    refine ⟨foldl_notePosition_nodup _ _ _ ih.1, ?_⟩
    rw [List.all_eq_true]
    intro p hp
    have hbal : ∀ q ∈ idx.getPostings t, q.frequency = q.positions.length := by
      intro q hq
      simpa using (List.all_eq_true.mp ih.2) q hq
    simpa using foldl_notePosition_balanced _ _ _ hbal p hp

/-- C10 (no dangling postings). After any sequence of `addDocument` calls from the empty
index, `getDocument` succeeds on the `doc_id` of every posting of every term. -/
theorem no_dangling_postings (docs : List Document) (t : String) (p : Posting)
    (hp : p ∈ (buildIndex docs).getPostings t) :
    ∃ doc, (buildIndex docs).getDocument p.doc_id = some doc := by
  have h := posting_has_document docs t p hp
  exact Option.isSome_iff_exists.mp h

/-- Witness of C10: the posting of `dog` for document 2, after document 1 was added twice. -/
theorem no_dangling_postings_witness :
    ∃ doc, (buildIndex [⟨1, "u1", "a", ["dog"]⟩, ⟨2, "u2", "b", ["dog"]⟩,
      ⟨1, "u1", "a", ["dog"]⟩]).getDocument 2 = some doc :=
  no_dangling_postings [⟨1, "u1", "a", ["dog"]⟩, ⟨2, "u2", "b", ["dog"]⟩, ⟨1, "u1", "a", ["dog"]⟩]
    "dog" ⟨2, 1, [0]⟩ (by decide)

/-- C5 (OR semantics of the candidate set). For every admissible enumeration order, query
term list, index and `total_docs` (positive or not), a document id occurs in the output of
`rank` exactly when it occurs in the posting list of at least one query term, and no
document id occurs twice in the output. -/
theorem rank_or_semantics {S : Type} (F : FloatOps S) (H : HashOrder) (hH : H.Valid)
    (query_terms : List String) (index : InvertedIndex) (total_docs : Nat) :
    (∀ d, d ∈ (Ranker.rank F H query_terms index total_docs).map Result.doc_id ↔
        ∃ t ∈ query_terms, ∃ p ∈ index.getPostings t, p.doc_id = d) ∧
      ((Ranker.rank F H query_terms index total_docs).map Result.doc_id).Nodup := by
  have hp := rank_doc_ids_perm F H query_terms index total_docs
  constructor
  · intro d
    rw [hp.mem_iff, valid_iter_mem H hH, mem_candidateInserts]
  · exact hp.nodup_iff.mpr (hH _).2.1

/-- Witness of C5 on the three-document example with containers in key order. -/
theorem rank_or_semantics_witness :
    (∀ d, d ∈ (Ranker.rank realOps keyOrder ["cat", "dog"] (buildIndex [docA, docB, docC])
          3).map Result.doc_id ↔
        ∃ t ∈ ["cat", "dog"], ∃ p ∈ (buildIndex [docA, docB, docC]).getPostings t,
          p.doc_id = d) ∧
      ((Ranker.rank realOps keyOrder ["cat", "dog"] (buildIndex [docA, docB, docC])
        3).map Result.doc_id).Nodup :=
  rank_or_semantics realOps keyOrder keyOrder_valid ["cat", "dog"]
    (buildIndex [docA, docB, docC]) 3

/-- C6 (score formula). Over the reals, the score of every result of `rank` is the sum over
the entries of `query_terms`, with multiplicity, of `(1 + ln p.frequency) *
ln (total_docs / (1 + size of the term's posting list))` where `p` is the posting of the
result's document in the list of that term (the first one, as `find_if` returns), and of `0`
for the terms whose list has no posting of the document. -/
theorem rank_score_formula (H : HashOrder) (query_terms : List String) (index : InvertedIndex)
    (total_docs : Nat) (r : Result ℝ)
    (hr : r ∈ Ranker.rank realOps H query_terms index total_docs) :
    r.score =
      (query_terms.map (fun term =>
        match (index.getPostings term).find? (fun p => decide (p.doc_id = r.doc_id)) with
        | some p => (1 + Real.log (p.frequency : ℝ)) *
            Real.log ((total_docs : ℝ) / (1 + ((index.getPostings term).length : ℝ)))
        | none => 0)).sum := by
  rw [rank_score_eq realOps H query_terms index total_docs r hr, docScore_real_eq_sum]

/-- Witness of C6: the only result for the query `cat, dog, cat` on the index of document B
alone, with a corpus size of 5. -/
theorem rank_score_formula_witness :
    (⟨2, docScore realOps ["cat", "dog", "cat"] (buildIndex [docB]) 5 2⟩ : Result ℝ).score =
      (["cat", "dog", "cat"].map (fun term =>
        match ((buildIndex [docB]).getPostings term).find? (fun p => decide (p.doc_id = 2)) with
        | some p => (1 + Real.log (p.frequency : ℝ)) *
            Real.log (((5 : Nat) : ℝ) / (1 + (((buildIndex [docB]).getPostings term).length : ℝ)))
        | none => 0)).sum :=
  rank_score_formula insertionOrder ["cat", "dog", "cat"] (buildIndex [docB]) 5
    ⟨2, docScore realOps ["cat", "dog", "cat"] (buildIndex [docB]) 5 2⟩
    (List.mem_singleton.mpr rfl)

/-- C7 (sorted output). Over the reals, for every enumeration order, query, index and
`total_docs`, each result of `rank` has a score greater than or equal to the score of the
result that follows it. -/
theorem rank_sorted_descending (H : HashOrder) (query_terms : List String)
    (index : InvertedIndex) (total_docs : Nat) :
    (Ranker.rank realOps H query_terms index total_docs).Chain'
      (fun a b => a.score ≥ b.score) := by
  apply List.Pairwise.chain'
  have h := pairwise_stdSort (fun a b : Result ℝ => realOps.gt a.score b.score)
    (by
      intro a b hab
      simp only [realOps, decide_eq_true_eq, decide_eq_false_iff_not] at hab ⊢
      exact not_lt.mpr (le_of_lt hab))
    (by
      intro a b c h1 h2
      simp only [realOps, decide_eq_true_eq, decide_eq_false_iff_not, gt_iff_lt, not_lt]
        at h1 h2 ⊢
      exact le_trans h2 h1)
    ((H.mapIter (H.setIter (candidateInserts query_terms index))).map
      (fun doc_id =>
        (⟨doc_id, docScore realOps query_terms index total_docs doc_id⟩ : Result ℝ)))
  refine List.Pairwise.imp ?_ h
  intro a b hab
  simpa [realOps] using hab

/-- C2, the claim refuted: when B is added before A, containers that enumerate in insertion
order return B before A for the query `cat` with a corpus size of 3, because both scores
are `0`. -/
theorem ranking_example_counterexample :
    (Ranker.rank realOps insertionOrder ["cat"] (buildIndex [docB, docA, docC]) 3).map
        Result.doc_id = [docB.id, docA.id] ∧
      (Ranker.rank realOps insertionOrder ["cat"] (buildIndex [docB, docA, docC]) 3).map
        Result.doc_id ≠ [docA.id, docB.id] := by
  have hs : ∀ d, docScore realOps ["cat"] (buildIndex [docB, docA, docC]) 3 d = 0 :=
    fun d => docScore_single_idf_zero _ "cat" 3 d (by decide)
  have hr : Ranker.rank realOps insertionOrder ["cat"] (buildIndex [docB, docA, docC]) 3 =
      stdSort (fun a b => realOps.gt a.score b.score)
        [⟨2, docScore realOps ["cat"] (buildIndex [docB, docA, docC]) 3 2⟩,
         ⟨1, docScore realOps ["cat"] (buildIndex [docB, docA, docC]) 3 1⟩] := rfl
  rw [hr, hs, hs]
  simp [stdSort, sortedInsert, realOps, docA, docB]

/-- C2 as amended. For an index holding exactly the documents A (`cat` three times), B
(`cat` once, `dog` once) and C (neither), added in any order under pairwise distinct ids,
`rank` on the query `cat` with a corpus size of 3 returns exactly two results, one for A and
one for B, and both scores are `0`; which of the two comes first is not determined. -/
theorem ranking_example_tie (H : HashOrder) (hH : H.Valid) (A B C : Document)
    (docs : List Document) (hdocs : docs.Perm [A, B, C]) (hids : [A.id, B.id, C.id].Nodup)
    (hA : A.tokens.count "cat" = 3)
    (hB : B.tokens.count "cat" = 1 ∧ B.tokens.count "dog" = 1)
    (hC : C.tokens.count "cat" = 0 ∧ C.tokens.count "dog" = 0) :
    ((Ranker.rank realOps H ["cat"] (buildIndex docs) 3).map Result.doc_id).Perm
        [A.id, B.id] ∧
      ∀ r ∈ Ranker.rank realOps H ["cat"] (buildIndex docs) 3, r.score = 0 := by
  have hnodup : (docs.map Document.id).Nodup :=
    (hdocs.map Document.id).nodup_iff.mpr (by simpa using hids)
  have hmA : "cat" ∈ A.tokens := List.count_pos_iff.mp (by omega)
  have hmB : "cat" ∈ B.tokens := List.count_pos_iff.mp (by omega)
  have hmC : "cat" ∉ C.tokens := List.count_eq_zero.mp hC.1
  have hps : (((buildIndex docs).getPostings "cat").map Posting.doc_id).Perm [A.id, B.id] := by
    rw [getPostings_ids docs hnodup]
    have h1 := (hdocs.filter (fun d => decide ("cat" ∈ d.tokens))).map Document.id
    simpa [hmA, hmB, hmC] using h1
  have hlen : ((buildIndex docs).getPostings "cat").length = 2 := by
    simpa using hps.length_eq
  constructor
  · have hins : candidateInserts ["cat"] (buildIndex docs) =
        ((buildIndex docs).getPostings "cat").map Posting.doc_id := by
      simp [candidateInserts]
    have hnd : (candidateInserts ["cat"] (buildIndex docs)).Nodup := by
      rw [hins, getPostings_ids docs hnodup]
      exact hnodup.sublist ((List.filter_sublist _).map Document.id)
    refine (rank_doc_ids_perm realOps H ["cat"] (buildIndex docs) 3).trans ?_
    refine (valid_iter_perm H hH _ hnd).trans ?_
    rw [hins]
    exact hps
  · intro r hr
    rw [rank_score_eq realOps H _ _ _ r hr]
    exact docScore_single_idf_zero _ "cat" 3 r.doc_id (by rw [hlen])

/-- Witness of the amended C2: the example documents added in the order C, B, A, with
containers in key order. -/
theorem ranking_example_tie_witness :
    ((Ranker.rank realOps keyOrder ["cat"] (buildIndex [docC, docB, docA]) 3).map
        Result.doc_id).Perm [docA.id, docB.id] ∧
      ∀ r ∈ Ranker.rank realOps keyOrder ["cat"] (buildIndex [docC, docB, docA]) 3,
        r.score = 0 :=
  ranking_example_tie keyOrder keyOrder_valid docA docB docC [docC, docB, docA]
    (by decide) (by decide) (by decide) (by decide) (by decide)

/-- C3, the claim refuted: with a corpus size of 0 and an index in which `cat` has a
posting, `rank` returns a result (its score is computed from `log (0 / (1 + 1))`). -/
theorem empty_corpus_guard_counterexample :
    Ranker.rank realOps insertionOrder ["cat"] (buildIndex [docA]) 0 ≠ [] ∧
      (Ranker.rank realOps insertionOrder ["cat"] (buildIndex [docA]) 0).map Result.doc_id =
        [docA.id] := by
  have hr : Ranker.rank realOps insertionOrder ["cat"] (buildIndex [docA]) 0 =
      [⟨1, docScore realOps ["cat"] (buildIndex [docA]) 0 1⟩] := rfl
  rw [hr]
  simp [docA]

/-- C3 as amended. For every interpretation of the `double` operations, admissible
enumeration order, list of query terms and index in which no query term has a posting (as
in every index without documents), `rank` with a corpus size of 0 returns the empty list:
there is no candidate, so no score and no logarithm is evaluated. -/
theorem rank_zero_docs_no_postings {S : Type} (F : FloatOps S) (H : HashOrder) (hH : H.Valid)
    (query_terms : List String) (index : InvertedIndex)
    (h : ∀ t ∈ query_terms, index.getPostings t = []) :
    Ranker.rank F H query_terms index 0 = [] := by
  have hins : candidateInserts query_terms index = [] := by
    apply List.eq_nil_iff_forall_not_mem.mpr
    intro d hd
    obtain ⟨t, ht, p, hp, _⟩ := (mem_candidateInserts query_terms index d).mp hd
    rw [h t ht] at hp
    simp at hp
  simp [Ranker.rank, hins, valid_setIter_nil H hH, valid_mapIter_nil H hH, stdSort]

/-- Witness of the amended C3 on the empty index. -/
theorem rank_zero_docs_no_postings_witness :
    Ranker.rank realOps keyOrder ["cat", "dog"] InvertedIndex.empty 0 = [] :=
  rank_zero_docs_no_postings realOps keyOrder keyOrder_valid ["cat", "dog"]
    InvertedIndex.empty (by decide)

/-- C8, the claim refuted: P (id 1), Q (id 15) and R (id 14) are added in this order and have
the same score on the query `cat` (the three scores are one and the same computation). Q is
inserted into the candidate set before R, yet with the unordered containers of libstdc++ the
results come out as 1, 14, 15: R before Q. -/
theorem stable_tie_break_counterexample :
    candidateInserts ["cat"] (buildIndex [docP, docQ, docR]) = [docP.id, docQ.id, docR.id] ∧
      docScore realOps ["cat"] (buildIndex [docP, docQ, docR]) 3 docQ.id =
        docScore realOps ["cat"] (buildIndex [docP, docQ, docR]) 3 docR.id ∧
      (Ranker.rank realOps libstdcxxOrder ["cat"] (buildIndex [docP, docQ, docR]) 3).map
        Result.doc_id = [docP.id, docR.id, docQ.id] ∧
      ¬ TiesInInsertionOrder (candidateInserts ["cat"] (buildIndex [docP, docQ, docR]))
        (Ranker.rank realOps libstdcxxOrder ["cat"] (buildIndex [docP, docQ, docR]) 3) := by
  have hs1 : docScore realOps ["cat"] (buildIndex [docP, docQ, docR]) 3 14 =
      docScore realOps ["cat"] (buildIndex [docP, docQ, docR]) 3 1 := rfl
  have hs2 : docScore realOps ["cat"] (buildIndex [docP, docQ, docR]) 3 15 =
      docScore realOps ["cat"] (buildIndex [docP, docQ, docR]) 3 1 := rfl
  have hr : Ranker.rank realOps libstdcxxOrder ["cat"] (buildIndex [docP, docQ, docR]) 3 =
      stdSort (fun a b => realOps.gt a.score b.score)
        [⟨1, docScore realOps ["cat"] (buildIndex [docP, docQ, docR]) 3 1⟩,
         ⟨14, docScore realOps ["cat"] (buildIndex [docP, docQ, docR]) 3 14⟩,
         ⟨15, docScore realOps ["cat"] (buildIndex [docP, docQ, docR]) 3 15⟩] := rfl
  have hi : candidateInserts ["cat"] (buildIndex [docP, docQ, docR]) = [1, 15, 14] := rfl
  rw [hr, hi, hs1, hs2]
  refine ⟨rfl, rfl, ?_, ?_⟩
  · simp [stdSort, sortedInsert, realOps, docP, docQ, docR]
  · simp [stdSort, sortedInsert, realOps, TiesInInsertionOrder]

/-- C8 as amended. Two results with equal scores appear in the output of `rank` in the order
in which the map `scores` enumerates their doc_ids: when `a` is enumerated before `b` and
their scores are equal, the result of `a` stands before the result of `b`. This holds for
every interpretation of the `double` operations in which no value is greater than itself and
for every enumeration order of the containers; the bound of 16 results is the size up to which
`std::sort` of libstdc++ is the insertion sort that `stdSort` embeds. -/
theorem ties_keep_enumeration_order {S : Type} (F : FloatOps S) (H : HashOrder)
    (query_terms : List String) (index : InvertedIndex) (total_docs : Nat) (a b : Nat)
    (hirr : ∀ s : S, F.gt s s = false)
    (_hsmall : (H.mapIter (H.setIter (candidateInserts query_terms index))).length ≤ 16)
    (hab : [a, b].Sublist (H.mapIter (H.setIter (candidateInserts query_terms index))))
    (hs : docScore F query_terms index total_docs a =
      docScore F query_terms index total_docs b) :
    [(⟨a, docScore F query_terms index total_docs a⟩ : Result S),
      ⟨b, docScore F query_terms index total_docs b⟩].Sublist
      (Ranker.rank F H query_terms index total_docs) := by
  unfold Ranker.rank
  apply stdSort_keeps_order
  · show F.gt (docScore F query_terms index total_docs b)
      (docScore F query_terms index total_docs a) = false
    rw [hs]
    exact hirr _
  · exact hab.map
      (fun doc_id => (⟨doc_id, docScore F query_terms index total_docs doc_id⟩ : Result S))

/-- Witness of the amended C8: with the containers of libstdc++ the scores of P, Q and R are
enumerated as 1, 14, 15, and the tied results of R (id 14) and Q (id 15) come out in this
order. -/
theorem ties_keep_enumeration_order_witness :
    [(⟨14, docScore realOps ["cat"] (buildIndex [docP, docQ, docR]) 3 14⟩ : Result ℝ),
      ⟨15, docScore realOps ["cat"] (buildIndex [docP, docQ, docR]) 3 15⟩].Sublist
      (Ranker.rank realOps libstdcxxOrder ["cat"] (buildIndex [docP, docQ, docR]) 3) :=
  ties_keep_enumeration_order realOps libstdcxxOrder ["cat"] (buildIndex [docP, docQ, docR]) 3
    14 15 (fun s => by simp [realOps]) (by decide) (by decide) rfl

/-- C4, the code at the failing input: `start` pushes a seed that is listed twice onto the
frontier twice, although it is recorded as discovered once; the link loop of `processPage`
on the same list pushes it once. -/
theorem start_pushes_repeated_seed :
    (Crawler.start (Crawler.init 1000)
        ["http://a.example/", "http://a.example/"]).frontier_ =
        ["http://a.example/", "http://a.example/"] ∧
      (Crawler.start (Crawler.init 1000)
        ["http://a.example/", "http://a.example/"]).discovered_ = ["http://a.example/"] ∧
      (Crawler.admitLinks (Crawler.init 1000)
        ["http://a.example/", "http://a.example/"]).frontier_ = ["http://a.example/"] := by
  decide

/-- C11 (getDocument). After any sequence of `addDocument` calls, `getDocument id` fails
exactly when no document with that id was added, and otherwise returns the record of the
most recent call with that id: the first record with that id in the calls read backwards. -/
theorem getDocument_most_recent (docs : List Document) (i : Nat) :
    ((buildIndex docs).getDocument i = none ↔ i ∉ docs.map Document.id) ∧
      (buildIndex docs).getDocument i = docs.reverse.find? (fun d => decide (d.id = i)) := by
  refine ⟨?_, getDocument_buildIndex docs i⟩
  rw [getDocument_buildIndex, List.find?_eq_none]
  simp only [List.mem_reverse, decide_eq_true_eq, List.mem_map, not_exists, not_and]

/-- C12 (getDocumentCount). After any sequence of `addDocument` calls the count is the number
of distinct ids added; one more call with an id already added leaves it unchanged, and a
call with a new id increases it by exactly one. -/
theorem getDocumentCount_distinct_ids (docs : List Document) (d : Document) :
    (buildIndex docs).getDocumentCount = (docs.map Document.id).toFinset.card ∧
      ((buildIndex docs).addDocument d).getDocumentCount =
        if d.id ∈ docs.map Document.id then (buildIndex docs).getDocumentCount
        else (buildIndex docs).getDocumentCount + 1 := by
  refine ⟨getDocumentCount_buildIndex docs, ?_⟩
  have hk := keys_mapSet d.id d (buildIndex docs).documents_
  have hlen := congrArg List.length hk
  rw [List.length_map] at hlen
  have hmem : d.id ∈ (buildIndex docs).documents_.map Prod.fst ↔ d.id ∈ docs.map Document.id := by
    rw [documents_keys, mem_firstSeen]
  simp only [InvertedIndex.getDocumentCount, InvertedIndex.addDocument]
  rw [hlen]
  by_cases hm : d.id ∈ docs.map Document.id
  · rw [if_pos (hmem.mpr hm), if_pos hm, List.length_map]
  · rw [if_neg (fun h => hm (hmem.mp h)), if_neg hm, List.length_append, List.length_map]
    rfl

/-- C13 (re-adding is additive). For a term `t` of `d`: after one `addDocument d` on the empty
index the list of `t` is the single posting of `d.id` with the count of `t` and its
positions; after a second `addDocument d` it is a single posting with twice that frequency
and the same positions twice in a row. On any index, `addDocument d` keeps a posting that
`d.id` already has in the list of `t`: it adds the count to its frequency and appends the
positions. -/
theorem readd_is_additive (d : Document) (t : String) (ht : t ∈ d.tokens) :
    (buildIndex [d]).getPostings t =
        [⟨d.id, d.tokens.count t, occurrences t 0 d.tokens⟩] ∧
      (buildIndex [d, d]).getPostings t =
        [⟨d.id, 2 * d.tokens.count t, occurrences t 0 d.tokens ++ occurrences t 0 d.tokens⟩] ∧
      ∀ (idx : InvertedIndex) (p : Posting) (rest : List Posting),
        (idx.getPostings t).filter (fun q => decide (q.doc_id = d.id)) = p :: rest →
        ((idx.addDocument d).getPostings t).filter (fun q => decide (q.doc_id = d.id)) =
          ⟨d.id, p.frequency + d.tokens.count t, p.positions ++ occurrences t 0 d.tokens⟩ ::
            rest := by
  have hlen := length_occurrences t 0 d.tokens
  have hne : occurrences t 0 d.tokens ≠ [] :=
    fun e => (occurrences_eq_nil_iff t 0 d.tokens).mp e ht
  have h1 : (buildIndex [d]).getPostings t =
      [⟨d.id, d.tokens.count t, occurrences t 0 d.tokens⟩] := by
    have e : buildIndex [d] = InvertedIndex.empty.addDocument d := rfl
    rw [e, getPostings_addDocument, getPostings_empty]
    cases hocc : occurrences t 0 d.tokens with
    | nil => exact absurd hocc hne
    | cons o os => rw [foldl_notePosition_nil, ← hocc, hlen]
  refine ⟨h1, ?_, ?_⟩
  · have e : buildIndex [d, d] = (buildIndex [d]).addDocument d := rfl
    rw [e, getPostings_addDocument, h1, foldl_notePosition_head d.id _ _ rfl, hlen]
    simp only [List.cons.injEq, Posting.mk.injEq, and_true, true_and]
    omega
  · intro idx p rest hp
    have hpid : p.doc_id = d.id := by
      have hmem : p ∈ (idx.getPostings t).filter (fun q => decide (q.doc_id = d.id)) := by
        rw [hp]; exact List.mem_cons_self _ _
      simpa using (List.mem_filter.mp hmem).2
    rw [getPostings_addDocument, foldl_notePosition_filter_eq, hp,
      foldl_notePosition_head d.id p rest hpid, hlen, hpid]

/-- Witness of C13: the document B of the ranking example and its term `cat`. -/
theorem readd_is_additive_witness :
    (buildIndex [docB]).getPostings "cat" = [⟨2, 1, [0]⟩] ∧
      (buildIndex [docB, docB]).getPostings "cat" = [⟨2, 2, [0, 0]⟩] :=
  ⟨(readd_is_additive docB "cat" (by decide)).1, (readd_is_additive docB "cat" (by decide)).2.1⟩

/-- C14 (search result mapping). On an index built by `addDocument` calls, for every query
string, `search` does not fail; the list it returns has the length of the ranked list, its
i-th element is the document that `getDocument` returns for the i-th ranked `doc_id`, and
the `id` of that document is this `doc_id`. -/
theorem search_maps_ranked {S : Type} (F : FloatOps S) (H : HashOrder) (hH : H.Valid)
    (docs : List Document) (crawler : Crawler) (query : String) :
    ∃ out, SearchEngine.search F H ⟨buildIndex docs, crawler⟩ query = some out ∧
      out.length = (Ranker.rank F H (TextParser.tokenize query) (buildIndex docs)
        (buildIndex docs).getDocumentCount).length ∧
      (Ranker.rank F H (TextParser.tokenize query) (buildIndex docs)
        (buildIndex docs).getDocumentCount).map
          (fun r => (buildIndex docs).getDocument r.doc_id) = out.map some ∧
      out.map Document.id = (Ranker.rank F H (TextParser.tokenize query) (buildIndex docs)
        (buildIndex docs).getDocumentCount).map Result.doc_id := by
  obtain ⟨out, hout, hmap⟩ := collectDocuments_of_stored (buildIndex docs)
    (Ranker.rank F H (TextParser.tokenize query) (buildIndex docs)
      (buildIndex docs).getDocumentCount)
    (fun r hr => rank_result_stored F H hH docs _ _ r hr)
  refine ⟨out, hout, ?_, hmap, ?_⟩
  · have h := congrArg List.length hmap
    simpa using h.symm
  · exact ids_of_stored docs _ out hmap

/-- Witness of C14: the query `Cat` on the three-document example. -/
theorem search_maps_ranked_witness :
    ∃ out, SearchEngine.search realOps keyOrder ⟨buildIndex [docA, docB, docC], Crawler.init 1000⟩
        "Cat" = some out ∧
      out.length = (Ranker.rank realOps keyOrder (TextParser.tokenize "Cat")
        (buildIndex [docA, docB, docC]) (buildIndex [docA, docB, docC]).getDocumentCount).length ∧
      (Ranker.rank realOps keyOrder (TextParser.tokenize "Cat") (buildIndex [docA, docB, docC])
        (buildIndex [docA, docB, docC]).getDocumentCount).map
          (fun r => (buildIndex [docA, docB, docC]).getDocument r.doc_id) = out.map some ∧
      out.map Document.id = (Ranker.rank realOps keyOrder (TextParser.tokenize "Cat")
        (buildIndex [docA, docB, docC])
        (buildIndex [docA, docB, docC]).getDocumentCount).map Result.doc_id :=
  search_maps_ranked realOps keyOrder keyOrder_valid [docA, docB, docC] (Crawler.init 1000) "Cat"

/-- C15 (search without a match). On an index built by `addDocument` calls, the empty one
included, a query all of whose tokens occur in no indexed document (in particular a query
without tokens) makes `search` return the empty list, and `search` does not fail. -/
theorem search_no_match {S : Type} (F : FloatOps S) (H : HashOrder) (hH : H.Valid)
    (docs : List Document) (crawler : Crawler) (query : String)
    (h : ∀ t ∈ TextParser.tokenize query, ∀ d ∈ docs, t ∉ d.tokens) :
    SearchEngine.search F H ⟨buildIndex docs, crawler⟩ query = some [] := by
  have hr := rank_eq_nil_of_no_postings F H hH (TextParser.tokenize query) (buildIndex docs)
    (buildIndex docs).getDocumentCount (fun t ht => getPostings_of_absent docs t (h t ht))
  simp [SearchEngine.search, hr, collectDocuments]

/-- Witness of C15: a query whose only token is in no document of the example. -/
theorem search_no_match_witness :
    SearchEngine.search realOps keyOrder ⟨buildIndex [docA, docB, docC], Crawler.init 1000⟩
      "Zebra!" = some [] :=
  search_no_match realOps keyOrder keyOrder_valid [docA, docB, docC] (Crawler.init 1000)
    "Zebra!" (by decide)

/-- C17 (frontier contained in discovered). In every state reached from a fresh crawler by
`start` and any sequence of atomic pop and `processPage` steps, every URL in the frontier and
every URL ever pushed to it belongs to the discovered set. -/
theorem frontier_within_discovered (max_pages : Nat) (seed_urls : List String)
    (steps : List CrawlStep) :
    (CrawlTrace.run max_pages seed_urls steps).crawler.frontier_ ⊆
        (CrawlTrace.run max_pages seed_urls steps).crawler.discovered_ ∧
      (CrawlTrace.run max_pages seed_urls steps).pushed ⊆
        (CrawlTrace.run max_pages seed_urls steps).crawler.discovered_ :=
  ⟨(crawlTrace_run_consistent max_pages seed_urls steps).1,
    (crawlTrace_run_consistent max_pages seed_urls steps).2.1⟩

/-- C18 (max_pages cap). In every state reached from a fresh `Crawler(max_pages)`,
`crawled_count_` is at most `max_pages` and so is the number of URLs popped. A worker round
that finds the frontier empty or `crawled_count_ >= max_pages_` pops nothing and returns with
the state unchanged. A worker running alone returns within `max_pages_ - crawled_count_ + 1`
rounds, whatever the fetches answer. -/
theorem max_pages_cap (max_pages : Nat) (seed_urls : List String) (steps : List CrawlStep)
    (net : Nat → String → FetchResult) (c : Crawler) (fuel : Nat) :
    (CrawlTrace.run max_pages seed_urls steps).crawler.crawled_count_ ≤ max_pages ∧
      (CrawlTrace.run max_pages seed_urls steps).popped.length ≤ max_pages ∧
      ((c.frontier_ = [] ∨ c.crawled_count_ ≥ c.max_pages_) →
        c.takeUrl = none ∧ Crawler.workerThread net (fuel + 1) c = some c ∧
          ∀ t : CrawlTrace, t.crawler = c → t.step CrawlStep.take = t) ∧
      ∃ c1, Crawler.workerThread net (c.max_pages_ - c.crawled_count_ + 1) c = some c1 := by
  obtain ⟨_, _, hc, hl, hm⟩ := crawlTrace_run_consistent max_pages seed_urls steps
  have hcap : (CrawlTrace.run max_pages seed_urls steps).crawler.crawled_count_ ≤ max_pages :=
    le_of_le_of_eq hc hm
  refine ⟨hcap, by rw [hl]; exact hcap, ?_, workerThread_returns net _ c (Nat.le_refl _)⟩
  intro h
  have ht := takeUrl_none c h
  refine ⟨ht, by simp [Crawler.workerThread, ht], ?_⟩
  intro t htc
  simp [CrawlTrace.step, htc, ht]

/-- C19, the code at the failing input: a crawl of one seed whose fetch answers 200 with the
body `hello world` pops and fetches the seed, and the index of the engine is as empty
afterwards as before. -/
theorem crawl_does_not_index :
    (SearchEngine.crawl (fun _ _ => FetchResult.response 200 "hello world") SearchEngine.init
        ["http://example.com"]).crawler_.crawled_count_ = 1 ∧
      (SearchEngine.crawl (fun _ _ => FetchResult.response 200 "hello world") SearchEngine.init
        ["http://example.com"]).index_.getDocumentCount = 0 ∧
      (SearchEngine.crawl (fun _ _ => FetchResult.response 200 "hello world") SearchEngine.init
        ["http://example.com"]).index_.getPostings "hello" = [] := by
  decide

/-- C20 (fetch failure is local). When the fetch of the URL just popped throws or answers a
status other than 200, the round leaves the crawler as the pop left it: the frontier is the
old one without its head, the discovered set is the old one, nothing is enqueued again; and
the worker goes on with its next round from that state. -/
theorem fetch_failure_is_local (net : Nat → String → FetchResult) (fuel : Nat)
    (c popped : Crawler) (url : String) (htake : c.takeUrl = some (url, popped))
    (hfail : HttpClient.get (net popped.crawled_count_) url = FetchResult.threw ∨
      ∃ status_code body, HttpClient.get (net popped.crawled_count_) url =
        FetchResult.response status_code body ∧ status_code ≠ 200) :
    popped.handleFetch url (HttpClient.get (net popped.crawled_count_) url) = popped ∧
      popped.frontier_ = c.frontier_.tail ∧ popped.discovered_ = c.discovered_ ∧
      Crawler.workerThread net (fuel + 1) c = Crawler.workerThread net fuel popped := by
  obtain ⟨h1, h2, _, _, _⟩ := takeUrl_some _ _ _ htake
  have hsame : popped.handleFetch url (HttpClient.get (net popped.crawled_count_) url) =
      popped := by
    rcases hfail with h | ⟨status_code, body, h, hs⟩
    · rw [h]; rfl
    · rw [h]; simp [Crawler.handleFetch, hs]
  refine ⟨hsame, by rw [h1]; rfl, h2, ?_⟩
  simp only [Crawler.workerThread, htake]
  rw [hsame]

/-- Witness of C20: the seed has no `://`, so `HttpClient::get` throws, and the second seed is
still in the frontier for the next round. -/
theorem fetch_failure_is_local_witness :
    (⟨["http://b.example/"], ["no-scheme", "http://b.example/"], 1000, 1⟩ : Crawler).handleFetch
        "no-scheme" (HttpClient.get ((fun _ _ => FetchResult.response 200 "") 1) "no-scheme") =
        ⟨["http://b.example/"], ["no-scheme", "http://b.example/"], 1000, 1⟩ ∧
      (⟨["http://b.example/"], ["no-scheme", "http://b.example/"], 1000, 1⟩ : Crawler).frontier_ =
        ((Crawler.init 1000).start ["no-scheme", "http://b.example/"]).frontier_.tail ∧
      (⟨["http://b.example/"], ["no-scheme", "http://b.example/"], 1000, 1⟩ : Crawler).discovered_ =
        ((Crawler.init 1000).start ["no-scheme", "http://b.example/"]).discovered_ ∧
      Crawler.workerThread (fun _ _ => FetchResult.response 200 "") (3 + 1)
          ((Crawler.init 1000).start ["no-scheme", "http://b.example/"]) =
        Crawler.workerThread (fun _ _ => FetchResult.response 200 "") 3
          ⟨["http://b.example/"], ["no-scheme", "http://b.example/"], 1000, 1⟩ :=
  fetch_failure_is_local (fun _ _ => FetchResult.response 200 "") 3
    ((Crawler.init 1000).start ["no-scheme", "http://b.example/"])
    ⟨["http://b.example/"], ["no-scheme", "http://b.example/"], 1000, 1⟩ "no-scheme"
    (by decide) (Or.inl (by decide))

/-- C16, the claim refuted: the ASCII text `don't` yields the single token `don't`, which
contains an apostrophe, neither a lowercase letter nor a digit. -/
theorem tokenize_apostrophe_counterexample :
    TextParser.tokenize "don't" = ["don't"] ∧ apostrophe ∈ "don't".data ∧
      apostrophe.isLower = false ∧ apostrophe.isDigit = false := by
  decide

/-- C16 as amended. Every token returned by `tokenize` is non-empty, consists only of
lowercase letters, digits and apostrophes, and is the lower-cased copy of a maximal run of
alphanumeric or apostrophe characters of the input. -/
theorem tokenize_normal_form (text : String) (tok : String)
    (h : tok ∈ TextParser.tokenize text) :
    tok.data ≠ [] ∧
      (∀ c ∈ tok.data, c.isLower = true ∨ c.isDigit = true ∨ c = apostrophe) ∧
      IsTokenOf text.data tok := by
  have ht := tokenize_isTokenOf text tok h
  obtain ⟨pre, run, post, _, hne, hrun, htok, _, _⟩ := ht
  refine ⟨?_, ?_, tokenize_isTokenOf text tok h⟩
  · rw [htok]
    simpa using hne
  · intro c hc
    rw [htok] at hc
    obtain ⟨x, hx, hxc⟩ := List.mem_map.mp hc
    rw [← hxc]
    exact tokenChar_toLower x (hrun x hx)

/-- Witness of the amended C16: the second token of `Hello, World`. -/
theorem tokenize_normal_form_witness :
    "world".data ≠ [] ∧
      (∀ c ∈ "world".data, c.isLower = true ∨ c.isDigit = true ∨ c = apostrophe) ∧
      IsTokenOf "Hello, World".data "world" :=
  tokenize_normal_form "Hello, World" "world" (by decide)

/-- C21 (no seeds). `start` with an empty seed list on a fresh crawler leaves the frontier
empty, the discovered set empty and `crawled_count_` at 0; every worker returns in its first
round with that state, whatever the transport, and no URL is popped for a fetch. -/
theorem start_without_seeds (max_pages : Nat) (net : Nat → String → FetchResult)
    (fuel n : Nat) :
    (Crawler.init max_pages).start [] = Crawler.init max_pages ∧
      ((Crawler.init max_pages).start []).frontier_ = [] ∧
      ((Crawler.init max_pages).start []).discovered_ = [] ∧
      ((Crawler.init max_pages).start []).crawled_count_ = 0 ∧
      Crawler.workerThread net (fuel + 1) ((Crawler.init max_pages).start []) =
        some (Crawler.init max_pages) ∧
      CrawlTrace.run max_pages [] (List.replicate n CrawlStep.take) =
        ⟨Crawler.init max_pages, [], []⟩ := by
  refine ⟨rfl, rfl, rfl, rfl, rfl, ?_⟩
  unfold CrawlTrace.run
  have h0 : CrawlTrace.begin max_pages [] = ⟨Crawler.init max_pages, [], []⟩ := rfl
  rw [h0]
  induction n with
  | zero => rfl
  | succ k ih =>
    rw [List.replicate_succ, List.foldl_cons]
    exact ih

/-- C24 (positions are the occurrence offsets). After adding a document `d` whose id has no
posting yet in the list of a term `t` of `d`, the list of `t` has exactly one posting of
`d.id`, and its positions are the indices `i < d.tokens.length` with `d.tokens[i] = t`, in
strictly increasing order. -/
theorem positions_are_occurrences (idx : InvertedIndex) (d : Document) (t : String)
    (hfresh : ∀ p ∈ idx.getPostings t, p.doc_id ≠ d.id) (ht : t ∈ d.tokens) :
    ∃ p, ((idx.addDocument d).getPostings t).filter (fun q => decide (q.doc_id = d.id)) = [p] ∧
      p.positions =
        (List.range d.tokens.length).filter (fun i => decide (d.tokens[i]? = some t)) ∧
      p.positions.Pairwise (fun i j => i < j) := by
  have hocc : occurrences t 0 d.tokens =
      (List.range d.tokens.length).filter (fun i => decide (d.tokens[i]? = some t)) := by
    rw [occurrences_eq_filter_range]
    simp
  refine ⟨_, filter_getPostings_addDocument_fresh idx d t hfresh ht, hocc, ?_⟩
  show (occurrences t 0 d.tokens).Pairwise _
  rw [hocc]
  exact List.Pairwise.filter _ (List.pairwise_lt_range _)

/-- Witness of C24: document A added to the index that holds document B. -/
theorem positions_are_occurrences_witness :
    ∃ p, (((buildIndex [docB]).addDocument docA).getPostings "cat").filter
        (fun q => decide (q.doc_id = docA.id)) = [p] ∧
      p.positions =
        (List.range docA.tokens.length).filter (fun i => decide (docA.tokens[i]? = some "cat")) ∧
      p.positions.Pairwise (fun i j => i < j) :=
  positions_are_occurrences (buildIndex [docB]) docA "cat" (by decide) (by decide)

/-- C25 (posting lists are ordered by insertion). When `d1` and then `d2` are added, with
distinct ids that have no posting yet in the list of a term `t` of both, the document ids of
the list of `t` are the old ones followed by `d1.id` and then `d2.id`. In general the ids of
the list of `t` after an `addDocument` are the old ones in their old order, followed by the
new id when the document contains `t` and had no posting there. -/
theorem postings_in_insertion_order (idx : InvertedIndex) (d1 d2 : Document) (t : String)
    (h1 : t ∈ d1.tokens) (h2 : t ∈ d2.tokens) (hne : d1.id ≠ d2.id)
    (hf1 : d1.id ∉ (idx.getPostings t).map Posting.doc_id)
    (hf2 : d2.id ∉ (idx.getPostings t).map Posting.doc_id) :
    (((idx.addDocument d1).addDocument d2).getPostings t).map Posting.doc_id =
        (idx.getPostings t).map Posting.doc_id ++ [d1.id, d2.id] ∧
      ∀ (j : InvertedIndex) (d : Document),
        ((j.addDocument d).getPostings t).map Posting.doc_id =
          if t ∈ d.tokens ∧ d.id ∉ (j.getPostings t).map Posting.doc_id then
            (j.getPostings t).map Posting.doc_id ++ [d.id]
          else (j.getPostings t).map Posting.doc_id := by
  refine ⟨?_, fun j d => getPostings_addDocument_ids j d t⟩
  have e1 := getPostings_addDocument_ids idx d1 t
  rw [if_pos ⟨h1, hf1⟩] at e1
  have hf2b : d2.id ∉ ((idx.addDocument d1).getPostings t).map Posting.doc_id := by
    rw [e1]
    intro hm
    rcases List.mem_append.mp hm with hm1 | hm1
    · exact hf2 hm1
    · exact hne (List.mem_singleton.mp hm1).symm
  rw [getPostings_addDocument_ids, if_pos ⟨h2, hf2b⟩, e1]
  simp

/-- Witness of C25: documents A and B added to the index that holds document D. -/
theorem postings_in_insertion_order_witness :
    ((((buildIndex [docD]).addDocument docA).addDocument docB).getPostings "cat").map
        Posting.doc_id =
      ((buildIndex [docD]).getPostings "cat").map Posting.doc_id ++ [docA.id, docB.id] :=
  (postings_in_insertion_order (buildIndex [docD]) docA docB "cat" (by decide) (by decide)
    (by decide) (by decide) (by decide)).1

/-- C27 (frame of addDocument). `addDocument d` leaves unchanged the posting list of every
term that does not occur in `d.tokens`, the postings of every other document id in every
list, with their order, and the stored record of every other document id. -/
theorem addDocument_frame (idx : InvertedIndex) (d : Document) :
    (∀ t, t ∉ d.tokens → (idx.addDocument d).getPostings t = idx.getPostings t) ∧
      (∀ t, ((idx.addDocument d).getPostings t).filter (fun q => decide (q.doc_id ≠ d.id)) =
        (idx.getPostings t).filter (fun q => decide (q.doc_id ≠ d.id))) ∧
      (∀ i, i ≠ d.id → (idx.addDocument d).getDocument i = idx.getDocument i) := by
  refine ⟨?_, ?_, ?_⟩
  · intro t ht
    rw [getPostings_addDocument, (occurrences_eq_nil_iff t 0 d.tokens).mpr ht]
    rfl
  · intro t
    rw [getPostings_addDocument, foldl_notePosition_filter_others]
  · intro i hi
    rw [getDocument_addDocument, if_neg (fun e => hi e.symm)]

/-- C26 (link admission). For every prior state and page content, the frontier after
`processPage` is the old frontier followed by the extracted links that were not in the
discovered set, each once and in order of first appearance; the new discovered set holds
exactly the old members and the extracted links; the counters are unchanged. -/
theorem processPage_admits_new_links (c : Crawler) (url content : String) :
    (c.processPage url content).frontier_ =
        c.frontier_ ++ firstAppearances
          ((TextParser.extractLinks content).filter (fun l => decide (l ∉ c.discovered_))) ∧
      (firstAppearances
          ((TextParser.extractLinks content).filter (fun l => decide (l ∉ c.discovered_)))).Nodup ∧
      (∀ u, u ∈ (c.processPage url content).discovered_ ↔
        u ∈ c.discovered_ ∨ u ∈ TextParser.extractLinks content) ∧
      (c.processPage url content).max_pages_ = c.max_pages_ ∧
      (c.processPage url content).crawled_count_ = c.crawled_count_ := by
  obtain ⟨h1, h2⟩ := admitLinks_exact (TextParser.extractLinks content) c
  obtain ⟨_, _, h3, h4⟩ := admitLinks_effect (TextParser.extractLinks content) c
  exact ⟨h1, nodup_firstAppearances _, h2, h3, h4⟩

/-- C28 (term-frequency monotonicity). On an index built by `addDocument` calls, for the
one-term query `t` and `total_docs > 1 + size of the list of t`, if documents `a` and `b`
have postings for `t` with `frequency a > frequency b`, then over the reals the score of `a`
is strictly greater than the score of `b`, and the result of `a` stands before the result of
`b` in the output of `rank`. -/
theorem tf_monotone (H : HashOrder) (hH : H.Valid) (docs : List Document) (t : String)
    (total_docs a b : Nat) (pa pb : Posting)
    (hN : total_docs > 1 + ((buildIndex docs).getPostings t).length)
    (ha : ((buildIndex docs).getPostings t).find? (fun q => decide (q.doc_id = a)) = some pa)
    (hb : ((buildIndex docs).getPostings t).find? (fun q => decide (q.doc_id = b)) = some pb)
    (hf : pa.frequency > pb.frequency) :
    docScore realOps [t] (buildIndex docs) total_docs a >
        docScore realOps [t] (buildIndex docs) total_docs b ∧
      [(⟨a, docScore realOps [t] (buildIndex docs) total_docs a⟩ : Result ℝ),
        ⟨b, docScore realOps [t] (buildIndex docs) total_docs b⟩].Sublist
        (Ranker.rank realOps H [t] (buildIndex docs) total_docs) := by
  have hfb : 1 ≤ pb.frequency :=
    frequency_positive docs t pb (List.mem_of_find?_eq_some hb)
  have hidf : 0 < Real.log ((total_docs : ℝ) /
      (1 + (((buildIndex docs).getPostings t).length : ℝ))) := by
    apply Real.log_pos
    have hpos : (0 : ℝ) < 1 + (((buildIndex docs).getPostings t).length : ℝ) := by positivity
    rw [one_lt_div hpos]
    have : ((1 + ((buildIndex docs).getPostings t).length : Nat) : ℝ) < (total_docs : ℝ) :=
      Nat.cast_lt.mpr hN
    simpa using this
  have htf : Real.log (pb.frequency : ℝ) < Real.log (pa.frequency : ℝ) := by
    apply Real.log_lt_log
    · exact Nat.cast_pos.mpr hfb
    · exact Nat.cast_lt.mpr hf
  have hscore : docScore realOps [t] (buildIndex docs) total_docs a >
      docScore realOps [t] (buildIndex docs) total_docs b := by
    rw [docScore_single _ t total_docs a pa ha, docScore_single _ t total_docs b pb hb]
    exact mul_lt_mul_of_pos_right (by linarith) hidf
  refine ⟨hscore, ?_⟩
  have hma := mem_rank_of_posting realOps H hH [t] (buildIndex docs) total_docs t
    (List.mem_singleton.mpr rfl) a pa ha
  have hmb := mem_rank_of_posting realOps H hH [t] (buildIndex docs) total_docs t
    (List.mem_singleton.mpr rfl) b pb hb
  have hne : (⟨a, docScore realOps [t] (buildIndex docs) total_docs a⟩ : Result ℝ) ≠
      ⟨b, docScore realOps [t] (buildIndex docs) total_docs b⟩ := by
    intro e
    have e2 := congrArg Result.score e
    simp only at e2
    rw [e2] at hscore
    exact lt_irrefl _ hscore
  rcases sublist_pair_of_mem _ _ _ hma hmb hne with h | h
  · exact h
  · exfalso
    have hp := (rank_real_pairwise H [t] (buildIndex docs) total_docs).sublist h
    simp only [List.pairwise_cons, List.mem_singleton, forall_eq] at hp
    exact absurd hscore (not_lt.mpr hp.1)

/-- Witness of C28: documents A (`cat` three times) and B (`cat` once) with a corpus size
of 5. -/
theorem tf_monotone_witness :
    docScore realOps ["cat"] (buildIndex [docB, docA]) 5 1 >
        docScore realOps ["cat"] (buildIndex [docB, docA]) 5 2 ∧
      [(⟨1, docScore realOps ["cat"] (buildIndex [docB, docA]) 5 1⟩ : Result ℝ),
        ⟨2, docScore realOps ["cat"] (buildIndex [docB, docA]) 5 2⟩].Sublist
        (Ranker.rank realOps keyOrder ["cat"] (buildIndex [docB, docA]) 5) :=
  tf_monotone keyOrder keyOrder_valid [docB, docA] "cat" 5 1 2 ⟨1, 3, [0, 1, 2]⟩ ⟨2, 1, [0]⟩
    (by decide) (by decide) (by decide) (by decide)

/-- C30 (tokenizer idempotence). For every text `s`: tokenizing the tokens of `s` joined by
single spaces gives the tokens of `s` again, no token of `s` is empty, and the lower-cased
text has the same tokens as `s`. -/
theorem tokenize_idempotent (s : String) :
    TextParser.tokenize (joinBySpace (TextParser.tokenize s)) = TextParser.tokenize s ∧
      (∀ tok ∈ TextParser.tokenize s, tok ≠ "") ∧
      TextParser.tokenize (lowercase s) = TextParser.tokenize s := by
  refine ⟨?_, ?_, ?_⟩
  · exact tokenizeLoop_joinChars (TextParser.tokenize s) (fun tok h => tokenize_canonical s tok h)
  · intro tok h e
    have hne := (tokenize_canonical s tok h).1
    rw [e] at hne
    exact hne rfl
  · exact tokenizeLoop_map_toLower s.data [] []

/-- C29, the claim refuted: in the page `href="xhref="http://a.example/"` the second
occurrence of `href="` is followed by a text with `://` and a double quote, so the list worded
by the claim holds that link; `extractLinks` returns no link, because the quote of this
occurrence is the one that closes the value of the first. -/
theorem extractLinks_counterexample :
    TextParser.extractLinks nestedHrefPage = [] ∧
      linksByOccurrence nestedHrefPage = ["http://a.example/"] := by
  decide

/-- C29 as amended. On every input the loop of `extractLinks` ends within `length + 1`
rounds. The links returned are, in order of appearance, texts that stand between an
occurrence of `href="` and the next double quote and contain `://` (a sublist of the list of
all such texts), and they are all of them when no occurrence of `href="` has as its own
quote the quote that closes an earlier value. Every returned link is non-empty, has no double
quote and passes the `://` test of `HttpClient::get`. -/
theorem extractLinks_sound (html : String) :
    extractLinksFuel html.data (html.data.length + 1) 0 [] =
        some (TextParser.extractLinks html) ∧
      (TextParser.extractLinks html).Sublist (linksByOccurrence html) ∧
      (NoNestedHref html.data → TextParser.extractLinks html = linksByOccurrence html) ∧
      ∀ link ∈ TextParser.extractLinks html,
        link.data ≠ [] ∧ dquote ∉ link.data ∧ strFind link.data "://".data 0 ≠ none ∧
          ∀ net : String → FetchResult, HttpClient.get net link = net link := by
  have hsub : (TextParser.extractLinks html).Sublist (linksByOccurrence html) := by
    obtain ⟨added, e1, e2⟩ := extractLinksLoop_sublist html.data (html.data.length + 1) 0 []
    unfold TextParser.extractLinks linksByOccurrence
    rw [e1, List.nil_append]
    simpa using e2
  refine ⟨extractLinksFuel_eq html.data _ 0 [] (by omega), hsub, ?_, ?_⟩
  · intro hnest
    unfold TextParser.extractLinks linksByOccurrence
    rw [extractLinksLoop_exact html.data hnest _ 0 [] (by omega), List.nil_append]
    rfl
  · intro link hl
    obtain ⟨h1, h2, h3⟩ := hrefLinksAt_member html.data _ link (hsub.subset hl)
    refine ⟨h1, h2, h3, ?_⟩
    intro net
    unfold HttpClient.get
    cases hs : strFind link.data "://".data 0 with
    | none => exact absurd hs h3
    | some k => rfl

/-- C22, the claim refuted: F (id 1) and G (id 2) are stored under one URL. G is indexed, and
`removeDocument` of its URL succeeds, but it finds F first and removes F: afterwards the
posting of G is still in the list of `dog` and `getDocument` of its id still returns G. -/
theorem removeDocument_shared_url_counterexample :
    (buildIndex [docF, docG]).getDocument docG.id = some docG ∧
      ∃ after, IndexManager.removeDocument (buildIndex [docF, docG]) docG.url = some after ∧
        (∃ p ∈ after.getPostings "dog", p.doc_id = docG.id) ∧
        after.getDocument docG.id = some docG :=
  ⟨by decide, _, rfl, ⟨⟨2, 1, [0]⟩, by decide, rfl⟩, by decide⟩

/-- C22 as amended (removal). On an index built by `addDocument` calls whose stored records have
pairwise distinct URLs, for every stored document `d`, `removeDocument d.url` succeeds, and
afterwards no posting list holds a posting of `d.id`, `getDocument d.id` fails and
`getDocumentCount` is one less than before. -/
theorem removeDocument_removes (docs : List Document) (d : Document)
    (hstored : (buildIndex docs).getDocument d.id = some d)
    (hurls : ∀ i x, (buildIndex docs).getDocument i = some x → x.url = d.url → i = d.id) :
    ∃ after, IndexManager.removeDocument (buildIndex docs) d.url = some after ∧
      (∀ t, ∀ p ∈ after.getPostings t, p.doc_id ≠ d.id) ∧
      after.getDocument d.id = none ∧
      after.getDocumentCount + 1 = (buildIndex docs).getDocumentCount := by
  have hnodup := documents_keys_nodup docs
  have hmem : (d.id, d) ∈ (buildIndex docs).documents_ := mapFind_some_mem _ _ _ hstored
  cases hfind : (buildIndex docs).documents_.find? (fun e => decide (e.2.url = d.url)) with
  | none =>
    exfalso
    have h := List.find?_eq_none.mp hfind (d.id, d) hmem
    simp at h
  | some e =>
    obtain ⟨k, x⟩ := e
    have hx : x.url = d.url := by simpa using List.find?_some hfind
    have hkx : (buildIndex docs).getDocument k = some x :=
      mapFind_of_mem k x _ hnodup (List.mem_of_find?_eq_some hfind)
    have hk : k = d.id := hurls k x hkx hx
    subst hk
    refine ⟨(⟨(buildIndex docs).index_.map
        (fun e => (e.1, e.2.filter (fun p => decide (p.doc_id ≠ d.id)))),
      (buildIndex docs).documents_.filter (fun e => decide (e.1 ≠ d.id))⟩ : InvertedIndex),
      by simp only [IndexManager.removeDocument, hfind], ?_, ?_, ?_⟩
    · intro t p hp
      simp only [InvertedIndex.getPostings] at hp
      rw [postingsOf_map (fun ps => ps.filter (fun p => decide (p.doc_id ≠ d.id))) rfl] at hp
      simpa using (List.mem_filter.mp hp).2
    · exact mapFind_filter_self d.id _
    · exact length_filter_key d.id _ hnodup (List.mem_map_of_mem Prod.fst hmem)

/-- Witness of C22: document B removed from the three-document example. -/
theorem removeDocument_removes_witness :
    ∃ after, IndexManager.removeDocument (buildIndex [docA, docB, docC]) docB.url = some after ∧
      (∀ t, ∀ p ∈ after.getPostings t, p.doc_id ≠ docB.id) ∧
      after.getDocument docB.id = none ∧
      after.getDocumentCount + 1 = (buildIndex [docA, docB, docC]).getDocumentCount :=
  removeDocument_removes [docA, docB, docC] docB (by decide)
    (by
      intro i x hx hu
      have hi : i ∈ [docA, docB, docC].map Document.id := by
        by_contra hn
        rw [((getDocument_buildIndex [docA, docB, docC] i).trans
          (List.find?_eq_none.mpr (by
            intro y hy
            simp only [List.mem_reverse] at hy
            simp only [decide_eq_true_eq]
            intro e
            exact hn (e ▸ List.mem_map_of_mem Document.id hy))))] at hx
        exact absurd hx (by simp)
      simp only [List.map_cons, List.map_nil, List.mem_cons, List.mem_singleton,
        List.not_mem_nil, or_false] at hi
      rcases hi with hi | hi | hi
      · subst hi
        have e : x = docA := by
          have h2 : (buildIndex [docA, docB, docC]).getDocument docA.id = some docA := by decide
          rw [h2] at hx
          exact (Option.some.inj hx).symm
        rw [e] at hu
        exact absurd hu (by decide)
      · exact hi
      · subst hi
        have e : x = docC := by
          have h2 : (buildIndex [docA, docB, docC]).getDocument docC.id = some docC := by decide
          rw [h2] at hx
          exact (Option.some.inj hx).symm
        rw [e] at hu
        exact absurd hu (by decide))

/-- C23 (persistence round trip). For every index built from zero or more documents and
every order in which `save` enumerates the maps, `load` reads the file written by `save` into
a fresh index with the same `getDocumentCount`, the same result of `getDocument` for every
id and, for every term, the same posting list (the same postings in the same order, hence
the same multiset). -/
theorem save_load_round_trip (E : DiskOrder) (hE : E.Valid) (docs : List Document) :
    ∃ loaded, DiskIndex.load (DiskIndex.save E (buildIndex docs)) = some loaded ∧
      loaded.getDocumentCount = (buildIndex docs).getDocumentCount ∧
      (∀ i, loaded.getDocument i = (buildIndex docs).getDocument i) ∧
      (∀ t, loaded.getPostings t = (buildIndex docs).getPostings t) ∧
      ∀ t, (loaded.getPostings t).Perm ((buildIndex docs).getPostings t) := by
  have hdocs : ((E.docOrder ((buildIndex docs).documents_.map Prod.snd)).map
      (fun d => (d.id, d))).Perm (buildIndex docs).documents_ := by
    have hp := (hE.2 ((buildIndex docs).documents_.map Prod.snd)).map (fun d => (d.id, d))
    rw [documents_rekeyed docs] at hp
    exact hp
  have hpost : ∀ t, postingsOf t (E.termOrder (buildIndex docs).index_) =
      postingsOf t (buildIndex docs).index_ := by
    intro t
    unfold postingsOf
    rw [mapFind_perm t _ _ (hE.1 _) (index_keys_nodup docs)]
  refine ⟨_, load_save E hE docs, ?_, ?_, ?_, ?_⟩
  · simpa [InvertedIndex.getDocumentCount] using hdocs.length_eq
  · intro i
    exact mapFind_perm i _ _ hdocs (documents_keys_nodup docs)
  · intro t
    exact hpost t
  · intro t
    exact List.Perm.of_eq (hpost t)

/-- Witness of C23: the three-document example, saved with the maps enumerated backwards. -/
theorem save_load_round_trip_witness :
    ∃ loaded, DiskIndex.load (DiskIndex.save reverseDiskOrder (buildIndex [docA, docB, docC])) =
        some loaded ∧
      loaded.getDocumentCount = (buildIndex [docA, docB, docC]).getDocumentCount ∧
      (∀ i, loaded.getDocument i = (buildIndex [docA, docB, docC]).getDocument i) ∧
      (∀ t, loaded.getPostings t = (buildIndex [docA, docB, docC]).getPostings t) ∧
      ∀ t, (loaded.getPostings t).Perm ((buildIndex [docA, docB, docC]).getPostings t) :=
  save_load_round_trip reverseDiskOrder diskOrder_reverse_valid [docA, docB, docC]

end ZepraSearch

